import Mathlib

/-!
# Verification of the TextHighlighter annotation engine

A shallow embedding of `src/text-highlighter.js` and `src/utils.js`
(Brakebein/texthighlighter).  The DOM is modelled as an ordered tree whose
nodes carry a numeric identity (DOM nodes are mutable objects with identity;
the id plays that role).  Element nodes carry the tag, the computed
background color, the `data-highlighted` marker attribute and the class
name — the only attributes the engine reads.  Text nodes carry their
character data as a `List Char`.

The `dom.js` module of the repository is not part of the provided sources;
each primitive taken from it is modelled from the spec's description of the
tree-primitive collaborator and is marked `Modelled from the spec:` at its
definition.
-/

namespace TH

/-- The element data the engine reads: tag name, computed background color
(`dom(x).color()`), the `data-highlighted` marker attribute (`DATA_ATTR`)
and the class attribute. -/
structure EInfo where
  id : Nat
  tag : List Char
  color : List Char
  marked : Bool
  cls : List Char
deriving Repr, DecidableEq

/-- A DOM node: a text node with character data, or an element with an
ordered child list.  The `Nat` ids model DOM object identity. -/
inductive Node : Type where
  | text : Nat → List Char → Node
  | elem : EInfo → List Node → Node
deriving Repr

/-- The id of a node (its object identity). -/
def Node.idOf : Node → Nat
  | .text i _ => i
  | .elem e _ => e.id

/-- `nodeType === NODE_TYPE.ELEMENT_NODE` test. -/
def Node.isElem : Node → Bool
  | .text _ _ => false
  | .elem _ _ => true

/-- The children of a node (`childNodes`; empty for text nodes). -/
def Node.childNodes : Node → List Node
  | .text _ _ => []
  | .elem _ cs => cs

mutual
/-- `textContent`: in-order concatenation of all text data below a node. -/
def Node.textContent : Node → List Char
  | .text _ v => v
  | .elem _ cs => Node.textContentL cs
/-- `textContent` of a list of sibling nodes, in order. -/
def Node.textContentL : List Node → List Char
  | [] => []
  | n :: ns => n.textContent ++ Node.textContentL ns
end

mutual
/-- All node ids occurring in a subtree (pre-order). -/
def Node.idList : Node → List Nat
  | .text i _ => [i]
  | .elem e cs => e.id :: Node.idListL cs
/-- All node ids occurring in a forest (pre-order). -/
def Node.idListL : List Node → List Nat
  | [] => []
  | n :: ns => n.idList ++ Node.idListL ns
end

mutual
/-- Find the subtree rooted at the node with the given id. -/
def Node.find? : Node → Nat → Option Node
  | .text j v, i => if j = i then some (.text j v) else none
  | .elem e cs, i => if e.id = i then some (.elem e cs) else Node.findL? cs i
/-- Find the subtree rooted at the node with the given id in a forest. -/
def Node.findL? : List Node → Nat → Option Node
  | [], _ => none
  | n :: ns, i =>
    match n.find? i with
    | some m => some m
    | none => Node.findL? ns i
end

mutual
/-- `parentElement`/`parentNode` within the modelled tree: the node whose
child list contains the node with the given id. -/
def Node.parent? : Node → Nat → Option Node
  | .text _ _, _ => none
  | .elem e cs, i =>
    if cs.any (fun c => c.idOf = i) then some (.elem e cs)
    else Node.parentL? cs i
/-- Parent search in a forest. -/
def Node.parentL? : List Node → Nat → Option Node
  | [], _ => none
  | n :: ns, i =>
    match n.parent? i with
    | some m => some m
    | none => Node.parentL? ns i
end

mutual
/-- Replace the (unique) node with the given id by a list of nodes in its
parent's child list.  The splicing primitive from which the tree
mutations below are built; the root itself is never replaced. -/
def Node.replaceId : Node → Nat → List Node → Node
  | .text j v, _, _ => .text j v
  | .elem e cs, i, rep => .elem e (Node.replaceIdL cs i rep)
/-- Replacement inside a forest. -/
def Node.replaceIdL : List Node → Nat → List Node → List Node
  | [], _, _ => []
  | n :: ns, i, rep =>
    if n.idOf = i then rep ++ ns
    else n.replaceId i rep :: Node.replaceIdL ns i rep
end

/-- Index of the node with the given id in a child list
(`childNodes.indexOf`). -/
def childIdx? (cs : List Node) (i : Nat) : Option Nat :=
  cs.findIdx? (fun c => c.idOf = i)

/-- `previousSibling` of the node with the given id. -/
def Node.prevSib? (root : Node) (i : Nat) : Option Node :=
  match root.parent? i with
  | none => none
  | some p =>
    match childIdx? p.childNodes i with
    | none => none
    | some 0 => none
    | some (k + 1) => p.childNodes[k]?

/-- `nextSibling` of the node with the given id. -/
def Node.nextSib? (root : Node) (i : Nat) : Option Node :=
  match root.parent? i with
  | none => none
  | some p =>
    match childIdx? p.childNodes i with
    | none => none
    | some k => p.childNodes[k + 1]?

/-- Whether the node with the given id is in the tree (`hl.parentElement`
is non-null, or the node is the root anchor). -/
def Node.attached (root : Node) (i : Nat) : Bool :=
  i ∈ root.idList

mutual
/-- The number of ancestors of a node inside the modelled tree
(`dom(node).parents().length` counts ancestors up to the document root;
within one tree the relative order of two nodes' counts is the same). -/
def Node.depthOf : Node → Nat → Option Nat
  | .text j _, i => if j = i then some 0 else none
  | .elem e cs, i =>
    if e.id = i then some 0
    else
      match Node.depthOfL cs i with
      | some d => some (d + 1)
      | none => none
/-- Depth search in a forest. -/
def Node.depthOfL : List Node → Nat → Option Nat
  | [], _ => none
  | n :: ns, i =>
    match Node.depthOf n i with
    | some d => some d
    | none => Node.depthOfL ns i
end

/-- A document: the anchor element's tree plus a supply of fresh node ids
(the DOM allocates new node objects in `splitText` and when building
wrapper elements). -/
structure Doc where
  root : Node
  nextId : Nat
deriving Repr

/-- Ids are unique in the tree and below the fresh-id supply. -/
def Doc.WF (d : Doc) : Prop :=
  d.root.idList.Nodup ∧ ∀ i ∈ d.root.idList, i < d.nextId

/-- `dom(node).remove()`. Modelled from the spec: the tree-primitive
collaborator removes a node from its parent (`dom.js` is not in the
provided sources). -/
def Node.removeId (root : Node) (i : Nat) : Node :=
  root.replaceId i []

/-- `dom(x).insertBefore(target)`. Modelled from the spec: detach `x` and
reinsert it as the sibling immediately before `target`. -/
def Node.moveBefore (root : Node) (x target : Nat) : Node :=
  match root.find? x with
  | none => root
  | some xs =>
    let r := root.replaceId x []
    match r.find? target with
    | none => r
    | some t => r.replaceId target [xs, t]

/-- `dom(x).insertAfter(target)`. Modelled from the spec: detach `x` and
reinsert it as the sibling immediately after `target`. -/
def Node.moveAfter (root : Node) (x target : Nat) : Node :=
  match root.find? x with
  | none => root
  | some xs =>
    let r := root.replaceId x []
    match r.find? target with
    | none => r
    | some t => r.replaceId target [t, xs]

/-- `dom(node).wrap(wrapper)`. Modelled from the spec: replace the node by
the wrapper element containing exactly that node. -/
def Node.wrapId (root : Node) (i : Nat) (e : EInfo) : Node :=
  match root.find? i with
  | none => root
  | some n => root.replaceId i [.elem e [n]]

/-- `dom(el).unwrap()`. Modelled from the spec: replace the element by its
own children in its parent, returning the moved child nodes. -/
def Node.unwrapId (root : Node) (i : Nat) : Node × List Node :=
  match root.find? i with
  | some (.elem _ cs) => (root.replaceId i cs, cs)
  | _ => (root, [])

/-- `textNode.splitText(offset)` (platform primitive used by the source):
split the text node at the offset; the original node keeps the first part,
a fresh node carries the remainder and is returned.  An offset beyond the
length raises `IndexSizeError` (`none`); so does calling it on a
non-text node. -/
def Doc.splitText (d : Doc) (i : Nat) (off : Nat) : Option (Doc × Nat) :=
  match d.root.find? i with
  | some (.text j v) =>
    if off ≤ v.length then
      some ({ root := d.root.replaceId i [.text j (v.take off), .text d.nextId (v.drop off)],
              nextId := d.nextId + 1 }, d.nextId)
    else none
  | _ => none

/-- `dom(node).color()`. Modelled from the spec: the computed background
color the tree primitive exposes for an element; text nodes expose none. -/
def Node.colorOf : Node → List Char
  | .text _ _ => []
  | .elem e _ => e.color

/-- `haveSameColor` from `utils.js`. -/
def haveSameColor (a b : Node) : Bool :=
  a.colorOf = b.colorOf

/-- `isHighlight`: an element node carrying the `DATA_ATTR` attribute. -/
def isHighlight : Node → Bool
  | .text _ _ => false
  | .elem e _ => e.marked

/-- `unique` from `utils.js`: keep the first occurrence of each value. -/
def jsUnique (l : List Nat) : List Nat :=
  l.foldl (fun acc x => if x ∈ acc then acc else acc ++ [x]) []

mutual
/-- The markers below a node in pre-order
(`container.querySelectorAll('[data-highlighted]')` plus, per
`getHighlights` with `andSelf`, the container itself when marked —
appended last, as the source pushes it after the query results). -/
def Node.descMarkers : Node → List Nat
  | .text _ _ => []
  | .elem _ cs => Node.descMarkersL cs
/-- Markers in a forest, in pre-order. -/
def Node.descMarkersL : List Node → List Nat
  | [] => []
  | n :: ns =>
    (match n with
     | .text _ _ => []
     | .elem e cs => (if e.marked then [e.id] else []) ++ Node.descMarkersL cs)
    ++ Node.descMarkersL ns
end

/-- `getHighlights({container, andSelf: true})`: marker descendants in
document order, then the container itself if it is marked. -/
def getHighlights (root : Node) (container : Nat) : List Nat :=
  match root.find? container with
  | none => []
  | some c => c.descMarkers ++ (if isHighlight c then [c.idOf] else [])

/-- `sortByDepth` from `utils.js`: stable sort of the collected markers by
their number of ancestors, descending or ascending. -/
def sortByDepth (root : Node) (l : List Nat) (descending : Bool) : List Nat :=
  l.mergeSort (fun a b =>
    let da := (root.depthOf a).getD 0
    let db := (root.depthOf b).getD 0
    if descending then db ≤ da else da ≤ db)

mutual
/-- Number of marker elements in a subtree. -/
def Node.markerCount : Node → Nat
  | .text _ _ => 0
  | .elem e cs => (if e.marked then 1 else 0) + Node.markerCountL cs
/-- Number of marker elements in a forest. -/
def Node.markerCountL : List Node → Nat
  | [] => 0
  | n :: ns => n.markerCount + Node.markerCountL ns
end

/-- One entry of the `highlights.forEach` body inside `flattenOnce`
(`flattenNestedHighlights`, text-highlighter.js:200-237).  State is the
tree, the (live) highlights array and the `again` flag.  A list entry
whose `parentElement` is null makes the body's very first sibling read
throw, modelled as an error; an entry that is the anchor element itself
has its parent outside the modelled tree (never a marker), so nothing
happens.  Entries inside detached subtrees are outside the model; every
claim below keeps entries attached. -/
def flattenStep (root : Node) (hls : List Nat) (again : Bool) (k : Nat) :
    Except (List Char) (Node × List Nat × Bool) :=
  match hls[k]? with
  | none => .ok (root, hls, again)
  | some hid =>
    if hid = root.idOf then .ok (root, hls, again)
    else
      match root.parent? hid with
      | none => .error ("TypeError: cannot read previousSibling of null".toList)
      | some parent =>
        let parentPrev := root.prevSib? parent.idOf
        let parentNext := root.nextSib? parent.idOf
        match parent.childNodes.find? (fun c => c.idOf = hid) with
        | none => .ok (root, hls, again)
        | some hl =>
          if isHighlight parent then
            if haveSameColor parent hl then
              -- `parent.replaceChild(hl.firstChild, hl); highlights[i] = parent`
              match hl.childNodes.head? with
              | none => .error ("TypeError: replaceChild with null".toList)
              | some c => .ok (root.replaceId hid [c], hls.set k parent.idOf, true)
            else
              -- `if (!hl.nextSibling) dom(hl).insertBefore(parentNext || parent)`
              let fire1 := (root.nextSib? hid).isNone
              let r1 := if fire1 then
                  root.moveBefore hid ((parentNext.map Node.idOf).getD parent.idOf)
                else root
              -- `if (!hl.previousSibling) dom(hl).insertAfter(parentPrev || parent)`
              let fire2 := (r1.prevSib? hid).isNone
              let r2 := if fire2 then
                  r1.moveAfter hid ((parentPrev.map Node.idOf).getD parent.idOf)
                else r1
              -- `if (!parent.hasChildNodes()) dom(parent).remove()`
              let r3 := match r2.find? parent.idOf with
                | some (.elem _ []) => r2.removeId parent.idOf
                | _ => r2
              .ok (r3, hls, again || fire1 || fire2)
          else .ok (root, hls, again)

/-- `flattenOnce`: one pass of the `forEach` over the highlights array,
starting with `again = false`. -/
def flattenOnce (root : Node) (hls : List Nat) :
    Except (List Char) (Node × List Nat × Bool) :=
  (List.range hls.length).foldlM
    (fun st k => flattenStep st.1 st.2.1 st.2.2 k) (root, hls, false)

mutual
/-- The number of nodes in a subtree (a reasoning quantity for the
termination measure). -/
def Node.weight : Node → Nat
  | .text _ _ => 1
  | .elem _ cs => 1 + Node.weightL cs
/-- The number of nodes in a forest. -/
def Node.weightL : List Node → Nat
  | [] => 0
  | n :: ns => n.weight + Node.weightL ns
end

mutual
/-- The total nesting depth of a subtree: the sum, over every node
strictly below the root of the subtree, of its depth below that root. -/
def Node.dsum : Node → Nat
  | .text _ _ => 0
  | .elem _ cs => Node.dsumL cs + Node.weightL cs
/-- The summed total nesting depth of a forest. -/
def Node.dsumL : List Node → Nat
  | [] => 0
  | n :: ns => n.dsum + Node.dsumL ns
end

/-- The termination measure of the flatten fixed-point loop: the total
nesting depth of the tree (every pass of the loop that reports a change
strictly decreases it; see the flatten termination theorem). -/
def flattenMeasure (root : Node) (_hls : List Nat) : Nat :=
  root.dsum

/-- The `do { again = flattenOnce(); } while (again)` loop.  The source
loops unboundedly; here the iteration count is fuel, and running out of
fuel is an error (shown unreachable for the fuel used below by the
measure-decrease theorem). -/
def flattenLoop : Nat → Node → List Nat → Except (List Char) (Node × List Nat)
  | 0, _, _ => .error ("fuel".toList)
  | fuel + 1, root, hls =>
    match flattenOnce root hls with
    | .error e => .error e
    | .ok (r, h, false) => .ok (r, h)
    | .ok (r, h, true) => flattenLoop fuel r h

/-- `flattenNestedHighlights`: sort by depth descending, then run the
flatten pass to its fixed point. -/
def flattenNestedHighlights (root : Node) (hls : List Nat) :
    Except (List Char) (Node × List Nat) :=
  let sorted := sortByDepth root hls true
  flattenLoop (flattenMeasure root sorted + 1) root sorted

/-- The `shouldMerge` predicate of `mergeSiblingHighlights`: the sibling
exists, is an element, has the same color and is a highlight. -/
def shouldMerge (current : Node) (n : Option Node) : Bool :=
  match n with
  | some m => m.isElem && haveSameColor current m && isHighlight m
  | none => false

mutual
/-- Set the child list of the node with the given id (a reasoning
primitive used to state where each mutation acts). -/
def Node.withChildrenAt : Node → Nat → List Node → Node
  | .text j v, _, _ => .text j v
  | .elem e cs, i, ncs =>
    if e.id = i then .elem e ncs else .elem e (Node.withChildrenAtL cs i ncs)
/-- Child-list update inside a forest. -/
def Node.withChildrenAtL : List Node → Nat → List Node → List Node
  | [], _, _ => []
  | n :: ns, i, ncs => n.withChildrenAt i ncs :: Node.withChildrenAtL ns i ncs
end

mutual
/-- `dom(hl).prepend(prev.childNodes); dom(prev).remove()`: the
immediately preceding sibling's children are moved to the front of the
node with the given id and the emptied sibling is deleted.  Modelled from
the spec: "absorb that sibling's children into this marker (prepend for a
preceding sibling)".  The splice acts where the node with the given id
follows its sibling. -/
def Node.absorbPrev : Node → Nat → Node
  | .text j v, _ => .text j v
  | .elem e cs, i => .elem e (Node.absorbPrevL cs i)
/-- Absorption of a preceding sibling inside a forest. -/
def Node.absorbPrevL : List Node → Nat → List Node
  | [], _ => []
  | [n], i => [n.absorbPrev i]
  | a :: b :: rest, i =>
    if b.idOf = i then
      match a, b with
      | .elem _ acs, .elem be bcs => .elem be (acs ++ bcs) :: rest
      | _, _ => a :: b :: rest
    else a.absorbPrev i :: Node.absorbPrevL (b :: rest) i
end

mutual
/-- `dom(hl).append(next.childNodes); dom(next).remove()`: the
immediately following sibling's children are appended and the emptied
sibling is deleted. -/
def Node.absorbNext : Node → Nat → Node
  | .text j v, _ => .text j v
  | .elem e cs, i => .elem e (Node.absorbNextL cs i)
/-- Absorption of a following sibling inside a forest. -/
def Node.absorbNextL : List Node → Nat → List Node
  | [], _ => []
  | [n], i => [n.absorbNext i]
  | a :: b :: rest, i =>
    if a.idOf = i then
      match a, b with
      | .elem ae acs, .elem _ bcs => .elem ae (acs ++ bcs) :: rest
      | _, _ => a :: b :: rest
    else a.absorbNext i :: Node.absorbNextL (b :: rest) i
end

/-- Coalesce adjacent text-node children into one text node: each maximal
run of adjacent text nodes becomes a single text node carrying the run's
first identity (the DOM convention). -/
def coalesceTexts : List Node → List Node
  | [] => []
  | .text i v :: rest =>
    match coalesceTexts rest with
    | .text _ w :: rest2 => .text i (v ++ w) :: rest2
    | other => .text i v :: other
  | n :: rest => n :: coalesceTexts rest

/-- `dom(hl).normalizeTextNodes()`. Modelled from the spec: "coalesce any
now-adjacent text-node children into a single text node". -/
def Node.normalizeTextNodesAt (root : Node) (i : Nat) : Node :=
  match root.find? i with
  | some (.elem e cs) => root.replaceId i [.elem e (coalesceTexts cs)]
  | _ => root

/-- The `highlights.forEach` body of `mergeSiblingHighlights`
(text-highlighter.js:258-272).  Both siblings are captured before the
first absorption, as in the source.  A detached entry has no siblings and
its text normalization touches only the detached node. -/
def mergeOne (root : Node) (hid : Nat) : Node :=
  match root.find? hid with
  | none => root
  | some hl =>
    let prev := root.prevSib? hid
    let next := root.nextSib? hid
    let r1 := if shouldMerge hl prev then root.absorbPrev hid else root
    let r2 := if shouldMerge hl next then r1.absorbNext hid else r1
    r2.normalizeTextNodesAt hid

/-- `mergeSiblingHighlights`. -/
def mergeSiblingHighlights (root : Node) (hls : List Nat) : Node :=
  hls.foldl mergeOne root

/-- `normalizeHighlights`: flatten, merge, drop entries detached from the
tree, de-duplicate.  The final sort by `offsetTop`/`offsetLeft` is a
rendering-dependent tie-break (spec §4.3) with no structural effect and is
not modelled; properties below are stated about the surviving set. -/
def normalizeHighlights (root : Node) (hls : List Nat) :
    Except (List Char) (Node × List Nat) :=
  match flattenNestedHighlights root hls with
  | .error e => .error e
  | .ok (r1, h1) =>
    let r2 := mergeSiblingHighlights r1 h1
    let surv := h1.filter (fun i => (r2.parent? i).isSome || i = r2.idOf)
    .ok (r2, jsUnique surv)

/-- `textNode.nodeValue = v`: assigning `nodeValue` changes a text node's
data; on an element node the assignment is a silent no-op (DOM
semantics). -/
def Node.setTextValue (root : Node) (i : Nat) (v : List Char) : Node :=
  match root.find? i with
  | some (.text _ _) => root.replaceId i [.text i v]
  | _ => root

/-- The inner `textNodes.forEach` body of `removeHighlights`
(text-highlighter.js:305-317): if the previous sibling is a text node,
its data is prepended to this node's `nodeValue` and the sibling is
removed; then likewise for the (current) next sibling.  When the unwrapped
child is itself an element, the `nodeValue` assignment is a no-op but the
text sibling is still removed. -/
def joinTextStep (root : Node) (tid : Nat) : Node :=
  let r1 :=
    match root.prevSib? tid with
    | some (.text pj pv) =>
      (match root.find? tid with
       | some (.text _ cv) => root.setTextValue tid (pv ++ cv)
       | _ => root).removeId pj
    | _ => root
  match r1.nextSib? tid with
  | some (.text nj nv) =>
    (match r1.find? tid with
     | some (.text _ cv) => r1.setTextValue tid (cv ++ nv)
     | _ => r1).removeId nj
  | _ => r1

/-- One `highlights.forEach` entry of `removeHighlights` under the default
(always-true) `onRemoveHighlight` veto: unwrap the marker and re-join the
text around each moved child. -/
def removeOne (root : Node) (hid : Nat) : Node :=
  let p := root.unwrapId hid
  p.2.foldl (fun rr n => joinTextStep rr n.idOf) p.1

/-- `removeHighlights` with the default veto: collect the markers under
the container, deepest first, and unwrap each. -/
def removeHighlights (root : Node) (container : Nat) : Node :=
  let hls := sortByDepth root (getHighlights root container) true
  hls.foldl removeOne root

/-- A selection range as the source reads it: start/end anchor node ids
with offsets, and the common ancestor container. -/
structure Range where
  startContainer : Nat
  startOffset : Nat
  endContainer : Nat
  endOffset : Nat
  commonAncestor : Nat
deriving Repr

/-- The `while (!endContainer.previousSibling && endContainer.parentNode
!== ancestor) endContainer = endContainer.parentNode` climb of
`refineRangeBoundaries` (utils.js:53-55).  Fuel is the node's depth, which
bounds the number of parent steps. -/
def climbEndZero (root : Node) (ancestor : Nat) : Nat → Nat → Nat
  | 0, e => e
  | fuel + 1, e =>
    match root.prevSib? e with
    | some _ => e
    | none =>
      match root.parent? e with
      | none => e
      | some p => if p.idOf = ancestor then e else climbEndZero root ancestor fuel p.idOf

/-- The refined boundaries and the initial `goDeeper` flag. -/
structure RefineResult where
  startContainer : Option Nat
  endContainer : Option Nat
  goDeeper : Bool
deriving Repr, DecidableEq

/-- `refineRangeBoundaries` (utils.js:46-85).  Both boundary branches are
translated clause by clause; the text-node splits mutate the document.
Containers are assumed to be nodes of the tree (the claims below keep them
so); a `childNodes.item` out of range yields a null (`none`) container, as
in the DOM. -/
def refineRangeBoundaries (d : Doc) (r : Range) : Doc × RefineResult :=
  let step1 :=
    if r.endOffset = 0 then
      let fuel := (d.root.depthOf r.endContainer).getD 0 + 1
      let e := climbEndZero d.root r.commonAncestor fuel r.endContainer
      (d, (d.root.prevSib? e).map Node.idOf)
    else
      match d.root.find? r.endContainer with
      | some (.text _ v) =>
        if r.endOffset < v.length then
          match d.splitText r.endContainer r.endOffset with
          | some p => (p.1, some r.endContainer)
          | none => (d, some r.endContainer)
        else (d, some r.endContainer)
      | some (.elem _ cs) => (d, (cs[r.endOffset - 1]?).map Node.idOf)
      | none => (d, some r.endContainer)
  let d1 := step1.1
  let endC := step1.2
  match d1.root.find? r.startContainer with
  | some (.text _ v) =>
    if r.startOffset = v.length then
      (d1, ⟨some r.startContainer, endC, false⟩)
    else if 0 < r.startOffset then
      match d1.splitText r.startContainer r.startOffset with
      | some (d2, newId) =>
        -- `if (endContainer === startContainer.previousSibling) endContainer = startContainer`
        let endC2 := if endC = (d2.root.prevSib? newId).map Node.idOf then some newId else endC
        (d2, ⟨some newId, endC2, true⟩)
      | none => (d1, ⟨some r.startContainer, endC, true⟩)
    else (d1, ⟨some r.startContainer, endC, true⟩)
  | some (.elem _ cs) =>
    if r.startOffset < cs.length then
      (d1, ⟨(cs[r.startOffset]?).map Node.idOf, endC, true⟩)
    else
      (d1, ⟨(d1.root.nextSib? r.startContainer).map Node.idOf, endC, true⟩)
  | none => (d1, ⟨some r.startContainer, endC, true⟩)

/-! ### JSON

`JSON.stringify` / `JSON.parse` are platform primitives used by the codec
(`serializeHighlights` / `deserializeHighlights`).  They are modelled over
a JSON value type.  The model accepts any non-control character literally
inside strings and escapes exactly `"` and `\` when printing (the
printer/parser pair round-trips every string, as the platform pair does);
numbers are modelled as integers, which covers every value the codec
emits. -/

/-- An opening curly brace character (written via its code point). -/
def lcurly : Char := Char.ofNat 123

/-- A closing curly brace character (written via its code point). -/
def rcurly : Char := Char.ofNat 125

/-- A JSON value. -/
inductive Json : Type where
  | null : Json
  | bool : Bool → Json
  | num : Int → Json
  | str : List Char → Json
  | arr : List Json → Json
  | obj : List (List Char × Json) → Json
deriving Repr

/-- Decimal digits of a natural number, most significant first. -/
def natDigits (n : Nat) : List Char :=
  if h : n < 10 then [Char.ofNat (48 + n)]
  else natDigits (n / 10) ++ [Char.ofNat (48 + n % 10)]
decreasing_by
  exact Nat.div_lt_self (Nat.lt_of_lt_of_le (by norm_num) (Nat.not_lt.mp h)) (by norm_num)

/-- Decimal rendering of an integer. -/
def intChars (i : Int) : List Char :=
  if i < 0 then '-' :: natDigits i.natAbs else natDigits i.natAbs

/-- JSON string escaping: `"` and `\` are escaped, everything else is
emitted literally. -/
def escChars (s : List Char) : List Char :=
  (s.map (fun c => if c = '"' ∨ c = '\\' then ['\\', c] else [c])).flatten

mutual
/-- `JSON.stringify`. -/
def Json.stringify : Json → List Char
  | .null => 'n' :: 'u' :: 'l' :: 'l' :: []
  | .bool true => 't' :: 'r' :: 'u' :: 'e' :: []
  | .bool false => 'f' :: 'a' :: 'l' :: 's' :: 'e' :: []
  | .num i => intChars i
  | .str s => '"' :: (escChars s ++ ['"'])
  | .arr xs => '[' :: (Json.stringifyItems xs ++ [']'])
  | .obj ms => lcurly :: (Json.stringifyMembers ms ++ [rcurly])
/-- Comma-separated array items. -/
def Json.stringifyItems : List Json → List Char
  | [] => []
  | [x] => x.stringify
  | x :: y :: rest => x.stringify ++ ',' :: Json.stringifyItems (y :: rest)
/-- Comma-separated object members. -/
def Json.stringifyMembers : List (List Char × Json) → List Char
  | [] => []
  | [(k, v)] => '"' :: (escChars k ++ '"' :: ':' :: v.stringify)
  | (k, v) :: m :: rest =>
    '"' :: (escChars k ++ '"' :: ':' :: v.stringify) ++ ',' :: Json.stringifyMembers (m :: rest)
end

/-- Skip JSON whitespace. -/
def skipWs : List Char → List Char
  | c :: r => if c = ' ' ∨ c = '\t' ∨ c = '\n' ∨ c = '\r' then skipWs r else c :: r
  | [] => []

/-- Parse the body of a JSON string (after the opening quote), handling
the escapes the printer emits (plus the common single-character ones). -/
def parseStrBody : List Char → Option (List Char × List Char)
  | [] => none
  | '\\' :: c :: r =>
    if c = '"' ∨ c = '\\' ∨ c = '/' then (parseStrBody r).map (fun p => (c :: p.1, p.2))
    else if c = 'n' then (parseStrBody r).map (fun p => ('\n' :: p.1, p.2))
    else if c = 't' then (parseStrBody r).map (fun p => ('\t' :: p.1, p.2))
    else if c = 'r' then (parseStrBody r).map (fun p => ('\r' :: p.1, p.2))
    else none
  | c :: r =>
    if c = '"' then some ([], r)
    else (parseStrBody r).map (fun p => (c :: p.1, p.2))

/-- Is this a decimal digit? -/
def isDigitCh (c : Char) : Bool := '0' ≤ c ∧ c ≤ '9'

/-- Parse a non-empty run of decimal digits. -/
def parseDigits : List Char → Option (Nat × List Char)
  | [] => none
  | c :: r =>
    if isDigitCh c then
      match parseDigits r with
      | some (n, rest) =>
        let k := (c :: r).length - rest.length
        some ((c.toNat - 48) * 10 ^ (k - 1) + n, rest)
      | none => some (c.toNat - 48, r)
    else none

mutual
/-- Recursive-descent `JSON.parse` with fuel (the fuel bounds the number
of parser steps, not input characters; the top-level wrapper supplies
enough). -/
def parseVal : Nat → List Char → Option (Json × List Char)
  | 0, _ => none
  | fuel + 1, s =>
    match skipWs s with
    | [] => none
    | c :: r =>
      if c = 'n' then
        match r with
        | 'u' :: 'l' :: 'l' :: r2 => some (.null, r2)
        | _ => none
      else if c = 't' then
        match r with
        | 'r' :: 'u' :: 'e' :: r2 => some (.bool true, r2)
        | _ => none
      else if c = 'f' then
        match r with
        | 'a' :: 'l' :: 's' :: 'e' :: r2 => some (.bool false, r2)
        | _ => none
      else if c = '"' then
        (parseStrBody r).map (fun p => (.str p.1, p.2))
      else if c = '[' then
        match skipWs r with
        | ']' :: r2 => some (.arr [], r2)
        | _ => (parseItems fuel r).map (fun p => (.arr p.1, p.2))
      else if c = lcurly then
        match skipWs r with
        | b :: r2 => if b = rcurly then some (.obj [], r2) else (parseMembers fuel r).map (fun p => (.obj p.1, p.2))
        | [] => none
      else if c = '-' then
        (parseDigits r).map (fun p => (.num (-(p.1 : Int)), p.2))
      else if isDigitCh c then
        (parseDigits (c :: r)).map (fun p => (.num (p.1 : Int), p.2))
      else none
/-- Array items: value, then `,` and more items or `]`. -/
def parseItems : Nat → List Char → Option (List Json × List Char)
  | 0, _ => none
  | fuel + 1, s =>
    match parseVal fuel s with
    | none => none
    | some (v, rest) =>
      match skipWs rest with
      | ',' :: r2 => (parseItems fuel r2).map (fun p => (v :: p.1, p.2))
      | ']' :: r2 => some ([v], r2)
      | _ => none
/-- Object members: `"key": value`, then `,` and more members or the
closing brace. -/
def parseMembers : Nat → List Char → Option (List (List Char × Json) × List Char)
  | 0, _ => none
  | fuel + 1, s =>
    match skipWs s with
    | '"' :: r =>
      match parseStrBody r with
      | none => none
      | some (k, r2) =>
        match skipWs r2 with
        | ':' :: r3 =>
          match parseVal fuel r3 with
          | none => none
          | some (v, r4) =>
            match skipWs r4 with
            | ',' :: r5 => (parseMembers fuel r5).map (fun p => ((k, v) :: p.1, p.2))
            | b :: r5 => if b = rcurly then some ([(k, v)], r5) else none
            | [] => none
        | _ => none
    | _ => none
end

/-- `JSON.parse`: parse one value and require only whitespace after it. -/
def jsonParse (s : List Char) : Option Json :=
  match parseVal (s.length + 20) s with
  | some (v, rest) => if skipWs rest = [] then some v else none
  | none => none

/-! ### Codec -/

/-- The wrapper template a serialized descriptor stores: style + tag + class
+ marker attribute, no content (spec §3, "outer-wrapper-template"). -/
structure WrapperInfo where
  tag : List Char
  color : List Char
  cls : List Char
  marked : Bool
deriving Repr, DecidableEq

/-- The wrapper template of a highlight element
(`highlight.cloneNode(true)` with `innerHTML = ''`). -/
def Node.wrapperOf : Node → WrapperInfo
  | .text _ _ => ⟨[], [], [], false⟩
  | .elem e _ => ⟨e.tag, e.color, e.cls, e.marked⟩

/-- `wrapper.outerHTML` for a content-free wrapper element.  Modelled from
the spec: the platform's element serialization, an injective rendering of
the wrapper template (`dom.js` and the platform serializer are not in the
provided sources). -/
def outerHTML (w : WrapperInfo) : List Char :=
  '<' :: w.tag ++ (' ' :: 's' :: 't' :: 'y' :: 'l' :: 'e' :: '=' :: '"' :: []) ++
  ('b' :: 'a' :: 'c' :: 'k' :: 'g' :: 'r' :: 'o' :: 'u' :: 'n' :: 'd' :: '-' ::
   'c' :: 'o' :: 'l' :: 'o' :: 'r' :: ':' :: ' ' :: []) ++ w.color ++
  (';' :: '"' :: ' ' :: 'c' :: 'l' :: 'a' :: 's' :: 's' :: '=' :: '"' :: []) ++ w.cls ++
  ('"' :: []) ++
  (if w.marked then
     (' ' :: 'd' :: 'a' :: 't' :: 'a' :: '-' :: 'h' :: 'i' :: 'g' :: 'h' :: 'l' ::
      'i' :: 'g' :: 'h' :: 't' :: 'e' :: 'd' :: '=' :: '"' :: 't' :: 'r' :: 'u' ::
      'e' :: '"' :: [])
   else []) ++
  ('>' :: '<' :: '/' :: []) ++ w.tag ++ ('>' :: [])

/-- Strip an expected literal from the front of the input. -/
def stripLit : List Char → List Char → Option (List Char)
  | [], s => some s
  | _ :: _, [] => none
  | c :: l, x :: s => if x = c then stripLit l s else none

/-- Take characters up to (and consuming) a stop character. -/
def takeUntil (stop : Char) : List Char → Option (List Char × List Char)
  | [] => none
  | c :: r =>
    if c = stop then some ([], r)
    else (takeUntil stop r).map (fun p => (c :: p.1, p.2))

/-- `dom().fromHTML(...)[0]`: parse a wrapper rendered by `outerHTML` back
into its template.  Modelled from the spec: the platform HTML parser, the
inverse of the serialization above on content-free wrappers. -/
def fromHTML (s : List Char) : Option WrapperInfo :=
  match s with
  | '<' :: r =>
    match takeUntil ' ' r with
    | none => none
    | some (tag, r1) =>
      match stripLit (('s' :: 't' :: 'y' :: 'l' :: 'e' :: '=' :: '"' :: []) ++
        ('b' :: 'a' :: 'c' :: 'k' :: 'g' :: 'r' :: 'o' :: 'u' :: 'n' :: 'd' :: '-' ::
         'c' :: 'o' :: 'l' :: 'o' :: 'r' :: ':' :: ' ' :: [])) r1 with
      | none => none
      | some r2 =>
        match takeUntil ';' r2 with
        | none => none
        | some (color, r3) =>
          match stripLit ('"' :: ' ' :: 'c' :: 'l' :: 'a' :: 's' :: 's' :: '=' :: '"' :: []) r3 with
          | none => none
          | some r4 =>
            match takeUntil '"' r4 with
            | none => none
            | some (cls, r5) =>
              let marked := (stripLit
                (' ' :: 'd' :: 'a' :: 't' :: 'a' :: '-' :: 'h' :: 'i' :: 'g' :: 'h' :: 'l' ::
                 'i' :: 'g' :: 'h' :: 't' :: 'e' :: 'd' :: '=' :: '"' :: 't' :: 'r' :: 'u' ::
                 'e' :: '"' :: []) r5).isSome
              some ⟨tag, color, cls, marked⟩
  | _ => none

mutual
/-- `getElementPath`: child indices from the reference element down to the
node (`childNodes.indexOf` at each level, root-first).  Defined for nodes
at or below the root; the source loops only for markers strictly below the
anchor. -/
def Node.pathTo : Node → Nat → Option (List Nat)
  | .text j _, i => if j = i then some [] else none
  | .elem e cs, i => if e.id = i then some [] else Node.pathToL cs i 0
/-- Path search in a forest, carrying the current child index. -/
def Node.pathToL : List Node → Nat → Nat → Option (List Nat)
  | [], _, _ => none
  | n :: ns, i, k =>
    match n.pathTo i with
    | some p => some (k :: p)
    | none => Node.pathToL ns i (k + 1)
end

/-- `hlPath.join(':')`. -/
def joinPath : List Nat → List Char
  | [] => []
  | [k] => natDigits k
  | k :: k2 :: rest => natDigits k ++ ':' :: joinPath (k2 :: rest)

/-- `serializeHighlights` (text-highlighter.js:369-410): collect markers,
sort shallow-first, emit per marker the 5-tuple
`[wrapper.outerHTML, textContent, path.join(':'), offset, length]`,
`JSON.stringify` the array.  `offset` is the preceding text sibling's
length when there is one. -/
def serializeHighlights (root : Node) : List Char :=
  let hls := sortByDepth root (getHighlights root root.idOf) false
  let descs := hls.filterMap (fun i =>
    match root.find? i, root.pathTo i with
    | some hl, some p =>
      let offset : Int :=
        match root.prevSib? i with
        | some (.text _ v) => (v.length : Int)
        | _ => 0
      some (Json.arr [.str (outerHTML hl.wrapperOf), .str hl.textContent,
        .str (joinPath p), .num offset, .num (hl.textContent.length : Int)])
    | _, _ => none)
  (Json.arr descs).stringify

/-- `path.split(':')` (always at least one component). -/
def splitColon : List Char → List (List Char)
  | [] => [[]]
  | c :: r =>
    if c = ':' then [] :: splitColon r
    else
      match splitColon r with
      | h :: t => (c :: h) :: t
      | [] => [[c]]

/-- A string as a DOM indexed-property name: `"0"` or a canonical decimal
with no leading zero (anything else reads `undefined` from `childNodes`). -/
def strToIndex? : List Char → Option Nat
  | [] => none
  | ['0'] => some 0
  | c :: r =>
    if c = '0' ∨ ¬ isDigitCh c ∨ r.any (fun x => ¬ isDigitCh x) then none
    else (parseDigits (c :: r)).map (·.1)

/-- The `while ((idx = hl.path.shift()))` descent: consume components
while truthy (a falsy `""` component exits the loop with the current
node); a component that reads `undefined` from `childNodes` makes the
following access throw (`none`). -/
def walkPath : Node → List (List Char) → Option Node
  | cur, [] => some cur
  | cur, c :: rest =>
    if c = [] then some cur
    else
      match strToIndex? c with
      | none => none
      | some k =>
        match cur.childNodes[k]? with
        | none => none
        | some child => walkPath child rest

/-- `deserializationFn` (text-highlighter.js:433-469): relocate one
descriptor, split out its text run, drop empty remnants, and wrap it in
the element rebuilt from the stored wrapper.  Any structural mismatch
(wrong tuple shape, bad path, bad offsets, non-text target) throws inside
the `try`, modelled as `none`. -/
def deserializationFn (d : Doc) (j : Json) : Option (Doc × Nat) :=
  match j with
  | .arr l =>
    match l[2]? with
    | some (Json.str pstr) =>
      let comps := splitColon pstr
      match comps.getLast?, walkPath d.root comps.dropLast with
      | none, _ => none
      | _, none => none
      | some elIndexStr, some node0 =>
        match strToIndex? elIndexStr with
        | none => none
        | some ei =>
          -- `if (node.childNodes[elIndex - 1] && ...TEXT_NODE) elIndex -= 1`
          let ei2 :=
            if 0 < ei then
              match node0.childNodes[ei - 1]? with
              | some (.text _ _) => ei - 1
              | _ => ei
            else ei
          match node0.childNodes[ei2]? with
          | some (.text tid _) =>
            match l[3]?, l[4]? with
            | some (Json.num off), some (Json.num len) =>
              if off < 0 ∨ len < 0 then none
              else
                match d.splitText tid off.toNat with
                | none => none
                | some (d1, hlId) =>
                  match d1.splitText hlId len.toNat with
                  | none => none
                  | some (d2, _) =>
                    let r := d2.root
                    let r1 := match r.nextSib? hlId with
                      | some (.text nj nv) => if nv = [] then r.removeId nj else r
                      | _ => r
                    let r2 := match r1.prevSib? hlId with
                      | some (.text pj pv) => if pv = [] then r1.removeId pj else r1
                      | _ => r1
                    match l[0]? with
                    | some (Json.str w) =>
                      match fromHTML w with
                      | none => none
                      | some wi =>
                        let e : EInfo := ⟨d2.nextId, wi.tag, wi.color, wi.marked, wi.cls⟩
                        some ({ root := r2.wrapId hlId e, nextId := d2.nextId + 1 }, d2.nextId)
                    | _ => none
            | _, _ => none
          | _ => none
    | _ => none
  | _ => none

/-- `deserializeHighlights` (text-highlighter.js:418-482): falsy input
returns no highlights; an unparseable string throws `Can't parse JSON`;
a parsed non-array value has no `forEach` and throws; each failing
descriptor inside the array is caught, counted as a console warning, and
skipped. -/
def deserializeHighlights (d : Doc) (json : List Char) :
    Except (List Char) (Doc × List Nat × Nat) :=
  if json = [] then .ok (d, [], 0)
  else
    match jsonParse json with
    | none => .error ("Cant parse JSON".toList)
    | some (.arr ds) =>
      .ok (ds.foldl (fun st hd =>
        match deserializationFn st.1 hd with
        | some (d2, i) => (d2, st.2.1 ++ [i], st.2.2)
        | none => (st.1, st.2.1, st.2.2 + 1)) (d, [], 0))
    | some _ => .error ("TypeError: hlDescriptors.forEach is not a function".toList)

/-! ### Concrete fixtures

Small concrete documents used by the scenario theorems and
counterexamples. -/

/-- A span marker with the given id, color and children. -/
def mkSpan (i : Nat) (c : List Char) (cs : List Node) : Node :=
  .elem ⟨i, 'S' :: 'P' :: 'A' :: 'N' :: [], c, true, 'h' :: 'l' :: []⟩ cs

/-- An unmarked div with the given id and children. -/
def mkDiv (i : Nat) (cs : List Node) : Node :=
  .elem ⟨i, 'D' :: 'I' :: 'V' :: [], [], false, []⟩ cs

/-- The color red. -/
def cRed : List Char := 'r' :: 'e' :: 'd' :: []

/-- The color blue. -/
def cBlue : List Char := 'b' :: 'l' :: 'u' :: 'e' :: []

/-- `<div><span data-highlighted>hello</span></div>`: an anchor holding a
single marker that wraps the whole text. -/
def docOneMarker : Doc :=
  ⟨mkDiv 0 [mkSpan 1 cRed [.text 2 ('h' :: 'e' :: 'l' :: 'l' :: 'o' :: [])]], 3⟩


/-- Two adjacent same-color markers under the anchor:
`<div><span>ab</span><span>cd</span></div>`. -/
def elMergePair : Node :=
  mkDiv 0 [mkSpan 1 cRed [.text 2 ('a' :: 'b' :: [])],
           mkSpan 3 cRed [.text 4 ('c' :: 'd' :: [])]]

/-- The anchor element's info in the fixtures. -/
def divInfo : EInfo := ⟨0, 'D' :: 'I' :: 'V' :: [], [], false, []⟩

/-- The first fixture marker's info. -/
def spanInfo1 : EInfo := ⟨1, 'S' :: 'P' :: 'A' :: 'N' :: [], cRed, true, 'h' :: 'l' :: []⟩

/-- The second fixture marker's info. -/
def spanInfo3 : EInfo := ⟨3, 'S' :: 'P' :: 'A' :: 'N' :: [], cRed, true, 'h' :: 'l' :: []⟩


mutual
/-- Ids of the nodes satisfying a predicate, in pre-order. -/
def Node.idsWhere (p : Node → Bool) : Node → List Nat
  | .text j v => if p (.text j v) then [j] else []
  | .elem e cs => (if p (.elem e cs) then [e.id] else []) ++ Node.idsWhereL p cs
/-- Ids of the nodes satisfying a predicate in a forest. -/
def Node.idsWhereL (p : Node → Bool) : List Node → List Nat
  | [] => []
  | n :: ns => Node.idsWhere p n ++ Node.idsWhereL p ns
end

/-- A predicate that depends only on a node's kind and element info, not
on text values or element children. -/
def shapeOnly (p : Node → Bool) : Prop :=
  (∀ j v w, p (.text j v) = p (.text j w)) ∧
  (∀ e cs cs', p (.elem e cs) = p (.elem e cs'))

mutual
/-- Every marker element in the subtree has only text-node children. -/
def Node.markedTextOnly : Node → Bool
  | .text _ _ => true
  | .elem e cs => (!e.marked || cs.all (fun c => !c.isElem)) && Node.markedTextOnlyL cs
/-- The same invariant over a forest. -/
def Node.markedTextOnlyL : List Node → Bool
  | [] => true
  | n :: ns => n.markedTextOnly && Node.markedTextOnlyL ns
end

/-- Three adjacent same-color markers:
`<div><span>a</span><span>b</span><span>c</span></div>`. -/
def elC2 : Node :=
  mkDiv 0 [mkSpan 1 cRed [.text 2 ('a' :: [])],
           mkSpan 3 cRed [.text 4 ('b' :: [])],
           mkSpan 5 cRed [.text 6 ('c' :: [])]]

/-- The tree after normalizing `[5]` in `elC2`: marker 5 absorbed marker 3
but marker 1 remains adjacent with the same color. -/
def elC2mid : Node :=
  mkDiv 0 [mkSpan 1 cRed [.text 2 ('a' :: [])],
           mkSpan 5 cRed [.text 4 ('b' :: 'c' :: [])]]

/-- The tree after normalizing `[5]` again in `elC2mid`: one marker. -/
def elC2fin : Node :=
  mkDiv 0 [mkSpan 5 cRed [.text 2 ('a' :: 'b' :: 'c' :: [])]]

/-- `<div>x<span class=hl style=red>ab</span>y</div>`: one marker in
canonical position. -/
def elC2w : Node :=
  mkDiv 0 [.text 1 ('x' :: []),
           mkSpan 2 cRed [.text 3 ('a' :: 'b' :: [])],
           .text 4 ('y' :: [])]

/-- Whether a child list contains two adjacent same-style markers (the
observable the canonical-marker invariant forbids). -/
def adjSameColor : List Node → Bool
  | a :: b :: rest => (isHighlight a && isHighlight b && haveSameColor a b) || adjSameColor (b :: rest)
  | _ => false

/-- The per-entry condition a fixpoint pass of the flatten loop certifies
for index `k` of the highlights array: the entry is out of range, the
anchor, outside the tree, no longer among its parent's children, under a
non-marker parent, or under a differently-styled marker with siblings on
both sides. -/
def flatStepNoop (root : Node) (hls : List Nat) (k : Nat) : Prop :=
  match hls[k]? with
  | none => True
  | some hid =>
    hid = root.idOf ∨
    ∃ P, root.parent? hid = some P ∧
      match P.childNodes.find? (fun c => c.idOf = hid) with
      | none => True
      | some hl =>
        isHighlight P = false ∨
        (haveSameColor P hl = false ∧ (root.nextSib? hid).isSome = true ∧
         (root.prevSib? hid).isSome = true)

/-- `<div>abc<span class=hl style=red><b>x</b></span></div>`: a marker
wrapping a non-text element, preceded by a text node. -/
def elC10 : Node :=
  mkDiv 0 [.text 1 ('a' :: 'b' :: 'c' :: []),
           mkSpan 2 cRed [.elem ⟨3, 'B' :: [], [], false, []⟩ [.text 4 ('x' :: [])]]]

/-- `<div>ab<span class=hl style=red>cd</span>ef</div>`: a marker whose
children are all text nodes. -/
def elC10b : Node :=
  mkDiv 0 [.text 1 ('a' :: 'b' :: []),
           mkSpan 2 cRed [.text 3 ('c' :: 'd' :: [])],
           .text 4 ('e' :: 'f' :: [])]

/-- The end container C8 describes for a zero end offset, stated from the
claim's own words (for comparison with the computed boundary): climb from
the end container past every ancestor that has no preceding sibling,
stopping below the common ancestor, then take the preceding sibling of
the node reached. -/
def claimedEndZeroContainer (root : Node) (ancestor e : Nat) : Option Nat :=
  (root.prevSib? (climbEndZero root ancestor ((root.depthOf e).getD 0 + 1) e)).map Node.idOf

/-- `<div>hello<span>x</span></div>`, next fresh id 4. -/
def docRefineC8 : Doc :=
  ⟨mkDiv 0 [.text 1 ('h' :: 'e' :: 'l' :: 'l' :: 'o' :: []),
            .elem ⟨2, 'S' :: 'P' :: 'A' :: 'N' :: [], [], false, []⟩
              [.text 3 ('x' :: [])]], 4⟩

/-- A selection from offset 2 inside the text node to offset 0 of the
span. -/
def rangeC8 : Range := ⟨1, 2, 2, 0, 0⟩

/-- Whether a JSON value is an array (has a `forEach`). -/
def Json.isArr : Json → Bool
  | .arr _ => true
  | _ => false

/-- Whether an `Except` result is an error. -/
def isErr {ε α : Type} : Except ε α → Bool
  | .error _ => true
  | .ok _ => false

/-- The value of a decimal digit string (most significant first). -/
def digitsVal (ds : List Char) : Nat :=
  ds.foldl (fun a c => a * 10 + (c.toNat - 48)) 0

/-- The serialized single-descriptor array for wrapper `w`, content `m`,
path `p`, offset `a` and length `b`. -/
def descStr (w m p : List Char) (a b : Nat) : List Char :=
  '[' :: '[' :: '"' :: (escChars w ++ '"' :: ',' :: '"' ::
    (escChars m ++ '"' :: ',' :: '"' ::
      (escChars p ++ '"' :: ',' ::
        (natDigits a ++ ',' :: (natDigits b ++ ']' :: ']' :: [])))))

/-- The wrapper template of the fixture markers: a red `hl` span. -/
def wC1 : WrapperInfo :=
  ⟨'S' :: 'P' :: 'A' :: 'N' :: [], cRed, 'h' :: 'l' :: [], true⟩

/-- A highlighted document: a div holding the text `pre`, a marker span
wrapping `mid`, and the text `post`. -/
def docHlC1 (pre mid post : List Char) : Doc :=
  ⟨mkDiv 0 [.text 1 pre, mkSpan 2 cRed [.text 3 mid], .text 4 post], 5⟩

/-- The pristine document the highlighted fixture was made from: a div
holding `pre ++ mid ++ post` as a single text node. -/
def docFreshC1 (pre mid post : List Char) : Doc :=
  ⟨mkDiv 0 [.text 1 (pre ++ mid ++ post)], 2⟩

/-- A different-color nested pair: `<div><span red><span blue>x</span></span></div>`
(an outer red marker directly containing an inner blue marker). -/
def elC4 : Node :=
  mkDiv 0 [mkSpan 1 cRed [.elem ⟨2, 'S' :: 'P' :: 'A' :: 'N' :: [], cBlue, true,
    'h' :: 'l' :: []⟩ [.text 3 ('x' :: [])]]]

/-! ## Theorems -/

/-- **C9.** For every falsy input string (the empty string is the only
falsy string), `deserializeHighlights` returns an empty highlight array
without throwing and without mutating the tree, although the empty string
is not parseable JSON. -/
theorem deserialize_falsy_noop (d : Doc) :
    deserializeHighlights d ("".toList) = .ok (d, [], 0) ∧
    jsonParse ("".toList) = none :=
  ⟨rfl, rfl⟩

/-- **C7.** `deserializeHighlights("not json")` throws the fatal parse
error, while `deserializeHighlights("[[1]]")` — a parseable array whose
single element has the wrong tuple shape — does not throw: it returns no
highlights and logs one warning for the failing descriptor. -/
theorem deserialize_scenarios (d : Doc) :
    deserializeHighlights d ("not json".toList) = .error ("Cant parse JSON".toList) ∧
    deserializeHighlights d ("[[1]]".toList) = .ok (d, [], 1) :=
  ⟨rfl, rfl⟩

/-- **C6 counterexample.** The claim asserts a fatal error whenever the
input parses to something other than an array of fixed-length 5-tuples;
but `"[[1]]"` parses to an array whose element is not a 5-tuple and
`deserializeHighlights` does not throw on it — it recovers, returning
zero highlights and one warning. -/
theorem deserialize_nonTuple_not_fatal :
    deserializeHighlights docOneMarker ("[[1]]".toList)
      = .ok (docOneMarker, [], 1) ∧
    jsonParse ("[[1]]".toList) = some (.arr [.arr [.num 1]]) :=
  ⟨rfl, rfl⟩

/-- **C6 amended.** `deserializeHighlights` signals a fatal error exactly
when the input string is truthy (non-empty) and either fails to parse or
parses to a non-array value (which has no `forEach`); an array whose
elements have the wrong shape is handled per-descriptor and is not
fatal. -/
theorem deserialize_fatal_iff (d : Doc) (s : List Char) :
    isErr (deserializeHighlights d s) = true ↔
      (s ≠ [] ∧ ∀ v, jsonParse s = some v → v.isArr = false) := by
  unfold deserializeHighlights
  by_cases hs : s = []
  · simp [hs, isErr]
  · simp only [if_neg hs]
    cases hv : jsonParse s with
    | none => simp [isErr, hs, hv]
    | some v =>
      cases v <;> simp [isErr, hs, hv, Json.isArr]

/-! ### Structural lemma kit

Reasoning infrastructure relating `find?`, `parent?`, siblings, and
the surgery primitives under id-uniqueness. -/

mutual
theorem node_ind {P : Node → Prop} {Q : List Node → Prop}
    (ht : ∀ j v, P (.text j v)) (he : ∀ e cs, Q cs → P (.elem e cs))
    (h0 : Q []) (h1 : ∀ n ns, P n → Q ns → Q (n :: ns)) : ∀ n : Node, P n
  | .text j v => ht j v
  | .elem e cs => he e cs (list_ind ht he h0 h1 cs)
theorem list_ind {P : Node → Prop} {Q : List Node → Prop}
    (ht : ∀ j v, P (.text j v)) (he : ∀ e cs, Q cs → P (.elem e cs))
    (h0 : Q []) (h1 : ∀ n ns, P n → Q ns → Q (n :: ns)) : ∀ l : List Node, Q l
  | [] => h0
  | n :: ns => h1 n ns (node_ind ht he h0 h1 n) (list_ind ht he h0 h1 ns)
end

theorem nodes_ind {P : Node → Prop} {Q : List Node → Prop}
    (ht : ∀ j v, P (.text j v)) (he : ∀ e cs, Q cs → P (.elem e cs))
    (h0 : Q []) (h1 : ∀ n ns, P n → Q ns → Q (n :: ns)) :
    (∀ n : Node, P n) ∧ (∀ l : List Node, Q l) :=
  ⟨node_ind ht he h0 h1, list_ind ht he h0 h1⟩


theorem textContentL_append (l1 l2 : List Node) :
    Node.textContentL (l1 ++ l2) = Node.textContentL l1 ++ Node.textContentL l2 := by
  induction l1 with
  | nil => simp [Node.textContentL]
  | cons n ns ih => simp [Node.textContentL, ih]

theorem idListL_append (l1 l2 : List Node) :
    Node.idListL (l1 ++ l2) = Node.idListL l1 ++ Node.idListL l2 := by
  induction l1 with
  | nil => simp [Node.idListL]
  | cons n ns ih => simp [Node.idListL, ih]

theorem find?_idOf : ∀ n : Node, ∀ i m, n.find? i = some m → m.idOf = i := by
  refine node_ind (Q := fun l => ∀ i m, Node.findL? l i = some m → m.idOf = i) ?_ ?_ ?_ ?_
  · intro j v i m h
    simp only [Node.find?] at h
    split at h
    · cases h; simpa [Node.idOf] using ‹j = i›
    · cases h
  · intro e cs ih i m h
    simp only [Node.find?] at h
    split at h
    · cases h; simpa [Node.idOf] using ‹e.id = i›
    · exact ih i m h
  · intro i m h; cases h
  · intro n ns ihn ihl i m h
    simp only [Node.findL?] at h
    split at h
    next m2 heq => cases h; exact ihn i _ heq
    next => exact ihl i m h

theorem find?_isSome_iff : ∀ n : Node, ∀ i, (n.find? i).isSome ↔ i ∈ n.idList := by
  refine node_ind (Q := fun l => ∀ i, (Node.findL? l i).isSome ↔ i ∈ Node.idListL l) ?_ ?_ ?_ ?_
  · intro j v i
    simp only [Node.find?, Node.idList]
    split <;> simp_all <;> omega
  · intro e cs ih i
    simp only [Node.find?, Node.idList]
    split
    · simp_all
    · rw [List.mem_cons]
      have := ih i
      simp_all
      omega
  · intro i; simp [Node.findL?, Node.idListL]
  · intro n ns ihn ihl i
    simp only [Node.findL?, Node.idListL, List.mem_append]
    split
    next m heq => simp only [Option.isSome_some, true_iff]; left; rw [← ihn i, heq]; rfl
    next heq => rw [← ihl i, ← ihn i, heq]; simp

theorem replaceId_not_mem :
    (∀ n : Node, ∀ i rep, i ∉ n.idList → n.replaceId i rep = n) ∧
    (∀ l : List Node, ∀ i rep, i ∉ Node.idListL l → Node.replaceIdL l i rep = l) := by
  refine nodes_ind ?_ ?_ ?_ ?_
  · intro j v i rep _; rfl
  · intro e cs ih i rep h
    simp only [Node.idList, List.mem_cons] at h
    push_neg at h
    simp [Node.replaceId, ih i rep h.2]
  · intro i rep _; rfl
  · intro n ns ihn ihl i rep h
    simp only [Node.idListL, List.mem_append] at h
    push_neg at h
    have hid : n.idOf ≠ i := by
      intro he
      exact h.1 (by
        cases n with
        | text j v => simp [Node.idOf] at he; simp [Node.idList, he]
        | elem e cs => simp [Node.idOf] at he; simp [Node.idList, he])
    simp [Node.replaceIdL, hid, ihn i rep h.1, ihl i rep h.2]



theorem idOf_mem_idList : ∀ n : Node, n.idOf ∈ n.idList := by
  intro n
  cases n with
  | text j v => simp [Node.idOf, Node.idList]
  | elem e cs => simp [Node.idOf, Node.idList]

theorem withChildrenAt_not_mem :
    (∀ n : Node, ∀ i ncs, i ∉ n.idList → n.withChildrenAt i ncs = n) ∧
    (∀ l : List Node, ∀ i ncs, i ∉ Node.idListL l → Node.withChildrenAtL l i ncs = l) := by
  refine nodes_ind ?_ ?_ ?_ ?_
  · intro j v i ncs _; rfl
  · intro e cs ih i ncs h
    simp only [Node.idList, List.mem_cons] at h
    push_neg at h
    simp [Node.withChildrenAt, Ne.symm h.1, ih i ncs h.2]
  · intro i ncs _; rfl
  · intro n ns ihn ihl i ncs h
    simp only [Node.idListL, List.mem_append] at h
    push_neg at h
    simp [Node.withChildrenAtL, ihn i ncs h.1, ihl i ncs h.2]

/-- The context lemma: a found element's children segment within
textContent and idList, stable under child-list surgery. -/
theorem withChildrenAt_context :
    ∀ n : Node, n.idList.Nodup → ∀ p pe cs, n.find? p = some (.elem pe cs) →
      ∃ tpre tpost ipre ipost,
        n.textContent = tpre ++ Node.textContentL cs ++ tpost ∧
        n.idList = ipre ++ pe.id :: (Node.idListL cs ++ ipost) ∧
        ∀ ncs, (n.withChildrenAt p ncs).textContent = tpre ++ Node.textContentL ncs ++ tpost ∧
               (n.withChildrenAt p ncs).idList = ipre ++ pe.id :: (Node.idListL ncs ++ ipost) ∧
               (n.withChildrenAt p ncs).find? p = some (.elem pe ncs) := by
  refine node_ind
    (Q := fun l => (Node.idListL l).Nodup → ∀ p pe cs, Node.findL? l p = some (.elem pe cs) →
      ∃ tpre tpost ipre ipost,
        Node.textContentL l = tpre ++ Node.textContentL cs ++ tpost ∧
        Node.idListL l = ipre ++ pe.id :: (Node.idListL cs ++ ipost) ∧
        ∀ ncs, Node.textContentL (Node.withChildrenAtL l p ncs) = tpre ++ Node.textContentL ncs ++ tpost ∧
               Node.idListL (Node.withChildrenAtL l p ncs) = ipre ++ pe.id :: (Node.idListL ncs ++ ipost) ∧
               Node.findL? (Node.withChildrenAtL l p ncs) p = some (.elem pe ncs)) ?_ ?_ ?_ ?_
  · intro j v _ p pe cs h
    simp only [Node.find?] at h
    split at h <;> cases h
  · intro e cs0 ih hnd p pe cs h
    simp only [Node.find?] at h
    split at h
    next hep =>
      cases h
      refine ⟨[], [], [], [], by simp [Node.textContent], by simp [Node.idList], ?_⟩
      intro ncs
      refine ⟨by simp [Node.withChildrenAt, hep, Node.textContent],
              by simp [Node.withChildrenAt, hep, Node.idList], ?_⟩
      simp [Node.withChildrenAt, hep, Node.find?]
    next hep =>
      simp only [Node.idList] at hnd
      obtain ⟨tpre, tpost, ipre, ipost, h1, h2, h3⟩ := ih (List.Nodup.of_cons hnd) p pe cs h
      have hpne : e.id ≠ p := hep
      have hpmem : p ∈ Node.idListL cs0 := by
        have := (find?_isSome_iff (.elem e cs0) p).mp (by simp [Node.find?, hep, h])
        simpa [Node.idList, hep, Ne.symm hpne] using this
      refine ⟨tpre, tpost, e.id :: ipre, ipost, by simpa [Node.textContent] using h1,
        by simp [Node.idList, h2], ?_⟩
      intro ncs
      obtain ⟨g1, g2, g3⟩ := h3 ncs
      refine ⟨by simpa [Node.withChildrenAt, hep, Node.textContent] using g1,
        by simp [Node.withChildrenAt, hep, Node.idList, g2], ?_⟩
      simp [Node.withChildrenAt, hep, Node.find?, g3]
  · intro _ p pe cs h; cases h
  · intro n ns ihn ihl hnd p pe cs h
    simp only [Node.idListL] at hnd
    have hnd1 : n.idList.Nodup := (List.nodup_append.mp hnd).1
    have hnd2 : (Node.idListL ns).Nodup := (List.nodup_append.mp hnd).2.1
    have hdisj := (List.nodup_append.mp hnd).2.2
    simp only [Node.findL?] at h
    split at h
    next m heq =>
      cases h
      obtain ⟨tpre, tpost, ipre, ipost, h1, h2, h3⟩ := ihn hnd1 p pe cs heq
      have hpmem : p ∈ n.idList := (find?_isSome_iff n p).mp (by simp [heq])
      have hpnot : p ∉ Node.idListL ns := fun hc => hdisj hpmem hc
      refine ⟨tpre, tpost ++ Node.textContentL ns, ipre, ipost ++ Node.idListL ns,
        by simp [Node.textContentL, h1], by simp [Node.idListL, h2], ?_⟩
      intro ncs
      obtain ⟨g1, g2, g3⟩ := h3 ncs
      refine ⟨?_, ?_, ?_⟩
      · simp [Node.withChildrenAtL, Node.textContentL, g1, withChildrenAt_not_mem.2 ns p ncs hpnot]
      · simp [Node.withChildrenAtL, Node.idListL, g2, withChildrenAt_not_mem.2 ns p ncs hpnot]
      · simp [Node.withChildrenAtL, Node.findL?, g3]
    next heq =>
      obtain ⟨tpre, tpost, ipre, ipost, h1, h2, h3⟩ := ihl hnd2 p pe cs h
      have hpnot : p ∉ n.idList := by
        intro hc
        have h4 := (find?_isSome_iff n p).mpr hc
        rw [heq] at h4
        simp at h4
      refine ⟨n.textContent ++ tpre, tpost, n.idList ++ ipre, ipost,
        by simp [Node.textContentL, h1], by simp [Node.idListL, h2], ?_⟩
      intro ncs
      obtain ⟨g1, g2, g3⟩ := h3 ncs
      refine ⟨?_, ?_, ?_⟩
      · simp [Node.withChildrenAtL, Node.textContentL, g1, withChildrenAt_not_mem.1 n p ncs hpnot]
      · simp [Node.withChildrenAtL, Node.idListL, g2, withChildrenAt_not_mem.1 n p ncs hpnot]
      · simp [Node.withChildrenAtL, Node.findL?, withChildrenAt_not_mem.1 n p ncs hpnot, heq, g3]



theorem find?_self : ∀ n : Node, n.find? n.idOf = some n := by
  intro n; cases n with
  | text j v => simp [Node.find?, Node.idOf]
  | elem e cs => simp [Node.find?, Node.idOf]

theorem mem_idListL_of_mem : ∀ {l : List Node} {c : Node}, c ∈ l → c.idOf ∈ Node.idListL l := by
  intro l
  induction l with
  | nil => intro c h; cases h
  | cons n ns ih =>
    intro c h
    rcases List.mem_cons.mp h with h | h
    · subst h; simp [Node.idListL, idOf_mem_idList]
    · simp [Node.idListL, ih h]

theorem findL?_mem (l : List Node) (c : Node) (hnd : (Node.idListL l).Nodup)
    (hc : c ∈ l) : Node.findL? l c.idOf = some c := by
  induction l with
  | nil => cases hc
  | cons n ns ih =>
    simp only [Node.idListL, List.nodup_append] at hnd
    rcases List.mem_cons.mp hc with h | h
    · subst h
      simp [Node.findL?, find?_self]
    · have hnot : c.idOf ∉ n.idList := fun hmem => hnd.2.2 hmem (mem_idListL_of_mem h)
      have : n.find? c.idOf = none := by
        cases hfind : n.find? c.idOf with
        | none => rfl
        | some m =>
          exact absurd ((find?_isSome_iff n c.idOf).mp (by simp [hfind])) hnot
      simp [Node.findL?, this, ih hnd.2.1 h]

theorem parent?_mem : ∀ n : Node, ∀ x m, n.parent? x = some m → x ∈ n.idList := by
  refine node_ind (Q := fun l => ∀ x m, Node.parentL? l x = some m → x ∈ Node.idListL l) ?_ ?_ ?_ ?_
  · intro j v x m h; cases h
  · intro e cs ih x m h
    simp only [Node.parent?] at h
    split at h
    next hany =>
      obtain ⟨c, hc, hcid⟩ := List.any_eq_true.mp hany
      simp only [decide_eq_true_eq] at hcid
      simp [Node.idList, hcid ▸ mem_idListL_of_mem hc]
    next => simp [Node.idList, ih x m h]
  · intro x m h; cases h
  · intro n ns ihn ihl x m h
    simp only [Node.parentL?] at h
    split at h
    next m2 heq => cases h; simp [Node.idListL, ihn x _ heq]
    next => simp [Node.idListL, ihl x m h]

theorem idListL_mem_of_member : ∀ {l : List Node} {m : Node} {x : Nat},
    m ∈ l → x ∈ m.idList → x ∈ Node.idListL l := by
  intro l
  induction l with
  | nil => intro m x h; cases h
  | cons n ns ih =>
    intro m x h hx
    rcases List.mem_cons.mp h with h | h
    · subst h; simp [Node.idListL, hx]
    · simp [Node.idListL, ih h hx]

theorem nodup_of_member : ∀ {l : List Node} {m : Node},
    (Node.idListL l).Nodup → m ∈ l → m.idList.Nodup := by
  intro l
  induction l with
  | nil => intro m _ h; cases h
  | cons n ns ih =>
    intro m hnd h
    simp only [Node.idListL, List.nodup_append] at hnd
    rcases List.mem_cons.mp h with h | h
    · subst h; exact hnd.1
    · exact ih hnd.2.1 h

theorem members_disjoint : ∀ {l : List Node} {a b : Node},
    (Node.idListL l).Nodup → a ∈ l → b ∈ l → a ≠ b →
    ∀ x, x ∈ a.idList → x ∈ b.idList → False := by
  intro l
  induction l with
  | nil => intro a b _ h; cases h
  | cons n ns ih =>
    intro a b hnd ha hb hne x hxa hxb
    simp only [Node.idListL, List.nodup_append] at hnd
    rcases List.mem_cons.mp ha with ha1 | ha2
    · rcases List.mem_cons.mp hb with hb1 | hb2
      · exact hne (ha1.trans hb1.symm)
      · exact hnd.2.2 (ha1 ▸ hxa) (idListL_mem_of_member hb2 hxb)
    · rcases List.mem_cons.mp hb with hb1 | hb2
      · exact hnd.2.2 (hb1 ▸ hxb) (idListL_mem_of_member ha2 hxa)
      · exact ih hnd.2.1 ha2 hb2 hne x hxa hxb

/-- Lifting a found element's children to root-level facts: each child is
found as itself, its parent is the found element, and its id sits strictly
below. -/
theorem child_lift_all :
    (∀ n : Node, n.idList.Nodup → ∀ p pe cs, n.find? p = some (.elem pe cs) →
      ∀ c ∈ cs, n.find? c.idOf = some c ∧ n.parent? c.idOf = some (.elem pe cs) ∧
        c.idOf ∈ Node.idListL n.childNodes) ∧
    (∀ l : List Node, (Node.idListL l).Nodup → ∀ p pe cs, Node.findL? l p = some (.elem pe cs) →
      ∀ c ∈ cs, Node.findL? l c.idOf = some c ∧ Node.parentL? l c.idOf = some (.elem pe cs) ∧
        ∃ m ∈ l, c.idOf ∈ Node.idListL m.childNodes ∧ p ∈ m.idList) := by
  refine nodes_ind
    (Q := fun l => (Node.idListL l).Nodup → ∀ p pe cs, Node.findL? l p = some (.elem pe cs) →
      ∀ c ∈ cs, Node.findL? l c.idOf = some c ∧ Node.parentL? l c.idOf = some (.elem pe cs) ∧
        ∃ m ∈ l, c.idOf ∈ Node.idListL m.childNodes ∧ p ∈ m.idList) ?_ ?_ ?_ ?_
  · intro j v _ p pe cs h
    simp only [Node.find?] at h
    split at h <;> cases h
  · intro e cs0 ih hnd p pe cs h c hc
    simp only [Node.find?] at h
    split at h
    next hep =>
      cases h
      have hmem : c.idOf ∈ Node.idListL cs0 := mem_idListL_of_mem hc
      refine ⟨?_, ?_, by simpa [Node.childNodes] using hmem⟩
      · have hne : e.id ≠ c.idOf := by
          intro hcontra
          simp only [Node.idList] at hnd
          exact (List.nodup_cons.mp hnd).1 (hcontra ▸ hmem)
        simp only [Node.find?, hne, if_false]
        exact findL?_mem cs0 c (by simpa [Node.idList] using (List.nodup_cons.mp hnd).2) hc
      · have hany : cs0.any (fun x => x.idOf = c.idOf) = true :=
          List.any_eq_true.mpr ⟨c, hc, by simp⟩
        simp [Node.parent?, hany]
    next hep =>
      simp only [Node.idList] at hnd
      have hnd2 := (List.nodup_cons.mp hnd).2
      obtain ⟨hfind, hpar, m, hm, hmint, hpm⟩ := ih hnd2 p pe cs h c hc
      have hcin : c.idOf ∈ Node.idListL cs0 := by
        have := mem_idListL_of_mem hm
        -- c.idOf inside m's subtree
        have h2 : c.idOf ∈ m.idList := by
          cases m with
          | text j v => simp [Node.childNodes, Node.idListL] at hmint
          | elem me mcs => simp only [Node.childNodes] at hmint; simp [Node.idList, hmint]
        exact idListL_mem_of_member hm h2
      have hne : e.id ≠ c.idOf := fun hcontra =>
        (List.nodup_cons.mp hnd).1 (hcontra ▸ hcin)
      have hnoany : cs0.any (fun x => x.idOf = c.idOf) = false := by
        rw [List.any_eq_false]
        intro n' hn'
        simp only [decide_eq_true_eq]
        intro hcontra
        -- n'.idOf = c.idOf: the id would occur twice below
        rcases eq_or_ne n' m with rfl | hne2
        · -- same member: id at the head and strictly inside
          have hndm : n'.idList.Nodup := nodup_of_member hnd2 hn'
          cases n' with
          | text j v => simp [Node.childNodes, Node.idListL] at hmint
          | elem me mcs =>
            simp only [Node.idOf] at hcontra
            simp only [Node.childNodes] at hmint
            simp only [Node.idList] at hndm
            exact (List.nodup_cons.mp hndm).1 (hcontra ▸ hmint)
        · -- distinct members share the id
          have h1 : c.idOf ∈ n'.idList := hcontra ▸ idOf_mem_idList n'
          have h2 : c.idOf ∈ m.idList := by
            cases m with
            | text j v => simp [Node.childNodes, Node.idListL] at hmint
            | elem me mcs => simp only [Node.childNodes] at hmint; simp [Node.idList, hmint]
          exact members_disjoint hnd2 hn' hm hne2 c.idOf h1 h2
      refine ⟨by simp [Node.find?, hne, hfind], by simp [Node.parent?, hnoany, hpar], ?_⟩
      simpa [Node.childNodes] using hcin
  · intro _ p pe cs h; cases h
  · intro n ns ihn ihl hnd p pe cs h c hc
    simp only [Node.idListL, List.nodup_append] at hnd
    simp only [Node.findL?] at h
    split at h
    next m2 heq =>
      cases h
      obtain ⟨hfind, hpar, hint⟩ := ihn hnd.1 p pe cs heq c hc
      refine ⟨by simp [Node.findL?, hfind], by simp [Node.parentL?, hpar], n, by simp, hint, ?_⟩
      exact (find?_isSome_iff n p).mp (by simp [heq])
    next heq =>
      obtain ⟨hfind, hpar, m, hm, hmint, hpm⟩ := ihl hnd.2.1 p pe cs h c hc
      have hcIdIn : c.idOf ∈ Node.idListL ns := by
        have h2 : c.idOf ∈ m.idList := by
          cases m with
          | text j v => simp [Node.childNodes, Node.idListL] at hmint
          | elem me mcs => simp only [Node.childNodes] at hmint; simp [Node.idList, hmint]
        exact idListL_mem_of_member hm h2
      have hnotn : c.idOf ∉ n.idList := fun hmem => hnd.2.2 hmem hcIdIn
      have hfn : n.find? c.idOf = none := by
        cases hf : n.find? c.idOf with
        | none => rfl
        | some _ => exact absurd ((find?_isSome_iff n c.idOf).mp (by simp [hf])) hnotn
      have hpn : n.parent? c.idOf = none := by
        cases hp : n.parent? c.idOf with
        | none => rfl
        | some _ => exact absurd (parent?_mem n c.idOf _ hp) hnotn
      exact ⟨by simp [Node.findL?, hfn, hfind], by simp [Node.parentL?, hpn, hpar],
        m, by simp [hm], hmint, hpm⟩

theorem child_lift :
    ∀ n : Node, n.idList.Nodup → ∀ p pe cs, n.find? p = some (.elem pe cs) →
      ∀ c ∈ cs, n.find? c.idOf = some c ∧ n.parent? c.idOf = some (.elem pe cs) ∧
        c.idOf ∈ Node.idListL n.childNodes :=
  child_lift_all.1



theorem idOfs_nodup : ∀ {l : List Node}, (Node.idListL l).Nodup → (l.map Node.idOf).Nodup := by
  intro l
  induction l with
  | nil => intro _; simp
  | cons n ns ih =>
    intro hnd
    simp only [Node.idListL, List.nodup_append] at hnd
    simp only [List.map_cons, List.nodup_cons]
    refine ⟨?_, ih hnd.2.1⟩
    intro hmem
    obtain ⟨m, hm, hid⟩ := List.mem_map.mp hmem
    exact hnd.2.2 (idOf_mem_idList n) (idListL_mem_of_member hm (hid ▸ idOf_mem_idList m))

theorem findIdx?_append_sentinel {α : Type} (p : α → Bool) (pre : List α) (c : α) (post : List α)
    (hpre : ∀ x ∈ pre, p x = false) (hc : p c = true) :
    (pre ++ c :: post).findIdx? p = some pre.length := by
  induction pre with
  | nil =>
    simp [List.findIdx?_cons, hc]
  | cons x xs ih =>
    have hx : p x = false := hpre x (by simp)
    have ih2 := ih (fun y hy => hpre y (by simp [hy]))
    simp [List.findIdx?_cons, hx, ih2]

theorem sibs_of_decomp (n : Node) (hnd : n.idList.Nodup) (p : Nat) (pe : EInfo)
    (pre : List Node) (c : Node) (post : List Node)
    (hf : n.find? p = some (.elem pe (pre ++ c :: post))) :
    n.prevSib? c.idOf = pre.getLast? ∧ n.nextSib? c.idOf = post.head? := by
  obtain ⟨hfc, hpar, _⟩ := child_lift n hnd p pe (pre ++ c :: post) hf c (by simp)
  obtain ⟨_, _, ipre, ipost, _, hid, _⟩ := withChildrenAt_context n hnd p pe (pre ++ c :: post) hf
  have hndcs : (Node.idListL (pre ++ c :: post)).Nodup := by
    rw [hid] at hnd
    have h1 := (hnd.of_append_right).of_cons
    exact h1.of_append_left
  have hmapnd := idOfs_nodup hndcs
  have hidx : childIdx? (pre ++ c :: post) c.idOf = some pre.length := by
    unfold childIdx?
    refine findIdx?_append_sentinel _ pre c post ?_ (by simp)
    intro x hx
    simp only [decide_eq_false_iff_not]
    intro hcontra
    rw [List.map_append, List.map_cons] at hmapnd
    have h1 := (List.nodup_append.mp hmapnd).2.2
    exact h1 (List.mem_map.mpr ⟨x, hx, hcontra⟩) (by simp)
  constructor
  · unfold Node.prevSib?
    rw [hpar]
    simp only [Node.childNodes]
    rw [hidx]
    cases hp : pre with
    | nil => simp
    | cons y ys =>
      simp only [List.length_cons]
      rw [List.getElem?_append]
      simp only [List.length_cons, Nat.lt_succ_self, if_true]
      rw [List.getLast?_eq_getElem?]
      simp
  · unfold Node.nextSib?
    rw [hpar]
    simp only [Node.childNodes, hidx]
    rw [List.getElem?_append]
    simp [List.head?_eq_getElem?]



theorem interior_ne_idOf (n : Node) (hnd : n.idList.Nodup) (x : Nat)
    (hx : x ∈ Node.idListL n.childNodes) : n.idOf ≠ x := by
  cases n with
  | text j v => simp [Node.childNodes, Node.idListL] at hx
  | elem e cs =>
    simp only [Node.childNodes] at hx
    simp only [Node.idList] at hnd
    intro h
    simp only [Node.idOf] at h
    exact (List.nodup_cons.mp hnd).1 (h ▸ hx)

theorem interior_mem (n : Node) (x : Nat) (hx : x ∈ Node.idListL n.childNodes) :
    x ∈ n.idList := by
  cases n with
  | text j v => simp [Node.childNodes, Node.idListL] at hx
  | elem e cs => simp only [Node.childNodes] at hx; simp [Node.idList, hx]

theorem replaceId_localize :
    (∀ n : Node, n.idList.Nodup → ∀ p pe cs, n.find? p = some (.elem pe cs) →
      ∀ c ∈ cs, ∀ rep, n.replaceId c.idOf rep =
        n.withChildrenAt p (Node.replaceIdL cs c.idOf rep)) ∧
    (∀ l : List Node, (Node.idListL l).Nodup → ∀ p pe cs, Node.findL? l p = some (.elem pe cs) →
      ∀ c ∈ cs, ∀ rep, Node.replaceIdL l c.idOf rep =
        Node.withChildrenAtL l p (Node.replaceIdL cs c.idOf rep)) := by
  refine nodes_ind ?_ ?_ ?_ ?_
  · intro j v _ p pe cs h
    simp only [Node.find?] at h
    split at h <;> cases h
  · intro e cs0 ih hnd p pe cs h c hc rep
    simp only [Node.idList] at hnd
    have hnd2 := (List.nodup_cons.mp hnd).2
    simp only [Node.find?] at h
    split at h
    next hep =>
      cases h
      have hne : e.id ≠ c.idOf := fun hcontra =>
        (List.nodup_cons.mp hnd).1 (hcontra ▸ mem_idListL_of_mem hc)
      simp [Node.replaceId, Node.withChildrenAt, hep]
    next hep =>
      obtain ⟨_, _, m, hm, hmint, hpm⟩ := child_lift_all.2 cs0 hnd2 p pe cs h c hc
      have hcin : c.idOf ∈ Node.idListL cs0 :=
        idListL_mem_of_member hm (interior_mem m c.idOf hmint)
      have hne : e.id ≠ c.idOf := fun hcontra =>
        (List.nodup_cons.mp hnd).1 (hcontra ▸ hcin)
      simp only [Node.replaceId, Node.withChildrenAt, hep, if_false]
      exact congrArg _ (ih hnd2 p pe cs h c hc rep)
  · intro _ p pe cs h; cases h
  · intro n ns ihn ihl hnd p pe cs h c hc rep
    simp only [Node.idListL, List.nodup_append] at hnd
    simp only [Node.findL?] at h
    split at h
    next m2 heq =>
      cases h
      obtain ⟨_, _, hint⟩ := child_lift_all.1 n hnd.1 p pe cs heq c hc
      have hcn : c.idOf ∈ n.idList := interior_mem n c.idOf hint
      have hpn : p ∈ n.idList := (find?_isSome_iff n p).mp (by simp [heq])
      have hcns : c.idOf ∉ Node.idListL ns := fun hmem => hnd.2.2 hcn hmem
      have hpns : p ∉ Node.idListL ns := fun hmem => hnd.2.2 hpn hmem
      have hnid : n.idOf ≠ c.idOf := interior_ne_idOf n hnd.1 c.idOf hint
      simp only [Node.replaceIdL, Node.withChildrenAtL, hnid, if_false]
      rw [ihn hnd.1 p pe cs heq c hc rep,
        replaceId_not_mem.2 ns c.idOf rep hcns,
        withChildrenAt_not_mem.2 ns p _ hpns]
    next heq =>
      obtain ⟨_, _, m, hm, hmint, hpm⟩ := child_lift_all.2 ns hnd.2.1 p pe cs h c hc
      have hcns : c.idOf ∈ Node.idListL ns :=
        idListL_mem_of_member hm (interior_mem m c.idOf hmint)
      have hpns : p ∈ Node.idListL ns := idListL_mem_of_member hm hpm
      have hcn : c.idOf ∉ n.idList := fun hmem => hnd.2.2 hmem hcns
      have hpn : p ∉ n.idList := fun hmem => hnd.2.2 hmem hpns
      have hnid : n.idOf ≠ c.idOf := fun hcontra => hcn (hcontra ▸ idOf_mem_idList n)
      simp only [Node.replaceIdL, Node.withChildrenAtL, hnid, if_false]
      rw [replaceId_not_mem.1 n c.idOf rep hcn,
        withChildrenAt_not_mem.1 n p _ hpn,
        ihl hnd.2.1 p pe cs h c hc rep]



theorem absorbNext_not_mem :
    (∀ n : Node, ∀ i, i ∉ n.idList → n.absorbNext i = n) ∧
    (∀ l : List Node, ∀ i, i ∉ Node.idListL l → Node.absorbNextL l i = l) := by
  refine nodes_ind ?_ ?_ ?_ ?_
  · intro j v i _; rfl
  · intro e cs ih i h
    simp only [Node.idList, List.mem_cons] at h
    push_neg at h
    simp [Node.absorbNext, ih i h.2]
  · intro i _; rfl
  · intro n ns ihn ihl i h
    simp only [Node.idListL, List.mem_append] at h
    push_neg at h
    have hid : n.idOf ≠ i := fun he => h.1 (he ▸ idOf_mem_idList n)
    cases ns with
    | nil => simp [Node.absorbNextL, ihn i h.1]
    | cons b rest =>
      simp only [Node.absorbNextL, hid, if_false]
      rw [ihn i h.1, ihl i h.2]

theorem absorbPrev_not_mem :
    (∀ n : Node, ∀ i, i ∉ n.idList → n.absorbPrev i = n) ∧
    (∀ l : List Node, ∀ i, i ∉ Node.idListL l → Node.absorbPrevL l i = l) := by
  refine nodes_ind ?_ ?_ ?_ ?_
  · intro j v i _; rfl
  · intro e cs ih i h
    simp only [Node.idList, List.mem_cons] at h
    push_neg at h
    simp [Node.absorbPrev, ih i h.2]
  · intro i _; rfl
  · intro n ns ihn ihl i h
    simp only [Node.idListL, List.mem_append] at h
    push_neg at h
    cases ns with
    | nil => simp [Node.absorbPrevL, ihn i h.1]
    | cons b rest =>
      have hbid : b.idOf ≠ i := by
        intro he
        exact h.2 (he ▸ idListL_mem_of_member (by simp) (idOf_mem_idList b))
      simp only [Node.absorbPrevL, hbid, if_false]
      rw [ihn i h.1, ihl i h.2]

theorem absorbNextL_splice (pre : List Node) (a b : Node) (post : List Node)
    (ae : EInfo) (acs : List Node) (be : EInfo) (bcs : List Node)
    (ha : a = .elem ae acs) (hb : b = .elem be bcs)
    (hnd : (Node.idListL (pre ++ a :: b :: post)).Nodup) :
    Node.absorbNextL (pre ++ a :: b :: post) a.idOf =
      pre ++ .elem ae (acs ++ bcs) :: post := by
  induction pre with
  | nil =>
    simp only [List.nil_append, Node.absorbNextL, if_pos rfl]
    subst ha hb
    rfl
  | cons x xs ih =>
    simp only [List.cons_append] at hnd ⊢
    simp only [Node.idListL, List.nodup_append] at hnd
    have hmem : a.idOf ∈ Node.idListL (xs ++ a :: b :: post) :=
      idListL_mem_of_member (by simp) (idOf_mem_idList a)
    have hxa : x.idOf ≠ a.idOf := by
      intro he
      exact hnd.2.2 (he ▸ idOf_mem_idList x) hmem
    have hxnot : a.idOf ∉ x.idList := fun hm => hnd.2.2 hm hmem
    cases hxs : xs ++ a :: b :: post with
    | nil => exact absurd hxs (by simp)
    | cons y rest =>
      rw [← hxs]
      have : Node.absorbNextL (x :: (xs ++ a :: b :: post)) a.idOf =
          x.absorbNext a.idOf :: Node.absorbNextL (xs ++ a :: b :: post) a.idOf := by
        rw [hxs]
        simp only [Node.absorbNextL, hxa, if_false]
      rw [this, absorbNext_not_mem.1 x a.idOf hxnot, ih hnd.2.1]

theorem absorbPrevL_splice (pre : List Node) (a b : Node) (post : List Node)
    (ae : EInfo) (acs : List Node) (be : EInfo) (bcs : List Node)
    (ha : a = .elem ae acs) (hb : b = .elem be bcs)
    (hnd : (Node.idListL (pre ++ a :: b :: post)).Nodup) :
    Node.absorbPrevL (pre ++ a :: b :: post) b.idOf =
      pre ++ .elem be (acs ++ bcs) :: post := by
  induction pre with
  | nil =>
    simp only [List.nil_append, Node.absorbPrevL, if_pos rfl]
    subst ha hb
    rfl
  | cons x xs ih =>
    simp only [List.cons_append] at hnd ⊢
    simp only [Node.idListL, List.nodup_append] at hnd
    have hmemb : b.idOf ∈ Node.idListL (xs ++ a :: b :: post) :=
      idListL_mem_of_member (by simp) (idOf_mem_idList b)
    have hxnot : b.idOf ∉ x.idList := fun hm => hnd.2.2 hm hmemb
    cases hxs : xs ++ a :: b :: post with
    | nil => exact absurd hxs (by simp)
    | cons y rest =>
      have hbrest : b ∈ rest := by
        have htl : (xs ++ a :: b :: post).tail = rest := by rw [hxs]; rfl
        rw [← htl]
        cases xs with
        | nil => simp
        | cons z zs => simp
      have hyb : y.idOf ≠ b.idOf := by
        intro he
        have hnd2 : (Node.idListL (y :: rest)).Nodup := by rw [← hxs]; exact hnd.2.1
        simp only [Node.idListL, List.nodup_append] at hnd2
        exact hnd2.2.2 (he ▸ idOf_mem_idList y)
          (idListL_mem_of_member hbrest (idOf_mem_idList b))
      have hstep : Node.absorbPrevL (x :: (xs ++ a :: b :: post)) b.idOf =
          x.absorbPrev b.idOf :: Node.absorbPrevL (xs ++ a :: b :: post) b.idOf := by
        rw [hxs]
        simp only [Node.absorbPrevL, hyb, if_false]
      rw [← hxs, hstep, absorbPrev_not_mem.1 x b.idOf hxnot, ih hnd.2.1]



theorem absorbNext_localize :
    (∀ n : Node, n.idList.Nodup →
      ∀ p pe pre (a b : Node) post ae acs be bcs,
      n.find? p = some (.elem pe (pre ++ a :: b :: post)) →
      a = Node.elem ae acs → b = Node.elem be bcs →
      n.absorbNext a.idOf = n.withChildrenAt p (pre ++ .elem ae (acs ++ bcs) :: post)) ∧
    (∀ l : List Node, (Node.idListL l).Nodup →
      ∀ p pe pre (a b : Node) post ae acs be bcs,
      Node.findL? l p = some (.elem pe (pre ++ a :: b :: post)) →
      a = Node.elem ae acs → b = Node.elem be bcs →
      Node.absorbNextL l a.idOf =
        Node.withChildrenAtL l p (pre ++ .elem ae (acs ++ bcs) :: post)) := by
  refine nodes_ind ?_ ?_ ?_ ?_
  · intro j v _ p pe pre a b post ae acs be bcs h _ _
    simp only [Node.find?] at h
    split at h <;> cases h
  · intro e cs0 ih hnd p pe pre a b post ae acs be bcs h ha hb
    simp only [Node.idList] at hnd
    have hnd2 := (List.nodup_cons.mp hnd).2
    simp only [Node.find?] at h
    split at h
    next hep =>
      cases h
      have h1 : Node.absorbNext (Node.elem e (pre ++ a :: b :: post)) a.idOf =
          Node.elem e (Node.absorbNextL (pre ++ a :: b :: post) a.idOf) := rfl
      rw [h1, absorbNextL_splice pre a b post ae acs be bcs ha hb hnd2]
      simp [Node.withChildrenAt, hep]
    next hep =>
      obtain ⟨_, _, m, hm, hmint, hpm⟩ :=
        child_lift_all.2 cs0 hnd2 p pe (pre ++ a :: b :: post) h a (by simp)
      have hain : a.idOf ∈ Node.idListL cs0 :=
        idListL_mem_of_member hm (interior_mem m a.idOf hmint)
      have hne : e.id ≠ a.idOf := fun hcontra =>
        (List.nodup_cons.mp hnd).1 (hcontra ▸ hain)
      simp only [Node.absorbNext, Node.withChildrenAt, hep, if_false]
      exact congrArg _ (ih hnd2 p pe pre a b post ae acs be bcs h ha hb)
  · intro _ p pe pre a b post ae acs be bcs h _ _; cases h
  · intro n ns ihn ihl hnd p pe pre a b post ae acs be bcs h ha hb
    simp only [Node.idListL, List.nodup_append] at hnd
    simp only [Node.findL?] at h
    split at h
    next m2 heq =>
      cases h
      obtain ⟨_, _, hint⟩ :=
        child_lift_all.1 n hnd.1 p pe (pre ++ a :: b :: post) heq a (by simp)
      have han : a.idOf ∈ n.idList := interior_mem n a.idOf hint
      have hpn : p ∈ n.idList := (find?_isSome_iff n p).mp (by simp [heq])
      have hans : a.idOf ∉ Node.idListL ns := fun hmem => hnd.2.2 han hmem
      have hpns : p ∉ Node.idListL ns := fun hmem => hnd.2.2 hpn hmem
      have hnid : n.idOf ≠ a.idOf := interior_ne_idOf n hnd.1 a.idOf hint
      cases ns with
      | nil =>
        simp only [Node.absorbNextL, Node.withChildrenAtL]
        rw [ihn hnd.1 p pe pre a b post ae acs be bcs heq ha hb]
      | cons n2 rest =>
        have hpn2 : p ∉ n2.idList := fun hm => hpns (idListL_mem_of_member (by simp) hm)
        have hprest : p ∉ Node.idListL rest := fun hm => hpns (by simp [Node.idListL, hm])
        simp only [Node.absorbNextL, Node.withChildrenAtL, hnid, if_false]
        rw [ihn hnd.1 p pe pre a b post ae acs be bcs heq ha hb,
          absorbNext_not_mem.2 (n2 :: rest) a.idOf hans,
          withChildrenAt_not_mem.1 n2 p
            (pre ++ Node.elem ae (acs ++ bcs) :: post) hpn2,
          withChildrenAt_not_mem.2 rest p
            (pre ++ Node.elem ae (acs ++ bcs) :: post) hprest]
    next heq =>
      obtain ⟨_, _, m, hm, hmint, hpm⟩ :=
        child_lift_all.2 ns hnd.2.1 p pe (pre ++ a :: b :: post) h a (by simp)
      have hans : a.idOf ∈ Node.idListL ns :=
        idListL_mem_of_member hm (interior_mem m a.idOf hmint)
      have hpns : p ∈ Node.idListL ns := idListL_mem_of_member hm hpm
      have han : a.idOf ∉ n.idList := fun hmem => hnd.2.2 hmem hans
      have hpn : p ∉ n.idList := fun hmem => hnd.2.2 hmem hpns
      have hnid : n.idOf ≠ a.idOf := fun hcontra => han (hcontra ▸ idOf_mem_idList n)
      cases ns with
      | nil => cases h
      | cons n2 rest =>
        simp only [Node.absorbNextL, Node.withChildrenAtL, hnid, if_false]
        rw [absorbNext_not_mem.1 n a.idOf han,
          withChildrenAt_not_mem.1 n p
            (pre ++ Node.elem ae (acs ++ bcs) :: post) hpn]
        have := ihl hnd.2.1 p pe pre a b post ae acs be bcs h ha hb
        simp only [Node.absorbNextL, Node.withChildrenAtL] at this
        rw [this]

theorem absorbPrev_localize :
    (∀ n : Node, n.idList.Nodup →
      ∀ p pe pre (a b : Node) post ae acs be bcs,
      n.find? p = some (.elem pe (pre ++ a :: b :: post)) →
      a = Node.elem ae acs → b = Node.elem be bcs →
      n.absorbPrev b.idOf = n.withChildrenAt p (pre ++ .elem be (acs ++ bcs) :: post)) ∧
    (∀ l : List Node, (Node.idListL l).Nodup →
      ∀ p pe pre (a b : Node) post ae acs be bcs,
      Node.findL? l p = some (.elem pe (pre ++ a :: b :: post)) →
      a = Node.elem ae acs → b = Node.elem be bcs →
      Node.absorbPrevL l b.idOf =
        Node.withChildrenAtL l p (pre ++ .elem be (acs ++ bcs) :: post)) := by
  refine nodes_ind ?_ ?_ ?_ ?_
  · intro j v _ p pe pre a b post ae acs be bcs h _ _
    simp only [Node.find?] at h
    split at h <;> cases h
  · intro e cs0 ih hnd p pe pre a b post ae acs be bcs h ha hb
    simp only [Node.idList] at hnd
    have hnd2 := (List.nodup_cons.mp hnd).2
    simp only [Node.find?] at h
    split at h
    next hep =>
      cases h
      have h1 : Node.absorbPrev (Node.elem e (pre ++ a :: b :: post)) b.idOf =
          Node.elem e (Node.absorbPrevL (pre ++ a :: b :: post) b.idOf) := rfl
      rw [h1, absorbPrevL_splice pre a b post ae acs be bcs ha hb hnd2]
      simp [Node.withChildrenAt, hep]
    next hep =>
      obtain ⟨_, _, m, hm, hmint, hpm⟩ :=
        child_lift_all.2 cs0 hnd2 p pe (pre ++ a :: b :: post) h b (by simp)
      have hbin : b.idOf ∈ Node.idListL cs0 :=
        idListL_mem_of_member hm (interior_mem m b.idOf hmint)
      have hne : e.id ≠ b.idOf := fun hcontra =>
        (List.nodup_cons.mp hnd).1 (hcontra ▸ hbin)
      simp only [Node.absorbPrev, Node.withChildrenAt, hep, if_false]
      exact congrArg _ (ih hnd2 p pe pre a b post ae acs be bcs h ha hb)
  · intro _ p pe pre a b post ae acs be bcs h _ _; cases h
  · intro n ns ihn ihl hnd p pe pre a b post ae acs be bcs h ha hb
    simp only [Node.idListL, List.nodup_append] at hnd
    simp only [Node.findL?] at h
    split at h
    next m2 heq =>
      cases h
      obtain ⟨_, _, hint⟩ :=
        child_lift_all.1 n hnd.1 p pe (pre ++ a :: b :: post) heq b (by simp)
      have hbn : b.idOf ∈ n.idList := interior_mem n b.idOf hint
      have hpn : p ∈ n.idList := (find?_isSome_iff n p).mp (by simp [heq])
      have hbns : b.idOf ∉ Node.idListL ns := fun hmem => hnd.2.2 hbn hmem
      have hpns : p ∉ Node.idListL ns := fun hmem => hnd.2.2 hpn hmem
      cases ns with
      | nil =>
        simp only [Node.absorbPrevL, Node.withChildrenAtL]
        rw [ihn hnd.1 p pe pre a b post ae acs be bcs heq ha hb]
      | cons n2 rest =>
        have hn2 : n2.idOf ≠ b.idOf := by
          intro he
          exact hbns (he ▸ idListL_mem_of_member (by simp) (idOf_mem_idList n2))
        have hpn2 : p ∉ n2.idList := fun hm => hpns (idListL_mem_of_member (by simp) hm)
        have hprest : p ∉ Node.idListL rest := fun hm => hpns (by simp [Node.idListL, hm])
        simp only [Node.absorbPrevL, Node.withChildrenAtL, hn2, if_false]
        rw [ihn hnd.1 p pe pre a b post ae acs be bcs heq ha hb,
          absorbPrev_not_mem.2 (n2 :: rest) b.idOf hbns,
          withChildrenAt_not_mem.1 n2 p
            (pre ++ Node.elem be (acs ++ bcs) :: post) hpn2,
          withChildrenAt_not_mem.2 rest p
            (pre ++ Node.elem be (acs ++ bcs) :: post) hprest]
    next heq =>
      obtain ⟨_, _, m, hm, hmint, hpm⟩ :=
        child_lift_all.2 ns hnd.2.1 p pe (pre ++ a :: b :: post) h b (by simp)
      have hbns : b.idOf ∈ Node.idListL ns :=
        idListL_mem_of_member hm (interior_mem m b.idOf hmint)
      have hpns : p ∈ Node.idListL ns := idListL_mem_of_member hm hpm
      have hbn : b.idOf ∉ n.idList := fun hmem => hnd.2.2 hmem hbns
      have hpn : p ∉ n.idList := fun hmem => hnd.2.2 hmem hpns
      cases ns with
      | nil => cases h
      | cons n2 rest =>
        have hn2 : n2.idOf ≠ b.idOf := by
          intro he
          rcases eq_or_ne n2 m with hem | hem
          · have hndm : m.idList.Nodup := nodup_of_member hnd.2.1 hm
            rw [← hem] at hndm hmint
            exact interior_ne_idOf n2 hndm b.idOf hmint he
          · have h1 : b.idOf ∈ n2.idList := he ▸ idOf_mem_idList n2
            have h2 : b.idOf ∈ m.idList := interior_mem m b.idOf hmint
            exact members_disjoint hnd.2.1 (by simp) hm hem b.idOf h1 h2
        simp only [Node.absorbPrevL, Node.withChildrenAtL, hn2, if_false]
        rw [absorbPrev_not_mem.1 n b.idOf hbn,
          withChildrenAt_not_mem.1 n p
            (pre ++ Node.elem be (acs ++ bcs) :: post) hpn]
        have := ihl hnd.2.1 p pe pre a b post ae acs be bcs h ha hb
        simp only [Node.absorbPrevL, Node.withChildrenAtL] at this
        rw [this]




theorem coalesceTexts_textContent : ∀ l : List Node,
    Node.textContentL (coalesceTexts l) = Node.textContentL l := by
  intro l
  induction l with
  | nil => rfl
  | cons n rest ih =>
    cases n with
    | text i v =>
      simp only [coalesceTexts]
      cases hc : coalesceTexts rest with
      | nil => simp [Node.textContentL, Node.textContent, ← ih, hc]
      | cons m rest2 =>
        cases m with
        | text j w =>
          simp only [Node.textContentL, Node.textContent]
          rw [← ih, hc]
          simp [Node.textContentL, Node.textContent, List.append_assoc]
        | elem me mcs =>
          simp only [Node.textContentL, Node.textContent]
          rw [← ih, hc]
          simp [Node.textContentL, Node.textContent]
    | elem e cs =>
      simp [coalesceTexts, Node.textContentL, ih]

theorem coalesceTexts_ids_sublist : ∀ l : List Node,
    List.Sublist (Node.idListL (coalesceTexts l)) (Node.idListL l) := by
  intro l
  induction l with
  | nil => simp [coalesceTexts]
  | cons n rest ih =>
    cases n with
    | text i v =>
      simp only [coalesceTexts]
      cases hc : coalesceTexts rest with
      | nil =>
        simp only [Node.idListL, Node.idList]
        exact (List.Sublist.refl _).append (by simpa [hc, Node.idListL] using ih)
      | cons m rest2 =>
        cases m with
        | text j w =>
          rw [hc] at ih
          simp only [Node.idListL, Node.idList] at ih ⊢
          have h3 : List.Sublist (Node.idListL rest2) (Node.idListL rest) :=
            ((List.sublist_cons_self j _).trans (by simpa using ih))
          simpa using h3.cons₂ i
        | elem me mcs =>
          rw [hc] at ih
          simp only [Node.idListL, Node.idList] at ih ⊢
          exact (List.Sublist.refl [i]).append ih
    | elem e cs =>
      simp only [coalesceTexts, Node.idListL]
      exact (List.Sublist.refl _).append ih



theorem replaceIdL_splice (pre : List Node) (c : Node) (post : List Node) (rep : List Node)
    (hnd : (Node.idListL (pre ++ c :: post)).Nodup) :
    Node.replaceIdL (pre ++ c :: post) c.idOf rep = pre ++ rep ++ post := by
  induction pre with
  | nil => simp [Node.replaceIdL]
  | cons x xs ih =>
    simp only [List.cons_append] at hnd ⊢
    simp only [Node.idListL, List.nodup_append] at hnd
    have hmem : c.idOf ∈ Node.idListL (xs ++ c :: post) :=
      idListL_mem_of_member (by simp) (idOf_mem_idList c)
    have hxc : x.idOf ≠ c.idOf := fun he => hnd.2.2 (he ▸ idOf_mem_idList x) hmem
    have hxnot : c.idOf ∉ x.idList := fun hm => hnd.2.2 hm hmem
    simp only [Node.replaceIdL, hxc, if_false]
    rw [replaceId_not_mem.1 x c.idOf rep hxnot, ih hnd.2.1]

theorem withChildrenAt_twice :
    (∀ n : Node, ∀ p x y, (n.withChildrenAt p x).withChildrenAt p y = n.withChildrenAt p y) ∧
    (∀ l : List Node, ∀ p x y,
      Node.withChildrenAtL (Node.withChildrenAtL l p x) p y = Node.withChildrenAtL l p y) := by
  refine nodes_ind ?_ ?_ ?_ ?_
  · intro j v p x y; rfl
  · intro e cs ih p x y
    by_cases hep : e.id = p
    · simp [Node.withChildrenAt, hep]
    · simp [Node.withChildrenAt, hep, ih p x y]
  · intro p x y; rfl
  · intro n ns ihn ihl p x y
    simp [Node.withChildrenAtL, ihn p x y, ihl p x y]



theorem findL?_mem_ids : ∀ {l : List Node} {i : Nat} {m : Node},
    Node.findL? l i = some m → i ∈ Node.idListL l := by
  intro l
  induction l with
  | nil => intro i m h; cases h
  | cons n ns ih =>
    intro i m h
    simp only [Node.findL?] at h
    split at h
    next m2 heq =>
      have := (find?_isSome_iff n i).mp (by simp [heq])
      simp [Node.idListL, this]
    next => simp [Node.idListL, ih h]

theorem parent_decomp :
    (∀ n : Node, n.idList.Nodup → ∀ x m, n.find? x = some m → x ≠ n.idOf →
      ∃ pid pe cs pre post, n.find? pid = some (.elem pe cs) ∧ cs = pre ++ m :: post) ∧
    (∀ l : List Node, (Node.idListL l).Nodup → ∀ x m, Node.findL? l x = some m →
      (∃ pre post, l = pre ++ m :: post) ∨
      (∃ pid pe cs pre post, Node.findL? l pid = some (.elem pe cs) ∧ cs = pre ++ m :: post)) := by
  refine nodes_ind ?_ ?_ ?_ ?_
  · intro j v _ x m h hx
    simp only [Node.find?] at h
    split at h
    · cases h; exact absurd (by simpa [Node.idOf] using ‹j = x›.symm) hx
    · cases h
  · intro e cs0 ih hnd x m h hx
    simp only [Node.idList] at hnd
    have hnd1 := List.nodup_cons.mp hnd
    simp only [Node.find?] at h
    split at h
    next hep => exact absurd (by simpa [Node.idOf] using hep.symm) hx
    next hep =>
      rcases ih hnd1.2 x m h with ⟨pre, post, hdec⟩ | ⟨pid, pe, cs, pre, post, hfind, hdec⟩
      · exact ⟨e.id, e, cs0, pre, post, by simp [Node.find?], hdec⟩
      · have hpmem : pid ∈ Node.idListL cs0 := findL?_mem_ids hfind
        have hne : e.id ≠ pid := fun hc => hnd1.1 (hc ▸ hpmem)
        exact ⟨pid, pe, cs, pre, post, by simp [Node.find?, hne, hfind], hdec⟩
  · intro _ x m h; cases h
  · intro n ns ihn ihl hnd x m h
    simp only [Node.idListL, List.nodup_append] at hnd
    simp only [Node.findL?] at h
    split at h
    next m2 heq =>
      cases h
      by_cases hxid : x = n.idOf
      · left
        have hm : n = m := by
          rw [hxid, find?_self] at heq
          exact Option.some.inj heq
        exact ⟨[], ns, by simp [hm]⟩
      · right
        obtain ⟨pid, pe, cs, pre, post, hfind, hdec⟩ := ihn hnd.1 x m heq hxid
        exact ⟨pid, pe, cs, pre, post, by simp [Node.findL?, hfind], hdec⟩
    next heq =>
      rcases ihl hnd.2.1 x m h with ⟨pre, post, hdec⟩ | ⟨pid, pe, cs, pre, post, hfind, hdec⟩
      · exact Or.inl ⟨n :: pre, post, by simp [hdec]⟩
      · right
        have hpmem : pid ∈ Node.idListL ns := findL?_mem_ids hfind
        have hpn : pid ∉ n.idList := fun hc => hnd.2.2 hc hpmem
        have hnone : n.find? pid = none := by
          cases hf2 : n.find? pid with
          | none => rfl
          | some m3 => exact absurd ((find?_isSome_iff n pid).mp (by simp [hf2])) hpn
        exact ⟨pid, pe, cs, pre, post, by simp [Node.findL?, hnone, hfind], hdec⟩

theorem splitText_prevSib (d : Doc) (hwf : d.WF) (hroot : d.root.isElem = true)
    (sc : Nat) (v : List Char) (hf : d.root.find? sc = some (.text sc v)) (off : Nat) :
    ((d.root.replaceId sc [.text sc (v.take off), .text d.nextId (v.drop off)]).prevSib?
        d.nextId).map Node.idOf = some sc := by
  have hne : sc ≠ d.root.idOf := by
    intro he
    rw [he, find?_self] at hf
    rw [Option.some.inj hf] at hroot
    simp [Node.isElem] at hroot
  obtain ⟨pid, pe, cs, pre, post, hpf, hdec⟩ := parent_decomp.1 d.root hwf.1 sc _ hf hne
  subst hdec
  obtain ⟨tpre, tpost, ipre, ipost, ht, hi, hall⟩ :=
    withChildrenAt_context d.root hwf.1 pid pe _ hpf
  have hndcs : (Node.idListL (pre ++ Node.text sc v :: post)).Nodup := by
    have h1 := hi ▸ hwf.1
    exact ((h1.of_append_right).of_cons).of_append_left
  have hfresh : d.nextId ∉ d.root.idList := fun hmem => lt_irrefl _ (hwf.2 _ hmem)
  have hrl : d.root.replaceId sc [Node.text sc (v.take off), Node.text d.nextId (v.drop off)] =
      d.root.withChildrenAt pid
        (Node.replaceIdL (pre ++ Node.text sc v :: post) sc
          [Node.text sc (v.take off), Node.text d.nextId (v.drop off)]) := by
    have := replaceId_localize.1 d.root hwf.1 pid pe _ hpf (Node.text sc v) (by simp)
      [Node.text sc (v.take off), Node.text d.nextId (v.drop off)]
    simpa [Node.idOf] using this
  have hrs : Node.replaceIdL (pre ++ Node.text sc v :: post) sc
      [Node.text sc (v.take off), Node.text d.nextId (v.drop off)] =
      pre ++ [Node.text sc (v.take off), Node.text d.nextId (v.drop off)] ++ post := by
    have := replaceIdL_splice pre (Node.text sc v) post
      [Node.text sc (v.take off), Node.text d.nextId (v.drop off)] hndcs
    simpa [Node.idOf] using this
  rw [hrl, hrs]
  set ncs := pre ++ [Node.text sc (v.take off), Node.text d.nextId (v.drop off)] ++ post with hncs
  obtain ⟨g1, g2, g3⟩ := hall ncs
  have hndnew : (d.root.withChildrenAt pid ncs).idList.Nodup := by
    rw [g2]
    have hnewshape : ipre ++ pe.id :: (Node.idListL ncs ++ ipost) =
        (ipre ++ pe.id :: (Node.idListL pre ++ [sc])) ++
          d.nextId :: (Node.idListL post ++ ipost) := by
      simp [hncs, idListL_append, Node.idListL, Node.idList, List.append_assoc]
    have holdshape : d.root.idList =
        (ipre ++ pe.id :: (Node.idListL pre ++ [sc])) ++ (Node.idListL post ++ ipost) := by
      rw [hi]
      simp [idListL_append, Node.idListL, Node.idList, List.append_assoc]
    rw [hnewshape]
    rw [List.nodup_middle, List.nodup_cons]
    constructor
    · intro hc
      exact hfresh (by rw [holdshape]; exact hc)
    · rw [← holdshape]
      exact hwf.1
  have hsib := sibs_of_decomp (d.root.withChildrenAt pid ncs) hndnew pid pe
    (pre ++ [Node.text sc (v.take off)]) (Node.text d.nextId (v.drop off)) post
    (by rw [g3]; congr 2; simp [hncs])
  have : (d.root.withChildrenAt pid ncs).prevSib? d.nextId =
      some (Node.text sc (v.take off)) := by
    have h1 := hsib.1
    simp only [Node.idOf] at h1
    rw [h1, List.getLast?_concat]
  rw [this]
  simp [Node.idOf]

theorem idsWhereL_append (p : Node → Bool) (l1 l2 : List Node) :
    Node.idsWhereL p (l1 ++ l2) = Node.idsWhereL p l1 ++ Node.idsWhereL p l2 := by
  induction l1 with
  | nil => simp [Node.idsWhereL]
  | cons n ns ih => simp [Node.idsWhereL, ih]

theorem markedTextOnlyL_append (l1 l2 : List Node) :
    Node.markedTextOnlyL (l1 ++ l2) =
      (Node.markedTextOnlyL l1 && Node.markedTextOnlyL l2) := by
  induction l1 with
  | nil => simp [Node.markedTextOnlyL]
  | cons n ns ih => simp [Node.markedTextOnlyL, ih, Bool.and_assoc]

theorem idsWhere_sub_idList :
    (∀ n : Node, ∀ p x, x ∈ Node.idsWhere p n → x ∈ n.idList) ∧
    (∀ l : List Node, ∀ p x, x ∈ Node.idsWhereL p l → x ∈ Node.idListL l) := by
  refine nodes_ind ?_ ?_ ?_ ?_
  · intro j v p x h
    simp only [Node.idsWhere] at h
    split at h <;> simp_all [Node.idList]
  · intro e cs ih p x h
    simp only [Node.idsWhere, List.mem_append] at h
    rcases h with h | h
    · split at h <;> simp_all [Node.idList]
    · simp [Node.idList, ih p x h]
  · intro p x h; simp [Node.idsWhereL] at h
  · intro n ns ihn ihl p x h
    simp only [Node.idsWhereL, List.mem_append] at h
    rcases h with h | h
    · simp [Node.idListL, ihn p x h]
    · simp [Node.idListL, ihl p x h]

theorem idsWhere_find :
    (∀ n : Node, n.idList.Nodup → ∀ p x, x ∈ Node.idsWhere p n →
      ∃ m, n.find? x = some m ∧ p m = true) ∧
    (∀ l : List Node, (Node.idListL l).Nodup → ∀ p x, x ∈ Node.idsWhereL p l →
      ∃ m, Node.findL? l x = some m ∧ p m = true) := by
  refine nodes_ind ?_ ?_ ?_ ?_
  · intro j v _ p x h
    simp only [Node.idsWhere] at h
    split at h
    next hp =>
      rcases List.mem_singleton.mp h with rfl
      exact ⟨.text x v, by simp [Node.find?], hp⟩
    next => cases h
  · intro e cs ih hnd p x h
    simp only [Node.idList] at hnd
    have hnd1 := List.nodup_cons.mp hnd
    simp only [Node.idsWhere, List.mem_append] at h
    rcases h with h | h
    · split at h
      next hp =>
        rcases List.mem_singleton.mp h with rfl
        exact ⟨.elem e cs, by simp [Node.find?], hp⟩
      next => cases h
    · obtain ⟨m, hfind, hp⟩ := ih hnd1.2 p x h
      have hxmem : x ∈ Node.idListL cs := idsWhere_sub_idList.2 cs p x h
      have hne : e.id ≠ x := fun hc => hnd1.1 (hc ▸ hxmem)
      exact ⟨m, by simp [Node.find?, hne, hfind], hp⟩
  · intro _ p x h; simp [Node.idsWhereL] at h
  · intro n ns ihn ihl hnd p x h
    simp only [Node.idListL, List.nodup_append] at hnd
    simp only [Node.idsWhereL, List.mem_append] at h
    rcases h with h | h
    · obtain ⟨m, hfind, hp⟩ := ihn hnd.1 p x h
      exact ⟨m, by simp [Node.findL?, hfind], hp⟩
    · obtain ⟨m, hfind, hp⟩ := ihl hnd.2.1 p x h
      have hxns : x ∈ Node.idListL ns := idsWhere_sub_idList.2 ns p x h
      have hxn : x ∉ n.idList := fun hc => hnd.2.2 hc hxns
      have hnone : n.find? x = none := by
        cases hf : n.find? x with
        | none => rfl
        | some m2 => exact absurd ((find?_isSome_iff n x).mp (by simp [hf])) hxn
      exact ⟨m, by simp [Node.findL?, hnone, hfind], hp⟩

theorem find_idsWhere :
    (∀ n : Node, ∀ p x m, n.find? x = some m → p m = true → x ∈ Node.idsWhere p n) ∧
    (∀ l : List Node, ∀ p x m, Node.findL? l x = some m → p m = true →
      x ∈ Node.idsWhereL p l) := by
  refine nodes_ind ?_ ?_ ?_ ?_
  · intro j v p x m h hp
    simp only [Node.find?] at h
    split at h
    next hjx =>
      cases h
      subst hjx
      simp [Node.idsWhere, hp]
    next => cases h
  · intro e cs ih p x m h hp
    simp only [Node.find?] at h
    split at h
    next hex =>
      cases h
      subst hex
      simp [Node.idsWhere, hp]
    next => simp [Node.idsWhere, ih p x m h hp]
  · intro p x m h _; cases h
  · intro n ns ihn ihl p x m h hp
    simp only [Node.findL?] at h
    split at h
    next m2 heq =>
      cases h
      simp [Node.idsWhereL, ihn p x m heq hp]
    next => simp [Node.idsWhereL, ihl p x m h hp]

theorem idsWhere_context (p : Node → Bool) (hp : shapeOnly p) :
    (∀ n : Node, n.idList.Nodup → ∀ q pe cs, n.find? q = some (.elem pe cs) →
      ∃ mpre mpost,
        Node.idsWhere p n =
          mpre ++ ((if p (.elem pe cs) then [pe.id] else []) ++ Node.idsWhereL p cs) ++ mpost ∧
        ∀ ncs, Node.idsWhere p (n.withChildrenAt q ncs) =
          mpre ++ ((if p (.elem pe cs) then [pe.id] else []) ++ Node.idsWhereL p ncs) ++ mpost) ∧
    (∀ l : List Node, (Node.idListL l).Nodup → ∀ q pe cs,
      Node.findL? l q = some (.elem pe cs) →
      ∃ mpre mpost,
        Node.idsWhereL p l =
          mpre ++ ((if p (.elem pe cs) then [pe.id] else []) ++ Node.idsWhereL p cs) ++ mpost ∧
        ∀ ncs, Node.idsWhereL p (Node.withChildrenAtL l q ncs) =
          mpre ++ ((if p (.elem pe cs) then [pe.id] else []) ++ Node.idsWhereL p ncs) ++ mpost) := by
  refine nodes_ind ?_ ?_ ?_ ?_
  · intro j v _ q pe cs h
    simp only [Node.find?] at h
    split at h <;> cases h
  · intro e cs0 ih hnd q pe cs h
    simp only [Node.idList] at hnd
    simp only [Node.find?] at h
    split at h
    next heq =>
      cases h
      refine ⟨[], [], by simp [Node.idsWhere], ?_⟩
      intro ncs
      have hcnd : p (Node.elem e ncs) = p (Node.elem e cs0) := hp.2 e ncs cs0
      simp [Node.withChildrenAt, heq, Node.idsWhere, hcnd]
    next heq =>
      obtain ⟨mpre, mpost, h1, h2⟩ := ih (List.nodup_cons.mp hnd).2 q pe cs h
      refine ⟨(if p (.elem e cs0) then [e.id] else []) ++ mpre, mpost, ?_, ?_⟩
      · simp [Node.idsWhere, h1]
      · intro ncs
        simp only [Node.withChildrenAt, heq, if_false, Node.idsWhere]
        rw [hp.2 e (Node.withChildrenAtL cs0 q ncs) cs0, h2 ncs]
        simp
  · intro _ q pe cs h; cases h
  · intro n ns ihn ihl hnd q pe cs h
    simp only [Node.idListL, List.nodup_append] at hnd
    simp only [Node.findL?] at h
    split at h
    next m heq =>
      cases h
      obtain ⟨mpre, mpost, h1, h2⟩ := ihn hnd.1 q pe cs heq
      have hqn : q ∈ n.idList := (find?_isSome_iff n q).mp (by simp [heq])
      have hqns : q ∉ Node.idListL ns := fun hc => hnd.2.2 hqn hc
      refine ⟨mpre, mpost ++ Node.idsWhereL p ns, by simp [Node.idsWhereL, h1], ?_⟩
      intro ncs
      simp [Node.withChildrenAtL, Node.idsWhereL, h2 ncs,
        withChildrenAt_not_mem.2 ns q ncs hqns]
    next heq =>
      obtain ⟨mpre, mpost, h1, h2⟩ := ihl hnd.2.1 q pe cs h
      have hqns : q ∈ Node.idListL ns := findL?_mem_ids h
      have hqn : q ∉ n.idList := fun hc => hnd.2.2 hc hqns
      refine ⟨Node.idsWhere p n ++ mpre, mpost, by simp [Node.idsWhereL, h1], ?_⟩
      intro ncs
      simp [Node.withChildrenAtL, Node.idsWhereL, h2 ncs,
        withChildrenAt_not_mem.1 n q ncs hqn]

theorem idsWhere_subtree :
    (∀ n : Node, ∀ p x m y, n.find? x = some m → y ∈ Node.idsWhere p m →
      y ∈ Node.idsWhere p n) ∧
    (∀ l : List Node, ∀ p x m y, Node.findL? l x = some m → y ∈ Node.idsWhere p m →
      y ∈ Node.idsWhereL p l) := by
  refine nodes_ind ?_ ?_ ?_ ?_
  · intro j v p x m y h hy
    simp only [Node.find?] at h
    split at h
    · cases h; exact hy
    · cases h
  · intro e cs ih p x m y h hy
    simp only [Node.find?] at h
    split at h
    · cases h; exact hy
    · simp [Node.idsWhere, ih p x m y h hy]
  · intro p x m y h _; cases h
  · intro n ns ihn ihl p x m y h hy
    simp only [Node.findL?] at h
    split at h
    next m2 heq =>
      cases h
      simp [Node.idsWhereL, ihn p x m y heq hy]
    next => simp [Node.idsWhereL, ihl p x m y h hy]

theorem markedTextOnly_subtree :
    (∀ n : Node, n.markedTextOnly = true → ∀ x m, n.find? x = some m →
      m.markedTextOnly = true) ∧
    (∀ l : List Node, Node.markedTextOnlyL l = true → ∀ x m, Node.findL? l x = some m →
      m.markedTextOnly = true) := by
  refine nodes_ind ?_ ?_ ?_ ?_
  · intro j v _ x m h
    simp only [Node.find?] at h
    split at h
    · cases h; simp [Node.markedTextOnly]
    · cases h
  · intro e cs ih hm x m h
    simp only [Node.find?] at h
    split at h
    · cases h; exact hm
    · simp only [Node.markedTextOnly, Bool.and_eq_true] at hm
      exact ih hm.2 x m h
  · intro _ x m h; cases h
  · intro n ns ihn ihl hm x m h
    simp only [Node.markedTextOnlyL, Bool.and_eq_true] at hm
    simp only [Node.findL?] at h
    split at h
    next m2 heq => cases h; exact ihn hm.1 x m heq
    next => exact ihl hm.2 x m h

theorem isElem_withChildrenAt (n : Node) (q : Nat) (ncs : List Node) :
    (n.withChildrenAt q ncs).isElem = n.isElem := by
  cases n with
  | text j v => rfl
  | elem e cs =>
    simp only [Node.withChildrenAt]
    split <;> rfl

theorem all_isElem_withChildrenAtL (l : List Node) (q : Nat) (ncs : List Node) :
    ((Node.withChildrenAtL l q ncs).all fun c => !c.isElem) =
      (l.all fun c => !c.isElem) := by
  induction l with
  | nil => rfl
  | cons n ns ih =>
    simp [Node.withChildrenAtL, List.all_cons, isElem_withChildrenAt, ih]

theorem markedTextOnly_rebuild :
    (∀ n : Node, n.idList.Nodup → n.markedTextOnly = true →
      ∀ q pe cs, n.find? q = some (.elem pe cs) →
      ∀ ncs, Node.markedTextOnlyL ncs = true →
        (pe.marked = false ∨ (ncs.all fun c => !c.isElem) = true) →
        (n.withChildrenAt q ncs).markedTextOnly = true) ∧
    (∀ l : List Node, (Node.idListL l).Nodup → Node.markedTextOnlyL l = true →
      ∀ q pe cs, Node.findL? l q = some (.elem pe cs) →
      ∀ ncs, Node.markedTextOnlyL ncs = true →
        (pe.marked = false ∨ (ncs.all fun c => !c.isElem) = true) →
        Node.markedTextOnlyL (Node.withChildrenAtL l q ncs) = true) := by
  refine nodes_ind ?_ ?_ ?_ ?_
  · intro j v _ _ q pe cs h
    simp only [Node.find?] at h
    split at h <;> cases h
  · intro e cs0 ih hnd hm q pe cs h ncs hncs hcond
    simp only [Node.find?] at h
    simp only [Node.markedTextOnly, Bool.and_eq_true] at hm
    split at h
    next heq =>
      cases h
      rcases hcond with hc | hc
      · simp [Node.withChildrenAt, heq, Node.markedTextOnly, hc, hncs]
      · simp [Node.withChildrenAt, heq, Node.markedTextOnly, hc, hncs]
    next heq =>
      simp only [Node.withChildrenAt, heq, if_false, Node.markedTextOnly,
        Bool.and_eq_true]
      refine ⟨?_, ih (List.nodup_cons.mp (by simpa [Node.idList] using hnd)).2 hm.2
        q pe cs h ncs hncs hcond⟩
      rw [all_isElem_withChildrenAtL]
      exact hm.1
  · intro _ _ q pe cs h; cases h
  · intro n ns ihn ihl hnd hm q pe cs h ncs hncs hcond
    simp only [Node.idListL, List.nodup_append] at hnd
    simp only [Node.markedTextOnlyL, Bool.and_eq_true] at hm
    simp only [Node.findL?] at h
    split at h
    next m heq =>
      cases h
      have hqn : q ∈ n.idList := (find?_isSome_iff n q).mp (by simp [heq])
      have hqns : q ∉ Node.idListL ns := fun hc => hnd.2.2 hqn hc
      simp only [Node.withChildrenAtL, Node.markedTextOnlyL, Bool.and_eq_true,
        withChildrenAt_not_mem.2 ns q ncs hqns]
      exact ⟨ihn hnd.1 hm.1 q pe cs heq ncs hncs hcond, hm.2⟩
    next heq =>
      have hqns : q ∈ Node.idListL ns := findL?_mem_ids h
      have hqn : q ∉ n.idList := fun hc => hnd.2.2 hc hqns
      simp only [Node.withChildrenAtL, Node.markedTextOnlyL, Bool.and_eq_true,
        withChildrenAt_not_mem.1 n q ncs hqn]
      exact ⟨hm.1, ihl hnd.2.1 hm.2 q pe cs h ncs hncs hcond⟩

theorem merge2texts (root : Node) (hnd : root.idList.Nodup)
    (hm : root.markedTextOnly = true)
    (P : Nat) (Pe : EInfo) (A B : List Node) (a b : Nat) (av bv : List Char)
    (hPf : root.find? P = some (.elem Pe (A ++ .text a av :: .text b bv :: B)))
    (k : Nat) (hk : k = a ∨ k = b) :
    (root.withChildrenAt P (A ++ .text k (av ++ bv) :: B)).textContent
        = root.textContent ∧
    (root.withChildrenAt P (A ++ .text k (av ++ bv) :: B)).idList.Nodup ∧
    (root.withChildrenAt P (A ++ .text k (av ++ bv) :: B)).markedTextOnly = true ∧
    (∀ p, shapeOnly p → ∀ h,
      h ∈ Node.idsWhere p (root.withChildrenAt P (A ++ .text k (av ++ bv) :: B)) →
      h ∈ Node.idsWhere p root) ∧
    (root.withChildrenAt P (A ++ .text k (av ++ bv) :: B)).find? k
        = some (.text k (av ++ bv)) := by
  obtain ⟨tpre, tpost, ipre, ipost, ht, hi, hall⟩ :=
    withChildrenAt_context root hnd P Pe _ hPf
  obtain ⟨g1, g2, g3⟩ := hall (A ++ .text k (av ++ bv) :: B)
  have hsubids : List.Sublist (Node.idListL (A ++ Node.text k (av ++ bv) :: B))
      (Node.idListL (A ++ Node.text a av :: Node.text b bv :: B)) := by
    simp only [idListL_append, Node.idListL, Node.idList, List.append_assoc,
      List.append_nil]
    refine List.Sublist.append_left ?_ _
    rcases hk with rfl | rfl
    · exact List.Sublist.cons₂ _ (List.sublist_cons_self _ _)
    · exact List.sublist_cons_self _ _
  have hndnew : (root.withChildrenAt P (A ++ .text k (av ++ bv) :: B)).idList.Nodup := by
    rw [g2]
    refine List.Sublist.nodup ?_ (hi ▸ hnd)
    exact List.Sublist.append_left ((hsubids.append_right ipost).cons₂ Pe.id) ipre
  have hmsub : (Node.elem Pe (A ++ Node.text a av :: Node.text b bv :: B)).markedTextOnly
      = true := markedTextOnly_subtree.1 root hm P _ hPf
  simp only [Node.markedTextOnly, Bool.and_eq_true, Bool.or_eq_true, Bool.not_eq_true'] at hmsub
  have hmL := hmsub.2
  rw [markedTextOnlyL_append] at hmL
  simp only [Node.markedTextOnlyL, Bool.and_eq_true] at hmL
  have hncsmtol : Node.markedTextOnlyL (A ++ Node.text k (av ++ bv) :: B) = true := by
    rw [markedTextOnlyL_append]
    simp only [Node.markedTextOnlyL, Bool.and_eq_true]
    exact ⟨hmL.1, by simp [Node.markedTextOnly], hmL.2.2.2⟩
  have hcond : Pe.marked = false ∨
      ((A ++ Node.text k (av ++ bv) :: B).all fun c => !c.isElem) = true := by
    rcases hmsub.1 with hc | hc
    · exact Or.inl hc
    · right
      rw [List.all_append] at hc ⊢
      simp only [List.all_cons, Bool.and_eq_true] at hc ⊢
      exact ⟨hc.1, by simp [Node.isElem], hc.2.2.2⟩
  refine ⟨?_, hndnew, ?_, ?_, ?_⟩
  · rw [g1, ht]
    simp [textContentL_append, Node.textContentL, Node.textContent]
  · exact markedTextOnly_rebuild.1 root hnd hm P Pe _ hPf _ hncsmtol hcond
  · intro p hp h hmem
    obtain ⟨mpre, mpost, w1, w2⟩ := (idsWhere_context p hp).1 root hnd P Pe _ hPf
    rw [w2] at hmem
    rw [w1]
    have hmid : ∀ x, x ∈ Node.idsWhereL p (A ++ Node.text k (av ++ bv) :: B) →
        x ∈ Node.idsWhereL p (A ++ Node.text a av :: Node.text b bv :: B) := by
      intro x hx
      rw [idsWhereL_append] at hx ⊢
      simp only [Node.idsWhereL, Node.idsWhere, List.mem_append, or_assoc] at hx ⊢
      rcases hx with hx | hx | hx
      · exact Or.inl hx
      · rcases hk with rfl | rfl
        · rw [hp.1 k (av ++ bv) av] at hx
          exact Or.inr (Or.inl hx)
        · rw [hp.1 k (av ++ bv) bv] at hx
          exact Or.inr (Or.inr (Or.inl hx))
      · exact Or.inr (Or.inr (Or.inr hx))
    simp only [List.mem_append, or_assoc] at hmem ⊢
    rcases hmem with hmem | hmem | hmem | hmem
    · exact Or.inl hmem
    · exact Or.inr (Or.inl hmem)
    · exact Or.inr (Or.inr (Or.inl (hmid h hmem)))
    · exact Or.inr (Or.inr (Or.inr hmem))
  · have := child_lift (root.withChildrenAt P (A ++ .text k (av ++ bv) :: B)) hndnew
      P Pe _ g3 (.text k (av ++ bv)) (by simp)
    simpa [Node.idOf] using this.1

theorem joinPrev_absorb (root : Node) (hnd : root.idList.Nodup)
    (hm : root.markedTextOnly = true) (tid : Nat) (cv : List Char)
    (hf : root.find? tid = some (.text tid cv))
    (pj : Nat) (pv : List Char)
    (hprev : root.prevSib? tid = some (.text pj pv)) :
    ((root.setTextValue tid (pv ++ cv)).removeId pj).textContent = root.textContent ∧
    ((root.setTextValue tid (pv ++ cv)).removeId pj).idList.Nodup ∧
    ((root.setTextValue tid (pv ++ cv)).removeId pj).markedTextOnly = true ∧
    (∀ p, shapeOnly p → ∀ h,
      h ∈ Node.idsWhere p ((root.setTextValue tid (pv ++ cv)).removeId pj) →
      h ∈ Node.idsWhere p root) ∧
    ((root.setTextValue tid (pv ++ cv)).removeId pj).find? tid
        = some (.text tid (pv ++ cv)) := by
  have hne : tid ≠ root.idOf := by
    intro he
    rw [he, find?_self] at hf
    have hroot := Option.some.inj hf
    rw [hroot] at hprev
    simp [Node.prevSib?, Node.parent?] at hprev
  obtain ⟨P, Pe, cs, pre, post, hPf, hdec⟩ := parent_decomp.1 root hnd tid _ hf hne
  subst hdec
  have hsibs := sibs_of_decomp root hnd P Pe pre (.text tid cv) post hPf
  have hlast : pre.getLast? = some (.text pj pv) := by
    have h1 := hsibs.1
    simp only [Node.idOf] at h1
    rw [← h1, hprev]
  obtain ⟨pre0, hpre0⟩ := List.getLast?_eq_some_iff.mp hlast
  subst hpre0
  have hPf2 : root.find? P
      = some (.elem Pe (pre0 ++ .text pj pv :: .text tid cv :: post)) := by
    simpa using hPf
  obtain ⟨tpre, tpost, ipre, ipost, ht, hi, hall⟩ :=
    withChildrenAt_context root hnd P Pe _ hPf2
  have hndcs : (Node.idListL (pre0 ++ Node.text pj pv :: Node.text tid cv :: post)).Nodup := by
    have h1 := hi ▸ hnd
    exact ((h1.of_append_right).of_cons).of_append_left
  have hstep1 : root.setTextValue tid (pv ++ cv) =
      root.withChildrenAt P (pre0 ++ .text pj pv :: .text tid (pv ++ cv) :: post) := by
    simp only [Node.setTextValue, hf]
    have hloc := replaceId_localize.1 root hnd P Pe _ hPf2 (.text tid cv) (by simp)
      [.text tid (pv ++ cv)]
    simp only [Node.idOf] at hloc
    rw [hloc]
    have hsp := replaceIdL_splice (pre0 ++ [Node.text pj pv]) (.text tid cv) post
      [.text tid (pv ++ cv)] (by simpa using hndcs)
    simp only [Node.idOf] at hsp
    have hsp2 : Node.replaceIdL (pre0 ++ Node.text pj pv :: Node.text tid cv :: post) tid
        [Node.text tid (pv ++ cv)]
        = pre0 ++ Node.text pj pv :: Node.text tid (pv ++ cv) :: post := by
      simpa using hsp
    rw [hsp2]
  obtain ⟨g1, g2, g3⟩ := hall (pre0 ++ .text pj pv :: .text tid (pv ++ cv) :: post)
  have hndT1 : (root.withChildrenAt P
      (pre0 ++ .text pj pv :: .text tid (pv ++ cv) :: post)).idList.Nodup := by
    rw [g2]
    have : Node.idListL (pre0 ++ Node.text pj pv :: Node.text tid (pv ++ cv) :: post)
        = Node.idListL (pre0 ++ Node.text pj pv :: Node.text tid cv :: post) := by
      simp [idListL_append, Node.idListL, Node.idList]
    rw [this, ← hi]
    exact hnd
  have hstep2 : (root.withChildrenAt P
        (pre0 ++ .text pj pv :: .text tid (pv ++ cv) :: post)).removeId pj =
      root.withChildrenAt P (pre0 ++ .text tid (pv ++ cv) :: post) := by
    unfold Node.removeId
    have hloc := replaceId_localize.1 _ hndT1 P Pe _ g3 (.text pj pv) (by simp) []
    simp only [Node.idOf] at hloc
    rw [hloc]
    have hndn : (Node.idListL
        (pre0 ++ Node.text pj pv :: Node.text tid (pv ++ cv) :: post)).Nodup := by
      have h1 := g2 ▸ hndT1
      exact ((h1.of_append_right).of_cons).of_append_left
    have hsp := replaceIdL_splice pre0 (.text pj pv)
      (Node.text tid (pv ++ cv) :: post) [] hndn
    simp only [Node.idOf] at hsp
    rw [hsp, withChildrenAt_twice.1]
    simp
  rw [hstep1, hstep2]
  have hM := merge2texts root hnd hm P Pe pre0 post pj tid pv cv hPf2 tid (Or.inr rfl)
  exact hM

theorem joinNext_absorb (root : Node) (hnd : root.idList.Nodup)
    (hm : root.markedTextOnly = true) (tid : Nat) (cv : List Char)
    (hf : root.find? tid = some (.text tid cv))
    (nj : Nat) (nv : List Char)
    (hnext : root.nextSib? tid = some (.text nj nv)) :
    ((root.setTextValue tid (cv ++ nv)).removeId nj).textContent = root.textContent ∧
    ((root.setTextValue tid (cv ++ nv)).removeId nj).idList.Nodup ∧
    ((root.setTextValue tid (cv ++ nv)).removeId nj).markedTextOnly = true ∧
    (∀ p, shapeOnly p → ∀ h,
      h ∈ Node.idsWhere p ((root.setTextValue tid (cv ++ nv)).removeId nj) →
      h ∈ Node.idsWhere p root) ∧
    ((root.setTextValue tid (cv ++ nv)).removeId nj).find? tid
        = some (.text tid (cv ++ nv)) := by
  have hne : tid ≠ root.idOf := by
    intro he
    rw [he, find?_self] at hf
    have hroot := Option.some.inj hf
    rw [hroot] at hnext
    simp [Node.nextSib?, Node.parent?] at hnext
  obtain ⟨P, Pe, cs, pre, post, hPf, hdec⟩ := parent_decomp.1 root hnd tid _ hf hne
  subst hdec
  have hsibs := sibs_of_decomp root hnd P Pe pre (.text tid cv) post hPf
  have hhead : post.head? = some (.text nj nv) := by
    have h1 := hsibs.2
    simp only [Node.idOf] at h1
    rw [← h1, hnext]
  obtain ⟨post1, hpost1⟩ : ∃ post1, post = .text nj nv :: post1 := by
    cases post with
    | nil => simp at hhead
    | cons x xs => simp only [List.head?_cons, Option.some.injEq] at hhead; exact ⟨xs, by rw [hhead]⟩
  subst hpost1
  obtain ⟨tpre, tpost, ipre, ipost, ht, hi, hall⟩ :=
    withChildrenAt_context root hnd P Pe _ hPf
  have hndcs : (Node.idListL (pre ++ Node.text tid cv :: Node.text nj nv :: post1)).Nodup := by
    have h1 := hi ▸ hnd
    exact ((h1.of_append_right).of_cons).of_append_left
  have hstep1 : root.setTextValue tid (cv ++ nv) =
      root.withChildrenAt P (pre ++ .text tid (cv ++ nv) :: .text nj nv :: post1) := by
    simp only [Node.setTextValue, hf]
    have hloc := replaceId_localize.1 root hnd P Pe _ hPf (.text tid cv) (by simp)
      [.text tid (cv ++ nv)]
    simp only [Node.idOf] at hloc
    rw [hloc]
    have hsp := replaceIdL_splice pre (.text tid cv) (Node.text nj nv :: post1)
      [.text tid (cv ++ nv)] hndcs
    simp only [Node.idOf] at hsp
    rw [hsp]
    simp
  obtain ⟨g1, g2, g3⟩ := hall (pre ++ .text tid (cv ++ nv) :: .text nj nv :: post1)
  have hndT1 : (root.withChildrenAt P
      (pre ++ .text tid (cv ++ nv) :: .text nj nv :: post1)).idList.Nodup := by
    rw [g2]
    have : Node.idListL (pre ++ Node.text tid (cv ++ nv) :: Node.text nj nv :: post1)
        = Node.idListL (pre ++ Node.text tid cv :: Node.text nj nv :: post1) := by
      simp [idListL_append, Node.idListL, Node.idList]
    rw [this, ← hi]
    exact hnd
  have hstep2 : (root.withChildrenAt P
        (pre ++ .text tid (cv ++ nv) :: .text nj nv :: post1)).removeId nj =
      root.withChildrenAt P (pre ++ .text tid (cv ++ nv) :: post1) := by
    unfold Node.removeId
    have hloc := replaceId_localize.1 _ hndT1 P Pe _ g3 (.text nj nv) (by simp) []
    simp only [Node.idOf] at hloc
    rw [hloc]
    have hndn : (Node.idListL
        (pre ++ Node.text tid (cv ++ nv) :: Node.text nj nv :: post1)).Nodup := by
      have h1 := g2 ▸ hndT1
      exact ((h1.of_append_right).of_cons).of_append_left
    have hsp := replaceIdL_splice (pre ++ [Node.text tid (cv ++ nv)]) (.text nj nv)
      post1 [] (by simpa using hndn)
    simp only [Node.idOf] at hsp
    have hsp2 : Node.replaceIdL (pre ++ Node.text tid (cv ++ nv) :: Node.text nj nv :: post1)
        nj [] = pre ++ Node.text tid (cv ++ nv) :: post1 := by
      simpa using hsp
    rw [hsp2, withChildrenAt_twice.1]
  rw [hstep1, hstep2]
  exact merge2texts root hnd hm P Pe pre post1 tid nj cv nv hPf tid (Or.inl rfl)

theorem joinTextStep_inv (root : Node) (hnd : root.idList.Nodup)
    (hm : root.markedTextOnly = true) (tid : Nat)
    (htid : root.find? tid = none ∨ ∃ v, root.find? tid = some (.text tid v)) :
    (joinTextStep root tid).textContent = root.textContent ∧
    (joinTextStep root tid).idList.Nodup ∧
    (joinTextStep root tid).markedTextOnly = true ∧
    (∀ p, shapeOnly p → ∀ h,
      h ∈ Node.idsWhere p (joinTextStep root tid) → h ∈ Node.idsWhere p root) := by
  rcases htid with hfn | ⟨cv, hf⟩
  · have hpar : root.parent? tid = none := by
      cases hp : root.parent? tid with
      | none => rfl
      | some m =>
        have h1 := parent?_mem root tid m hp
        have h2 := (find?_isSome_iff root tid).mpr h1
        rw [hfn] at h2
        simp at h2
    have hjj : joinTextStep root tid = root := by
      unfold joinTextStep
      simp [Node.prevSib?, Node.nextSib?, hpar]
    rw [hjj]
    exact ⟨rfl, hnd, hm, fun p hp h hh => hh⟩
  · cases hprev : root.prevSib? tid with
    | none =>
      cases hnext : root.nextSib? tid with
      | none =>
        have hjj : joinTextStep root tid = root := by
          simp only [joinTextStep, hprev, hnext]
        rw [hjj]
        exact ⟨rfl, hnd, hm, fun p hp h hh => hh⟩
      | some m =>
        cases m with
        | text nj nv =>
          have hjj : joinTextStep root tid =
              (root.setTextValue tid (cv ++ nv)).removeId nj := by
            simp only [joinTextStep, hprev, hnext, hf]
          rw [hjj]
          obtain ⟨a, b, c, d, _⟩ := joinNext_absorb root hnd hm tid cv hf nj nv hnext
          exact ⟨a, b, c, d⟩
        | elem ne ncs =>
          have hjj : joinTextStep root tid = root := by
            simp only [joinTextStep, hprev, hnext]
          rw [hjj]
          exact ⟨rfl, hnd, hm, fun p hp h hh => hh⟩
    | some m =>
      cases m with
      | elem pe pcs =>
        cases hnext : root.nextSib? tid with
        | none =>
          have hjj : joinTextStep root tid = root := by
            simp only [joinTextStep, hprev, hnext]
          rw [hjj]
          exact ⟨rfl, hnd, hm, fun p hp h hh => hh⟩
        | some m2 =>
          cases m2 with
          | text nj nv =>
            have hjj : joinTextStep root tid =
                (root.setTextValue tid (cv ++ nv)).removeId nj := by
              simp only [joinTextStep, hprev, hnext, hf]
            rw [hjj]
            obtain ⟨a, b, c, d, _⟩ := joinNext_absorb root hnd hm tid cv hf nj nv hnext
            exact ⟨a, b, c, d⟩
          | elem ne ncs =>
            have hjj : joinTextStep root tid = root := by
              simp only [joinTextStep, hprev, hnext]
            rw [hjj]
            exact ⟨rfl, hnd, hm, fun p hp h hh => hh⟩
      | text pj pv =>
        obtain ⟨a1, b1, c1, d1, e1⟩ := joinPrev_absorb root hnd hm tid cv hf pj pv hprev
        cases hnext : ((root.setTextValue tid (pv ++ cv)).removeId pj).nextSib? tid with
        | none =>
          have hjj : joinTextStep root tid =
              (root.setTextValue tid (pv ++ cv)).removeId pj := by
            simp only [joinTextStep, hprev, hf, hnext]
          rw [hjj]
          exact ⟨a1, b1, c1, d1⟩
        | some m2 =>
          cases m2 with
          | text nj nv =>
            have hjj : joinTextStep root tid =
                (((root.setTextValue tid (pv ++ cv)).removeId pj).setTextValue tid
                  ((pv ++ cv) ++ nv)).removeId nj := by
              simp only [joinTextStep, hprev, hf, hnext, e1]
            rw [hjj]
            obtain ⟨a2, b2, c2, d2, _⟩ :=
              joinNext_absorb _ b1 c1 tid (pv ++ cv) e1 nj nv hnext
            exact ⟨a2.trans a1, b2, c2,
              fun p hp h hh => d1 p hp h (d2 p hp h hh)⟩
          | elem ne ncs =>
            have hjj : joinTextStep root tid =
                (root.setTextValue tid (pv ++ cv)).removeId pj := by
              simp only [joinTextStep, hprev, hf, hnext]
            rw [hjj]
            exact ⟨a1, b1, c1, d1⟩

theorem shapeOnly_isElem : shapeOnly Node.isElem :=
  ⟨fun _ _ _ => rfl, fun _ _ _ => rfl⟩

theorem shapeOnly_notHighlight : shapeOnly (fun n => !(isHighlight n)) :=
  ⟨fun _ _ _ => rfl, fun _ _ _ => rfl⟩

theorem foldJoins_inv : ∀ (l : List Node) (r : Node), r.idList.Nodup →
    r.markedTextOnly = true →
    (∀ c ∈ l, r.find? c.idOf = none ∨ ∃ v, r.find? c.idOf = some (.text c.idOf v)) →
    ((l.foldl (fun rr n => joinTextStep rr n.idOf) r).textContent = r.textContent ∧
     (l.foldl (fun rr n => joinTextStep rr n.idOf) r).idList.Nodup ∧
     (l.foldl (fun rr n => joinTextStep rr n.idOf) r).markedTextOnly = true ∧
     (∀ p, shapeOnly p → ∀ h,
       h ∈ Node.idsWhere p (l.foldl (fun rr n => joinTextStep rr n.idOf) r) →
       h ∈ Node.idsWhere p r)) := by
  intro l
  induction l with
  | nil => intro r hnd hm _; exact ⟨rfl, hnd, hm, fun p hp h hh => hh⟩
  | cons c cl ih =>
    intro r hnd hm hc
    obtain ⟨a1, b1, c1, d1⟩ := joinTextStep_inv r hnd hm c.idOf (hc c (by simp))
    have hnextc : ∀ c2 ∈ cl, (joinTextStep r c.idOf).find? c2.idOf = none ∨
        ∃ v, (joinTextStep r c.idOf).find? c2.idOf = some (.text c2.idOf v) := by
      intro c2 hc2
      cases hf2 : (joinTextStep r c.idOf).find? c2.idOf with
      | none => exact Or.inl rfl
      | some m =>
        cases m with
        | text j v =>
          have hj := find?_idOf _ c2.idOf _ hf2
          simp only [Node.idOf] at hj
          subst hj
          exact Or.inr ⟨v, rfl⟩
        | elem e2 cs2 =>
          have hmem : c2.idOf ∈ Node.idsWhere Node.isElem (joinTextStep r c.idOf) :=
            find_idsWhere.1 _ Node.isElem c2.idOf _ hf2 rfl
          have hold := d1 Node.isElem shapeOnly_isElem c2.idOf hmem
          obtain ⟨m', hfm', hpm'⟩ := idsWhere_find.1 r hnd Node.isElem c2.idOf hold
          rcases hc c2 (by simp [hc2]) with hn | ⟨v, hv⟩
          · rw [hn] at hfm'; cases hfm'
          · rw [hv] at hfm'
            cases hfm'
            simp [Node.isElem] at hpm'
    obtain ⟨a2, b2, c2, d2⟩ := ih (joinTextStep r c.idOf) b1 c1 hnextc
    refine ⟨?_, b2, c2, ?_⟩
    · simpa using a2.trans a1
    · intro p hp h hh
      exact d1 p hp h (d2 p hp h (by simpa using hh))

theorem removeOne_inv (root : Node) (hnd : root.idList.Nodup)
    (hm : root.markedTextOnly = true) (hid : Nat)
    (hhid : root.find? hid = none ∨
      ∃ e cs, root.find? hid = some (.elem e cs) ∧ e.marked = true) :
    (removeOne root hid).textContent = root.textContent ∧
    (removeOne root hid).idList.Nodup ∧
    (removeOne root hid).markedTextOnly = true ∧
    (∀ p, shapeOnly p → ∀ h,
      h ∈ Node.idsWhere p (removeOne root hid) → h ∈ Node.idsWhere p root) := by
  rcases hhid with hfn | ⟨he, tcs, hfh, hmk⟩
  · have hjj : removeOne root hid = root := by
      simp only [removeOne, Node.unwrapId, hfn]
      rfl
    rw [hjj]
    exact ⟨rfl, hnd, hm, fun p hp h hh => hh⟩
  · have hheid : he.id = hid := by
      have := find?_idOf root hid _ hfh
      simpa [Node.idOf] using this
    have hsub := markedTextOnly_subtree.1 root hm hid _ hfh
    simp only [Node.markedTextOnly, Bool.and_eq_true, Bool.or_eq_true,
      Bool.not_eq_true'] at hsub
    have htext : (tcs.all fun c => !c.isElem) = true := by
      rcases hsub.1 with hc | hc
      · rw [hmk] at hc; cases hc
      · exact hc
    have hmtcs : Node.markedTextOnlyL tcs = true := hsub.2
    have htextmem : ∀ c ∈ tcs, ∃ j v, c = Node.text j v := by
      intro c hc
      have := List.all_eq_true.mp htext c hc
      cases c with
      | text j v => exact ⟨j, v, rfl⟩
      | elem e2 cs2 => simp [Node.isElem] at this
    by_cases hroot : hid = root.idOf
    · have heq : root = .elem he tcs := by
        have h1 := find?_self root
        rw [← hroot, hfh] at h1
        exact (Option.some.inj h1).symm
      have hnotin : hid ∉ Node.idListL tcs := by
        intro hc
        rw [heq] at hnd
        simp only [Node.idList] at hnd
        exact (List.nodup_cons.mp hnd).1 (hheid ▸ hc)
      have hjj : removeOne root hid =
          tcs.foldl (fun rr n => joinTextStep rr n.idOf) root := by
        simp only [removeOne, Node.unwrapId, hfh]
        rw [heq]
        simp only [Node.replaceId, replaceId_not_mem.2 tcs hid _ hnotin]
      rw [hjj]
      have hinit : ∀ c ∈ tcs, root.find? c.idOf = none ∨
          ∃ v, root.find? c.idOf = some (.text c.idOf v) := by
        intro c hc
        obtain ⟨j, v, rfl⟩ := htextmem c hc
        right
        refine ⟨v, ?_⟩
        have hndtcs : (Node.idListL tcs).Nodup := by
          rw [heq] at hnd
          simp only [Node.idList] at hnd
          exact (List.nodup_cons.mp hnd).2
        have hstep := findL?_mem tcs _ hndtcs hc
        have hne : he.id ≠ (Node.text j v).idOf := by
          rw [hheid]
          intro hc2
          exact hnotin (hc2 ▸ mem_idListL_of_mem hc)
        rw [heq]
        simp only [Node.find?, Node.idOf] at hne ⊢
        rw [if_neg hne]
        exact hstep
      exact foldJoins_inv tcs root hnd hm hinit
    · obtain ⟨P, Pe, cs, pre, post, hPf, hdec⟩ :=
        parent_decomp.1 root hnd hid _ hfh (by exact hroot)
      subst hdec
      obtain ⟨tpre, tpost, ipre, ipost, ht, hi, hall⟩ :=
        withChildrenAt_context root hnd P Pe _ hPf
      have hndcs : (Node.idListL (pre ++ Node.elem he tcs :: post)).Nodup := by
        have h1 := hi ▸ hnd
        exact ((h1.of_append_right).of_cons).of_append_left
      have hT1 : root.replaceId hid tcs =
          root.withChildrenAt P (pre ++ tcs ++ post) := by
        have hloc := replaceId_localize.1 root hnd P Pe _ hPf (.elem he tcs) (by simp) tcs
        simp only [Node.idOf, hheid] at hloc
        rw [hloc]
        have hsp := replaceIdL_splice pre (.elem he tcs) post tcs hndcs
        simp only [Node.idOf, hheid] at hsp
        rw [hsp]
      obtain ⟨g1, g2, g3⟩ := hall (pre ++ tcs ++ post)
      have hndT1 : (root.withChildrenAt P (pre ++ tcs ++ post)).idList.Nodup := by
        rw [g2]
        refine List.Sublist.nodup ?_ (hi ▸ hnd)
        refine List.Sublist.append_left ((List.Sublist.cons₂ _ ?_).append_right ipost) ipre
        simp only [idListL_append, Node.idListL, Node.idList, List.append_assoc,
          List.append_nil]
        exact List.Sublist.append_left (List.sublist_cons_self _ _) _
      have hPmk : Pe.marked = false := by
        have hsubP := markedTextOnly_subtree.1 root hm P _ hPf
        simp only [Node.markedTextOnly, Bool.and_eq_true, Bool.or_eq_true,
          Bool.not_eq_true'] at hsubP
        rcases hsubP.1 with hc | hc
        · exact hc
        · rw [List.all_append] at hc
          simp only [List.all_cons, Bool.and_eq_true] at hc
          have := hc.2.1
          simp [Node.isElem] at this
      have hmT1 : (root.withChildrenAt P (pre ++ tcs ++ post)).markedTextOnly = true := by
        refine markedTextOnly_rebuild.1 root hnd hm P Pe _ hPf _ ?_ (Or.inl hPmk)
        have hmcs : Node.markedTextOnlyL (pre ++ Node.elem he tcs :: post) = true := by
          have hsubP := markedTextOnly_subtree.1 root hm P _ hPf
          simp only [Node.markedTextOnly, Bool.and_eq_true] at hsubP
          exact hsubP.2
        simp only [markedTextOnlyL_append, Node.markedTextOnlyL, Bool.and_eq_true,
          and_assoc] at hmcs ⊢
        exact ⟨hmcs.1, hmtcs, hmcs.2.2⟩
      have hsubT1 : ∀ p, shapeOnly p → ∀ h,
          h ∈ Node.idsWhere p (root.withChildrenAt P (pre ++ tcs ++ post)) →
          h ∈ Node.idsWhere p root := by
        intro p hp h hmem
        obtain ⟨mpre, mpost, w1, w2⟩ := (idsWhere_context p hp).1 root hnd P Pe _ hPf
        rw [w2] at hmem
        rw [w1]
        simp only [List.mem_append, or_assoc] at hmem ⊢
        rcases hmem with hmem | hmem | hmem | hmem
        · exact Or.inl hmem
        · exact Or.inr (Or.inl hmem)
        · refine Or.inr (Or.inr (Or.inl ?_))
          simp only [idsWhereL_append, Node.idsWhereL, Node.idsWhere, List.mem_append,
            or_assoc, List.append_assoc] at hmem ⊢
          rcases hmem with hmem | hmem | hmem
          · exact Or.inl hmem
          · exact Or.inr (Or.inr (Or.inl hmem))
          · exact Or.inr (Or.inr (Or.inr hmem))
        · exact Or.inr (Or.inr (Or.inr hmem))
      have htcsT1 : ∀ c ∈ tcs, (root.withChildrenAt P (pre ++ tcs ++ post)).find? c.idOf
          = none ∨ ∃ v, (root.withChildrenAt P (pre ++ tcs ++ post)).find? c.idOf
          = some (.text c.idOf v) := by
        intro c hc
        obtain ⟨j, v, rfl⟩ := htextmem c hc
        right
        refine ⟨v, ?_⟩
        have := child_lift (root.withChildrenAt P (pre ++ tcs ++ post)) hndT1 P Pe _ g3
          (.text j v) (by simp [hc])
        simpa [Node.idOf] using this.1
      have hjj : removeOne root hid =
          tcs.foldl (fun rr n => joinTextStep rr n.idOf)
            (root.withChildrenAt P (pre ++ tcs ++ post)) := by
        simp only [removeOne, Node.unwrapId, hfh]
        rw [hT1]
      rw [hjj]
      obtain ⟨a2, b2, c2, d2⟩ := foldJoins_inv tcs _ hndT1 hmT1 htcsT1
      refine ⟨?_, b2, c2, ?_⟩
      · rw [a2, g1, ht]
        simp [textContentL_append, Node.textContentL, Node.textContent]
      · intro p hp h hh
        exact hsubT1 p hp h (d2 p hp h hh)

theorem foldRemove_inv : ∀ (hls : List Nat) (r : Node), r.idList.Nodup →
    r.markedTextOnly = true →
    (∀ h ∈ hls, r.find? h = none ∨
      ∃ e cs, r.find? h = some (.elem e cs) ∧ e.marked = true) →
    ((hls.foldl removeOne r).textContent = r.textContent ∧
     (hls.foldl removeOne r).idList.Nodup ∧
     (hls.foldl removeOne r).markedTextOnly = true ∧
     (∀ p, shapeOnly p → ∀ h,
       h ∈ Node.idsWhere p (hls.foldl removeOne r) → h ∈ Node.idsWhere p r)) := by
  intro hls
  induction hls with
  | nil => intro r hnd hm _; exact ⟨rfl, hnd, hm, fun p hp h hh => hh⟩
  | cons hid rest ih =>
    intro r hnd hm hh
    obtain ⟨a1, b1, c1, d1⟩ := removeOne_inv r hnd hm hid (hh hid (by simp))
    have hrest : ∀ h ∈ rest, (removeOne r hid).find? h = none ∨
        ∃ e cs, (removeOne r hid).find? h = some (.elem e cs) ∧ e.marked = true := by
      intro h hmem
      cases hf2 : (removeOne r hid).find? h with
      | none => exact Or.inl rfl
      | some m =>
        have hcontra : (!(isHighlight m)) = true → False := by
          intro hpm
          have h1 : h ∈ Node.idsWhere (fun n => !(isHighlight n)) (removeOne r hid) :=
            find_idsWhere.1 _ _ h _ hf2 hpm
          have h2 := d1 _ shapeOnly_notHighlight h h1
          obtain ⟨m', hfm', hpm'⟩ := idsWhere_find.1 r hnd _ h h2
          rcases hh h (by simp [hmem]) with hn | ⟨e, cs, he, hmk⟩
          · rw [hn] at hfm'; cases hfm'
          · rw [he] at hfm'
            cases hfm'
            simp [isHighlight, hmk] at hpm'
        cases m with
        | text j v =>
          exact absurd (by simp [isHighlight]) (fun h2 => hcontra h2)
        | elem e2 cs2 =>
          cases hmk2 : e2.marked with
          | false =>
            exact absurd (by simp [isHighlight, hmk2]) (fun h2 => hcontra h2)
          | true => exact Or.inr ⟨e2, cs2, rfl, hmk2⟩
    obtain ⟨a2, b2, c2, d2⟩ := ih (removeOne r hid) b1 c1 hrest
    refine ⟨?_, b2, c2, ?_⟩
    · exact a2.trans a1
    · intro p hp h hm2
      exact d1 p hp h (d2 p hp h hm2)

theorem descMarkers_sub :
    (∀ n : Node, ∀ x, x ∈ n.descMarkers → x ∈ Node.idsWhere isHighlight n) ∧
    (∀ l : List Node, ∀ x, x ∈ Node.descMarkersL l → x ∈ Node.idsWhereL isHighlight l) := by
  refine nodes_ind ?_ ?_ ?_ ?_
  · intro j v x h; simp [Node.descMarkers] at h
  · intro e cs ih x h
    simp only [Node.descMarkers] at h
    simp [Node.idsWhere, ih x h]
  · intro x h; simp [Node.descMarkersL] at h
  · intro n ns ihn ihl x h
    simp only [Node.idsWhereL, List.mem_append]
    cases n with
    | text j v =>
      simp only [Node.descMarkersL, List.nil_append] at h
      exact Or.inr (ihl x h)
    | elem e cs =>
      simp only [Node.descMarkersL, List.mem_append] at h
      rcases h with (h | h) | h
      · split at h
        next hmk =>
          rcases List.mem_singleton.mp h with rfl
          exact Or.inl (by simp [Node.idsWhere, isHighlight, hmk])
        next => cases h
      · exact Or.inl (ihn x (by simpa [Node.descMarkers] using h))
      · exact Or.inr (ihl x h)

theorem replaceId_self :
    (∀ n : Node, n.idList.Nodup → ∀ x m, n.find? x = some m → n.replaceId x [m] = n) ∧
    (∀ l : List Node, (Node.idListL l).Nodup → ∀ x m, Node.findL? l x = some m →
      Node.replaceIdL l x [m] = l) := by
  refine nodes_ind ?_ ?_ ?_ ?_
  · intro j v _ x m _; rfl
  · intro e cs ih hnd x m h
    simp only [Node.idList] at hnd
    have hnd1 := List.nodup_cons.mp hnd
    simp only [Node.find?] at h
    split at h
    next hex =>
      cases h
      have hnot : x ∉ Node.idListL cs := hex ▸ hnd1.1
      simp [Node.replaceId, replaceId_not_mem.2 cs x [Node.elem e cs] hnot]
    next hex =>
      simp [Node.replaceId, ih hnd1.2 x m h]
  · intro _ x m h; cases h
  · intro n ns ihn ihl hnd x m h
    simp only [Node.idListL, List.nodup_append] at hnd
    simp only [Node.findL?] at h
    by_cases hx : n.idOf = x
    · have hfind : n.find? x = some n := hx ▸ find?_self n
      rw [hfind] at h
      cases h
      simp [Node.replaceIdL, hx]
    · split at h
      next m2 heq =>
        cases h
        have hmem : x ∈ n.idList := (find?_isSome_iff n x).mp (by simp [heq])
        have hnot : x ∉ Node.idListL ns := fun hc => hnd.2.2 hmem hc
        simp [Node.replaceIdL, hx, ihn hnd.1 x _ heq,
          replaceId_not_mem.2 ns x [m] hnot]
      next heq =>
        have hmem : x ∈ Node.idListL ns := findL?_mem_ids h
        have hnot : x ∉ n.idList := fun hc => hnd.2.2 hc hmem
        simp [Node.replaceIdL, hx, ihl hnd.2.1 x m h,
          replaceId_not_mem.1 n x [m] hnot]

theorem parent?_find? :
    (∀ n : Node, n.idList.Nodup → ∀ x P, n.parent? x = some P →
      n.find? P.idOf = some P) ∧
    (∀ l : List Node, (Node.idListL l).Nodup → ∀ x P, Node.parentL? l x = some P →
      Node.findL? l P.idOf = some P) := by
  refine nodes_ind ?_ ?_ ?_ ?_
  · intro j v _ x P h; cases h
  · intro e cs ih hnd x P h
    simp only [Node.idList] at hnd
    have hnd1 := List.nodup_cons.mp hnd
    simp only [Node.parent?] at h
    split at h
    next =>
      cases h
      simpa [Node.idOf] using find?_self (Node.elem e cs)
    next =>
      have hfl := ih hnd1.2 x P h
      have hmem : P.idOf ∈ Node.idListL cs := findL?_mem_ids hfl
      have hne : e.id ≠ P.idOf := fun hc => hnd1.1 (hc ▸ hmem)
      simp [Node.find?, hne, hfl]
  · intro _ x P h; cases h
  · intro n ns ihn ihl hnd x P h
    simp only [Node.idListL, List.nodup_append] at hnd
    simp only [Node.parentL?] at h
    split at h
    next m2 heq =>
      cases h
      simp [Node.findL?, ihn hnd.1 x P heq]
    next heq =>
      have hfl := ihl hnd.2.1 x P h
      have hmem : P.idOf ∈ Node.idListL ns := findL?_mem_ids hfl
      have hnot : P.idOf ∉ n.idList := fun hc => hnd.2.2 hc hmem
      have hnone : n.find? P.idOf = none := by
        cases hf : n.find? P.idOf with
        | none => rfl
        | some _ => exact absurd ((find?_isSome_iff n P.idOf).mp (by simp [hf])) hnot
      simp [Node.findL?, hnone, hfl]

theorem flattenStep_noop (root : Node) (hls : List Nat) (a : Bool) (k : Nat)
    (hcond : ∀ hid, hls[k]? = some hid → hid = root.idOf ∨
      ∃ P, root.parent? hid = some P ∧ isHighlight P = false) :
    flattenStep root hls a k = .ok (root, hls, a) := by
  unfold flattenStep
  cases hk : hls[k]? with
  | none => rfl
  | some hid =>
    dsimp only
    rcases hcond hid hk with hroot | ⟨P, hp, hph⟩
    · simp [hroot]
    · by_cases hr : hid = root.idOf
      · simp [hr]
      · rw [if_neg hr]
        simp only [hp]
        cases hf : P.childNodes.find? (fun c => c.idOf = hid) with
        | none => simp [hf]
        | some hl => simp [hf, hph]

theorem flattenOnce_noop (root : Node) (hls : List Nat)
    (hcond : ∀ hid ∈ hls, hid = root.idOf ∨
      ∃ P, root.parent? hid = some P ∧ isHighlight P = false) :
    flattenOnce root hls = .ok (root, hls, false) := by
  unfold flattenOnce
  suffices h : ∀ ks : List Nat,
      ks.foldlM (fun st k => flattenStep st.1 st.2.1 st.2.2 k)
        ((root, hls, false) : Node × List Nat × Bool) = .ok (root, hls, false) by
    exact h _
  intro ks
  induction ks with
  | nil => rfl
  | cons k ks ih =>
    simp only [List.foldlM_cons]
    rw [flattenStep_noop root hls false k
      (fun hid hk => hcond hid (List.getElem?_mem hk))]
    simpa using ih

theorem flattenNested_noop (root : Node) (hls : List Nat)
    (hcond : ∀ hid ∈ hls, hid = root.idOf ∨
      ∃ P, root.parent? hid = some P ∧ isHighlight P = false) :
    flattenNestedHighlights root hls = .ok (root, sortByDepth root hls true) := by
  unfold flattenNestedHighlights
  have hcond2 : ∀ hid ∈ sortByDepth root hls true, hid = root.idOf ∨
      ∃ P, root.parent? hid = some P ∧ isHighlight P = false := by
    intro hid hm
    exact hcond hid (List.mem_mergeSort.mp hm)
  simp only [flattenLoop]
  rw [flattenOnce_noop root _ hcond2]

theorem mergeOne_noop (root : Node) (hnd : root.idList.Nodup) (h : Nat)
    (e : EInfo) (cs : List Node) (hf : root.find? h = some (.elem e cs))
    (hprev : shouldMerge (.elem e cs) (root.prevSib? h) = false)
    (hnext : shouldMerge (.elem e cs) (root.nextSib? h) = false)
    (hco : coalesceTexts cs = cs) :
    mergeOne root h = root := by
  unfold mergeOne
  simp only [hf, hprev, hnext, Bool.false_eq_true, if_false]
  unfold Node.normalizeTextNodesAt
  simp only [hf, hco]
  exact replaceId_self.1 root hnd h _ hf

theorem mergeFold_noop (root : Node) (hnd : root.idList.Nodup) :
    ∀ l : List Nat, (∀ h ∈ l, ∃ e cs, root.find? h = some (.elem e cs) ∧
      shouldMerge (.elem e cs) (root.prevSib? h) = false ∧
      shouldMerge (.elem e cs) (root.nextSib? h) = false ∧
      coalesceTexts cs = cs) →
    mergeSiblingHighlights root l = root := by
  intro l
  induction l with
  | nil => intro _; rfl
  | cons h hs ih =>
    intro hcond
    obtain ⟨e, cs, hf, hp, hn, hc⟩ := hcond h (by simp)
    unfold mergeSiblingHighlights at ih ⊢
    rw [List.foldl_cons, mergeOne_noop root hnd h e cs hf hp hn hc]
    exact ih (fun x hx => hcond x (by simp [hx]))

theorem flattenStep_cases (root : Node) (hls : List Nat) (a : Bool) (k : Nat)
    (hnd : root.idList.Nodup) (r' : Node) (h' : List Nat) (a' : Bool)
    (h : flattenStep root hls a k = .ok (r', h', a')) :
    (r' = root ∧ h' = hls ∧ a' = a ∧ flatStepNoop root hls k) ∨ a' = true := by
  unfold flattenStep at h
  cases hk : hls[k]? with
  | none =>
    rw [hk] at h
    cases h
    exact Or.inl ⟨rfl, rfl, rfl, by simp [flatStepNoop, hk]⟩
  | some hid =>
    rw [hk] at h
    dsimp only at h
    by_cases hr : hid = root.idOf
    · rw [if_pos hr] at h
      cases h
      refine Or.inl ⟨rfl, rfl, rfl, ?_⟩
      simp only [flatStepNoop, hk]
      exact Or.inl hr
    · rw [if_neg hr] at h
      cases hp : root.parent? hid with
      | none => rw [hp] at h; cases h
      | some P =>
        rw [hp] at h
        dsimp only at h
        cases hf : P.childNodes.find? (fun c => c.idOf = hid) with
        | none =>
          rw [hf] at h
          cases h
          refine Or.inl ⟨rfl, rfl, rfl, ?_⟩
          simp only [flatStepNoop, hk]
          exact Or.inr ⟨P, hp, by simp [hf]⟩
        | some hl =>
          rw [hf] at h
          dsimp only at h
          by_cases hih : isHighlight P = true
          · rw [if_pos hih] at h
            by_cases hsc : haveSameColor P hl = true
            · rw [if_pos hsc] at h
              cases hc : hl.childNodes.head? with
              | none => rw [hc] at h; cases h
              | some c =>
                rw [hc] at h
                cases h
                exact Or.inr rfl
            · rw [if_neg hsc] at h
              by_cases hfire : (a || (root.nextSib? hid).isNone ||
                  ((if (root.nextSib? hid).isNone = true then
                      root.moveBefore hid
                        ((Option.map Node.idOf (root.nextSib? P.idOf)).getD P.idOf)
                    else root).prevSib? hid).isNone) = true
              · right
                cases h
                exact hfire
              · have hparts := hfire
                simp only [Bool.or_eq_true, not_or, Bool.not_eq_true] at hparts
                obtain ⟨⟨ha, hf1⟩, hf2⟩ := hparts
                rw [hf1] at hf2
                simp only [Bool.false_eq_true, if_false] at hf2
                rw [hf1] at h
                simp only [Bool.false_eq_true, if_false] at h
                rw [hf2] at h
                simp only [Bool.false_eq_true, if_false, Bool.or_false] at h
                cases P with
                | text Pj Pv => simp [Node.childNodes] at hf
                | elem Pe Pcs =>
                  have hfind : root.find? Pe.id = some (.elem Pe Pcs) := by
                    have := parent?_find?.1 root hnd hid _ hp
                    simpa [Node.idOf] using this
                  have hne : Pcs ≠ [] := by
                    intro hc
                    rw [hc] at hf
                    simp [Node.childNodes] at hf
                  simp only [Node.idOf] at h
                  rw [hfind] at h
                  cases Pcs with
                  | nil => exact absurd rfl hne
                  | cons c0 crest =>
                    dsimp only at h
                    cases h
                    refine Or.inl ⟨rfl, rfl, rfl, ?_⟩
                    simp only [flatStepNoop, hk]
                    refine Or.inr ⟨.elem Pe (c0 :: crest), hp, ?_⟩
                    simp only [hf]
                    refine Or.inr ⟨by simpa using hsc, ?_, ?_⟩
                    · cases hnx : root.nextSib? hid with
                      | none => rw [hnx] at hf1; simp at hf1
                      | some _ => simp
                    · cases hpv : root.prevSib? hid with
                      | none => rw [hpv] at hf2; simp at hf2
                      | some _ => simp
          · rw [if_neg hih] at h
            cases h
            refine Or.inl ⟨rfl, rfl, rfl, ?_⟩
            simp only [flatStepNoop, hk]
            refine Or.inr ⟨P, hp, ?_⟩
            simp only [hf]
            exact Or.inl (by simpa using hih)

theorem flattenStep_mono (root : Node) (hls : List Nat) (k : Nat)
    (r' : Node) (h' : List Nat) (a' : Bool)
    (h : flattenStep root hls true k = .ok (r', h', a')) : a' = true := by
  unfold flattenStep at h
  cases hk : hls[k]? with
  | none => rw [hk] at h; cases h; rfl
  | some hid =>
    rw [hk] at h
    dsimp only at h
    by_cases hr : hid = root.idOf
    · rw [if_pos hr] at h; cases h; rfl
    · rw [if_neg hr] at h
      cases hp : root.parent? hid with
      | none => rw [hp] at h; cases h
      | some P =>
        rw [hp] at h
        dsimp only at h
        cases hf : P.childNodes.find? (fun c => c.idOf = hid) with
        | none => rw [hf] at h; cases h; rfl
        | some hl =>
          rw [hf] at h
          dsimp only at h
          by_cases hih : isHighlight P = true
          · rw [if_pos hih] at h
            by_cases hsc : haveSameColor P hl = true
            · rw [if_pos hsc] at h
              cases hc : hl.childNodes.head? with
              | none => rw [hc] at h; cases h
              | some c => rw [hc] at h; cases h; rfl
            · rw [if_neg hsc] at h
              cases h
              simp
          · rw [if_neg hih] at h; cases h; rfl

theorem flattenFold_mono : ∀ (ks : List Nat) (r : Node) (hl : List Nat)
    (r' : Node) (h' : List Nat) (a' : Bool),
    ks.foldlM (fun st k => flattenStep st.1 st.2.1 st.2.2 k)
      ((r, hl, true) : Node × List Nat × Bool) = .ok (r', h', a') → a' = true := by
  intro ks
  induction ks with
  | nil =>
    intro r hl r' h' a' h
    cases h
    rfl
  | cons k ks ih =>
    intro r hl r' h' a' h
    simp only [List.foldlM_cons] at h
    cases hstep : flattenStep r hl true k with
    | error e =>
      rw [hstep] at h
      cases h
    | ok st =>
      rw [hstep] at h
      obtain ⟨s1, s2, s3⟩ := st
      have hs3 : s3 = true := flattenStep_mono r hl k s1 s2 s3 hstep
      subst hs3
      exact ih s1 s2 r' h' a' h

theorem flattenFold_fix : ∀ (ks : List Nat) (r : Node) (hl : List Nat),
    r.idList.Nodup → ∀ (r' : Node) (h' : List Nat),
    ks.foldlM (fun st k => flattenStep st.1 st.2.1 st.2.2 k)
      ((r, hl, false) : Node × List Nat × Bool) = .ok (r', h', false) →
    r' = r ∧ h' = hl ∧ ∀ k ∈ ks, flatStepNoop r hl k := by
  intro ks
  induction ks with
  | nil =>
    intro r hl _ r' h' h
    cases h
    exact ⟨rfl, rfl, fun k hk => absurd hk (by simp)⟩
  | cons k ks ih =>
    intro r hl hnd r' h' h
    simp only [List.foldlM_cons] at h
    cases hstep : flattenStep r hl false k with
    | error e =>
      rw [hstep] at h
      cases h
    | ok st =>
      rw [hstep] at h
      obtain ⟨s1, s2, s3⟩ := st
      rcases flattenStep_cases r hl false k hnd s1 s2 s3 hstep with
        ⟨e1, e2, e3, hnoop⟩ | htrue
      · subst e1; subst e2; subst e3
        obtain ⟨g1, g2, g3⟩ := ih _ _ hnd r' h' h
        refine ⟨g1, g2, ?_⟩
        intro k2 hk2
        rcases List.mem_cons.mp hk2 with rfl | hk2
        · exact hnoop
        · exact g3 k2 hk2
      · subst htrue
        have := flattenFold_mono ks s1 s2 r' h' false h
        cases this

/-- **C3 (theorem).** For every pair of immediately adjacent sibling
markers of identical style — with no intervening node between them and no
same-style marker immediately before the pair (the pair taken in
isolation, as the claim describes) — the merge pass leaves exactly one
surviving marker: the first of the pair survives, absorbed the second's
children, its text content is the concatenation of the two originals'
text in document order, the second is detached, and the rendered text of
the whole tree is unchanged. -/
theorem merge_pair_correct
    (root : Node) (hnd : root.idList.Nodup)
    (p : Nat) (pe ae be : EInfo) (pre post acs bcs : List Node)
    (hf : root.find? p = some (.elem pe (pre ++ Node.elem ae acs :: Node.elem be bcs :: post)))
    (hmarkB : be.marked = true)
    (hcolor : ae.color = be.color)
    (hpre : shouldMerge (Node.elem ae acs) pre.getLast? = false) :
    mergeSiblingHighlights root [ae.id, be.id] =
      root.withChildrenAt p (pre ++ Node.elem ae (coalesceTexts (acs ++ bcs)) :: post) ∧
    be.id ∉ (mergeSiblingHighlights root [ae.id, be.id]).idList ∧
    (mergeSiblingHighlights root [ae.id, be.id]).find? ae.id
      = some (Node.elem ae (coalesceTexts (acs ++ bcs))) ∧
    (Node.elem ae (coalesceTexts (acs ++ bcs))).textContent
      = (Node.elem ae acs).textContent ++ (Node.elem be bcs).textContent ∧
    (mergeSiblingHighlights root [ae.id, be.id]).textContent = root.textContent := by
  obtain ⟨tpre, tpost, ipre, ipost, ht, hi, hall⟩ :=
    withChildrenAt_context root hnd p pe
      (pre ++ Node.elem ae acs :: Node.elem be bcs :: post) hf
  have hndold : (Node.idListL (pre ++ Node.elem ae acs :: Node.elem be bcs :: post)).Nodup := by
    rw [hi] at hnd
    exact ((hnd.of_append_right).of_cons).of_append_left
  obtain ⟨hfa, hpara, _⟩ := child_lift root hnd p pe
    (pre ++ Node.elem ae acs :: Node.elem be bcs :: post) hf (Node.elem ae acs) (by simp)
  have hsibs := sibs_of_decomp root hnd p pe pre (Node.elem ae acs)
    (Node.elem be bcs :: post) (by simpa using hf)
  have hsm : shouldMerge (Node.elem ae acs) (some (Node.elem be bcs)) = true := by
    simp [shouldMerge, Node.isElem, haveSameColor, Node.colorOf, hcolor, isHighlight, hmarkB]
  have habs : root.absorbNext ae.id =
      root.withChildrenAt p (pre ++ Node.elem ae (acs ++ bcs) :: post) :=
    absorbNext_localize.1 root hnd p pe pre (Node.elem ae acs) (Node.elem be bcs)
      post ae acs be bcs hf rfl rfl
  have hmerge1 : mergeOne root ae.id =
      (root.withChildrenAt p (pre ++ Node.elem ae (acs ++ bcs) :: post)).normalizeTextNodesAt ae.id := by
    rw [mergeOne]
    simp only [Node.idOf] at hfa hsibs
    rw [hfa, hsibs.1, hsibs.2]
    simp only [List.head?_cons]
    simp only [hpre, hsm, Bool.false_eq_true, if_false, if_true]
    rw [habs]
  -- the intermediate tree after absorption
  have hmidall := hall (pre ++ Node.elem ae (acs ++ bcs) :: post)
  have hmidsub : List.Sublist
      (Node.idListL (pre ++ Node.elem ae (acs ++ bcs) :: post))
      (Node.idListL (pre ++ Node.elem ae acs :: Node.elem be bcs :: post)) := by
    simp only [idListL_append, Node.idListL, Node.idList, idListL_append, List.append_assoc,
      List.append_nil]
    refine List.Sublist.append_left ?_ _
    refine List.Sublist.cons₂ _ ?_
    simp only [List.append_eq, List.append_assoc]
    exact List.Sublist.append_left (List.sublist_cons_self _ _) _
  have hsubfull : ∀ X Y : List Nat, List.Sublist X Y →
      List.Sublist (ipre ++ pe.id :: (X ++ ipost)) (ipre ++ pe.id :: (Y ++ ipost)) := by
    intro X Y hxy
    exact List.Sublist.append_left ((hxy.append_right ipost).cons₂ pe.id) ipre
  have hndroot : (ipre ++ pe.id :: (Node.idListL
      (pre ++ Node.elem ae acs :: Node.elem be bcs :: post) ++ ipost)).Nodup := hi ▸ hnd
  have hndmid : (root.withChildrenAt p (pre ++ Node.elem ae (acs ++ bcs) :: post)).idList.Nodup := by
    rw [hmidall.2.1]
    exact (hsubfull _ _ hmidsub).nodup hndroot
  have hndmidcs : (Node.idListL (pre ++ Node.elem ae (acs ++ bcs) :: post)).Nodup := by
    have h2 := hndmid
    rw [hmidall.2.1] at h2
    exact ((h2.of_append_right).of_cons).of_append_left
  obtain ⟨hfmid, _, _⟩ := child_lift _ hndmid p pe
    (pre ++ Node.elem ae (acs ++ bcs) :: post) hmidall.2.2 (Node.elem ae (acs ++ bcs)) (by simp)
  have hnorm : (root.withChildrenAt p (pre ++ Node.elem ae (acs ++ bcs) :: post)).normalizeTextNodesAt ae.id
      = root.withChildrenAt p (pre ++ Node.elem ae (coalesceTexts (acs ++ bcs)) :: post) := by
    simp only [Node.idOf] at hfmid
    simp only [Node.normalizeTextNodesAt, hfmid]
    have hloc := replaceId_localize.1 _ hndmid p pe
      (pre ++ Node.elem ae (acs ++ bcs) :: post) hmidall.2.2 (Node.elem ae (acs ++ bcs))
      (by simp) [Node.elem ae (coalesceTexts (acs ++ bcs))]
    simp only [Node.idOf] at hloc
    rw [hloc]
    have hspl := replaceIdL_splice pre (Node.elem ae (acs ++ bcs)) post
      [Node.elem ae (coalesceTexts (acs ++ bcs))] hndmidcs
    simp only [Node.idOf] at hspl
    rw [hspl]
    rw [withChildrenAt_twice.1]
    simp
  -- facts about the final tree
  have hfinall := hall (pre ++ Node.elem ae (coalesceTexts (acs ++ bcs)) :: post)
  have hfinsub : List.Sublist
      (Node.idListL (pre ++ Node.elem ae (coalesceTexts (acs ++ bcs)) :: post))
      (Node.idListL (pre ++ Node.elem ae (acs ++ bcs) :: post)) := by
    simp only [idListL_append, Node.idListL, Node.idList, List.append_assoc, List.append_nil]
    refine List.Sublist.append_left ?_ _
    refine List.Sublist.cons₂ _ ?_
    have h3 := (coalesceTexts_ids_sublist (acs ++ bcs)).append_right (Node.idListL post)
    rw [idListL_append] at h3
    simp only [List.append_eq, List.append_assoc] at h3 ⊢
    exact h3
  have hndfin : (root.withChildrenAt p
      (pre ++ Node.elem ae (coalesceTexts (acs ++ bcs)) :: post)).idList.Nodup := by
    rw [hfinall.2.1]
    exact (hsubfull _ _ (hfinsub.trans hmidsub)).nodup hndroot
  -- be.id is gone from the final tree
  have hbe_not : be.id ∉ (root.withChildrenAt p
      (pre ++ Node.elem ae (coalesceTexts (acs ++ bcs)) :: post)).idList := by
    rw [hfinall.2.1]
    -- be.id occurs exactly once in the original id list, inside the old children
    have hshape : Node.idListL (pre ++ Node.elem ae acs :: Node.elem be bcs :: post)
        = (Node.idListL pre ++ ae.id :: Node.idListL acs) ++ be.id ::
          (Node.idListL bcs ++ Node.idListL post) := by
      simp [idListL_append, Node.idListL, Node.idList, List.append_assoc]
    have hmid := List.nodup_middle.mp (by rw [← hshape]; exact hndold)
    have hnotrest : be.id ∉ (Node.idListL pre ++ ae.id :: Node.idListL acs) ++
        (Node.idListL bcs ++ Node.idListL post) := (List.nodup_cons.mp hmid).1
    have hfin_in_rest : List.Sublist
        (Node.idListL (pre ++ Node.elem ae (coalesceTexts (acs ++ bcs)) :: post))
        ((Node.idListL pre ++ ae.id :: Node.idListL acs) ++
          (Node.idListL bcs ++ Node.idListL post)) := by
      simp only [idListL_append, Node.idListL, Node.idList, List.append_assoc,
        List.cons_append, List.append_nil]
      refine List.Sublist.append_left ?_ _
      refine List.Sublist.cons₂ _ ?_
      have h3 := (coalesceTexts_ids_sublist (acs ++ bcs)).append_right (Node.idListL post)
      rw [idListL_append] at h3
      simp only [List.append_eq, List.append_assoc] at h3 ⊢
      exact h3
    -- membership in the whole new id list splits into four regions
    intro hmem
    rcases List.mem_append.mp hmem with hmem1 | hmem2
    · -- be.id in ipre: contradicts Nodup across the original list
      have hbe_old : be.id ∈ Node.idListL (pre ++ Node.elem ae acs :: Node.elem be bcs :: post) := by
        rw [hshape]; simp
      have := (List.nodup_append.mp hndroot).2.2 hmem1 (by simp [hbe_old])
      exact this
    · rcases List.mem_cons.mp hmem2 with hmem3 | hmem4
      · -- be.id = pe.id
        have h4 := (List.nodup_append.mp hndroot).2.1
        have hbe_old : be.id ∈ Node.idListL (pre ++ Node.elem ae acs :: Node.elem be bcs :: post) := by
          rw [hshape]; simp
        exact (List.nodup_cons.mp h4).1 (by rw [← hmem3]; simp [hbe_old])
      · rcases List.mem_append.mp hmem4 with hmem5 | hmem6
        · exact hnotrest (hfin_in_rest.mem hmem5)
        · -- be.id in ipost
          have h4 := (List.nodup_append.mp hndroot).2.1
          have h5 := (List.nodup_cons.mp h4).2
          have hbe_old : be.id ∈ Node.idListL (pre ++ Node.elem ae acs :: Node.elem be bcs :: post) := by
            rw [hshape]; simp
          exact (List.nodup_append.mp h5).2.2 hbe_old hmem6
  have hfb_none : (root.withChildrenAt p
      (pre ++ Node.elem ae (coalesceTexts (acs ++ bcs)) :: post)).find? be.id = none := by
    cases hfb : (root.withChildrenAt p
        (pre ++ Node.elem ae (coalesceTexts (acs ++ bcs)) :: post)).find? be.id with
    | none => rfl
    | some m => exact absurd ((find?_isSome_iff _ be.id).mp (by simp [hfb])) hbe_not
  have hmerge2 : mergeOne (root.withChildrenAt p
      (pre ++ Node.elem ae (coalesceTexts (acs ++ bcs)) :: post)) be.id =
      root.withChildrenAt p (pre ++ Node.elem ae (coalesceTexts (acs ++ bcs)) :: post) := by
    rw [mergeOne, hfb_none]
  have hres : mergeSiblingHighlights root [ae.id, be.id] =
      root.withChildrenAt p (pre ++ Node.elem ae (coalesceTexts (acs ++ bcs)) :: post) := by
    show mergeOne (mergeOne root ae.id) be.id = _
    rw [hmerge1, hnorm, hmerge2]
  refine ⟨hres, by rw [hres]; exact hbe_not, ?_, ?_, ?_⟩
  · rw [hres]
    obtain ⟨hfc, _, _⟩ := child_lift _ hndfin p pe
      (pre ++ Node.elem ae (coalesceTexts (acs ++ bcs)) :: post) hfinall.2.2
      (Node.elem ae (coalesceTexts (acs ++ bcs))) (by simp)
    exact hfc
  · simp only [Node.textContent]
    rw [coalesceTexts_textContent, textContentL_append]
  · rw [hres, hfinall.1, ht]
    have : Node.textContentL (pre ++ Node.elem ae (coalesceTexts (acs ++ bcs)) :: post)
        = Node.textContentL (pre ++ Node.elem ae acs :: Node.elem be bcs :: post) := by
      rw [textContentL_append, textContentL_append]
      simp only [Node.textContentL, Node.textContent]
      rw [coalesceTexts_textContent, textContentL_append]
      simp [List.append_assoc]
    rw [this]

/-- **C3 (witness).** The merge-pair theorem applied to the concrete
two-marker document. -/
theorem merge_pair_correct_witness :
    mergeSiblingHighlights elMergePair [1, 3] =
      elMergePair.withChildrenAt 0
        ([] ++ Node.elem spanInfo1 (coalesceTexts
          ([.text 2 ('a' :: 'b' :: [])] ++ [.text 4 ('c' :: 'd' :: [])])) :: []) ∧
    3 ∉ (mergeSiblingHighlights elMergePair [1, 3]).idList ∧
    (mergeSiblingHighlights elMergePair [1, 3]).find? 1
      = some (Node.elem spanInfo1 (coalesceTexts
          ([.text 2 ('a' :: 'b' :: [])] ++ [.text 4 ('c' :: 'd' :: [])]))) ∧
    (Node.elem spanInfo1 (coalesceTexts
        ([.text 2 ('a' :: 'b' :: [])] ++ [.text 4 ('c' :: 'd' :: [])]))).textContent
      = (Node.elem spanInfo1 [.text 2 ('a' :: 'b' :: [])]).textContent ++
        (Node.elem spanInfo3 [.text 4 ('c' :: 'd' :: [])]).textContent ∧
    (mergeSiblingHighlights elMergePair [1, 3]).textContent = elMergePair.textContent :=
  merge_pair_correct elMergePair (by decide) 0 divInfo spanInfo1 spanInfo3
    [] [] [.text 2 ('a' :: 'b' :: [])] [.text 4 ('c' :: 'd' :: [])]
    rfl rfl rfl rfl



/-- **C8 (counterexample).** In `<div>hello<span>x</span></div>` with a
selection from offset 2 inside the text node `hello` (id 1) to offset 0
of the span (id 2), the claim's climb-then-previous-sibling end container
is the text node id 1, but the returned `endContainer` is the freshly
split-off node id 4: after the start boundary splits `hello` at offset 2,
the code reassigns the end container to the new start node because the
previously computed end container is that node's preceding sibling. -/
theorem refine_endZero_cex :
    (refineRangeBoundaries docRefineC8 rangeC8).2.endContainer = some 4 ∧
    claimedEndZeroContainer docRefineC8.root rangeC8.commonAncestor rangeC8.endContainer
      = some 1 ∧
    ¬ (refineRangeBoundaries docRefineC8 rangeC8).2.endContainer
        = claimedEndZeroContainer docRefineC8.root rangeC8.commonAncestor rangeC8.endContainer := by
  refine ⟨rfl, rfl, by decide⟩

/-- **C8 (amended).** For a zero end offset, the returned `endContainer`
is the node the claim describes (preceding sibling of the climb from the
original end container), except when the start container is a text node
split strictly inside (`0 < startOffset < length`) and the claimed end
container is that very start container: then the returned `endContainer`
is reassigned to the fresh second half of the split, `some d.nextId`. -/
theorem refine_endZero_characterization (d : Doc) (r : Range)
    (hwf : d.WF) (hroot : d.root.isElem = true) (h0 : r.endOffset = 0) :
    (refineRangeBoundaries d r).2.endContainer
        = claimedEndZeroContainer d.root r.commonAncestor r.endContainer ∨
    (∃ v : List Char,
        d.root.find? r.startContainer = some (.text r.startContainer v) ∧
        0 < r.startOffset ∧ r.startOffset < v.length ∧
        claimedEndZeroContainer d.root r.commonAncestor r.endContainer
          = some r.startContainer ∧
        (refineRangeBoundaries d r).2.endContainer = some d.nextId) := by
  cases hsc : d.root.find? r.startContainer with
  | none =>
    left
    unfold refineRangeBoundaries
    rw [if_pos h0]
    simp only [hsc]
    rfl
  | some m =>
    cases m with
    | elem e cs =>
      left
      unfold refineRangeBoundaries
      rw [if_pos h0]
      simp only [hsc]
      by_cases hlen : r.startOffset < cs.length
      · rw [if_pos hlen]
        rfl
      · rw [if_neg hlen]
        rfl
    | text j v =>
      have hid : (Node.text j v).idOf = r.startContainer := find?_idOf d.root r.startContainer _ hsc
      simp only [Node.idOf] at hid
      subst hid
      by_cases hs1 : r.startOffset = v.length
      · left
        unfold refineRangeBoundaries
        rw [if_pos h0]
        simp only [hsc]
        rw [if_pos hs1]
        rfl
      · by_cases hs2 : 0 < r.startOffset
        · by_cases hlt : r.startOffset < v.length
          · have hsplit : d.splitText r.startContainer r.startOffset =
                some (⟨d.root.replaceId r.startContainer
                    [.text r.startContainer (v.take r.startOffset),
                     .text d.nextId (v.drop r.startOffset)], d.nextId + 1⟩, d.nextId) := by
              simp only [Doc.splitText, hsc]
              rw [if_pos (le_of_lt hlt)]
            have hps := splitText_prevSib d hwf hroot r.startContainer v hsc r.startOffset
            by_cases hcl : claimedEndZeroContainer d.root r.commonAncestor r.endContainer
                = some r.startContainer
            · right
              refine ⟨v, rfl, hs2, hlt, hcl, ?_⟩
              unfold refineRangeBoundaries
              rw [if_pos h0]
              simp only [hsc]
              rw [if_neg hs1, if_pos hs2]
              simp only [hsplit]
              split
              next => rfl
              next h => exact absurd (hcl.trans hps.symm) h
            · left
              unfold refineRangeBoundaries
              rw [if_pos h0]
              simp only [hsc]
              rw [if_neg hs1, if_pos hs2]
              simp only [hsplit]
              split
              next h => rw [hps] at h; exact absurd h hcl
              next => rfl
          · left
            have hsplit : d.splitText r.startContainer r.startOffset = none := by
              simp only [Doc.splitText, hsc]
              rw [if_neg ?_]
              omega
            unfold refineRangeBoundaries
            rw [if_pos h0]
            simp only [hsc]
            rw [if_neg hs1, if_pos hs2]
            simp only [hsplit]
            rfl
        · left
          unfold refineRangeBoundaries
          rw [if_pos h0]
          simp only [hsc]
          rw [if_neg hs1, if_neg hs2]
          rfl

/-- Witness for the C8 amended theorem at the counterexample document. -/
theorem refine_endZero_characterization_witness :
    (refineRangeBoundaries docRefineC8 rangeC8).2.endContainer
        = claimedEndZeroContainer docRefineC8.root rangeC8.commonAncestor rangeC8.endContainer ∨
    (∃ v : List Char,
        docRefineC8.root.find? rangeC8.startContainer
          = some (.text rangeC8.startContainer v) ∧
        0 < rangeC8.startOffset ∧ rangeC8.startOffset < v.length ∧
        claimedEndZeroContainer docRefineC8.root rangeC8.commonAncestor rangeC8.endContainer
          = some rangeC8.startContainer ∧
        (refineRangeBoundaries docRefineC8 rangeC8).2.endContainer = some docRefineC8.nextId) :=
  refine_endZero_characterization docRefineC8 rangeC8
    (by constructor
        · decide
        · decide)
    (by decide) rfl


/-- **C10 (counterexample).** In `<div>abc<span class=hl><b>x</b></span></div>`
the single marker wraps a non-text element; removing highlights loses the
text `abc`: the unwrap pass assigns `nodeValue` on the moved element child
(a no-op) and still removes its preceding text sibling.  The document's
rendered text shrinks from `abcx` to `x`. -/
theorem remove_text_loss_cex :
    (removeHighlights elC10 0).textContent = 'x' :: [] ∧
    elC10.textContent = 'a' :: 'b' :: 'c' :: 'x' :: [] ∧
    elC10.markedTextOnly = false := by
  refine ⟨?_, rfl, rfl⟩
  have hs : removeHighlights elC10 0 = removeOne elC10 2 := by
    unfold removeHighlights
    have hd1 : elC10.descMarkers = [2] := by
      simp [elC10, mkDiv, mkSpan, cRed, Node.descMarkers, Node.descMarkersL]
    have hg : getHighlights elC10 0 = [2] := by
      have hf0 : elC10.find? 0 = some elC10 := rfl
      simp only [getHighlights, hf0, hd1]
      rfl
    rw [hg]
    have hs2 : sortByDepth elC10 [2] true = [2] := by
      unfold sortByDepth
      simp [List.mergeSort]
    rw [hs2]
    rfl
  rw [hs]
  rfl

/-- **C10 (amended).** `removeHighlights` with the default always-true
veto preserves the tree's concatenated text content for every container,
provided every marker element has only text-node children (the shape the
library's own highlighting and normalization produce); the unwrap loop
then only splices texts out of markers and re-joins adjacent text nodes. -/
theorem removeHighlights_preserves_text (root : Node) (container : Nat)
    (hnd : root.idList.Nodup) (hm : root.markedTextOnly = true) :
    (removeHighlights root container).textContent = root.textContent := by
  unfold removeHighlights
  refine (foldRemove_inv _ root hnd hm ?_).1
  intro h hmem
  have hmem2 : h ∈ getHighlights root container := by
    unfold sortByDepth at hmem
    exact List.mem_mergeSort.mp hmem
  unfold getHighlights at hmem2
  cases hfc : root.find? container with
  | none => rw [hfc] at hmem2; cases hmem2
  | some c =>
    rw [hfc] at hmem2
    have hhl : h ∈ Node.idsWhere isHighlight root := by
      rcases List.mem_append.mp hmem2 with hmem3 | hmem3
      · exact idsWhere_subtree.1 root isHighlight container c h hfc
          (descMarkers_sub.1 c h hmem3)
      · split at hmem3
        next hihl =>
          rcases List.mem_singleton.mp hmem3 with rfl
          refine idsWhere_subtree.1 root isHighlight container c c.idOf hfc ?_
          cases c with
          | text j v => simp [isHighlight] at hihl
          | elem e cs =>
            simp only [isHighlight] at hihl
            simp [Node.idsWhere, Node.idOf, isHighlight, hihl]
        next => cases hmem3
    obtain ⟨m, hfm, hpm⟩ := idsWhere_find.1 root hnd isHighlight h hhl
    cases m with
    | text j v => simp [isHighlight] at hpm
    | elem e cs =>
      simp only [isHighlight] at hpm
      exact Or.inr ⟨e, cs, hfm, hpm⟩

/-- Witness for the C10 amended theorem: a marker with only text children
between two text siblings; removal preserves the rendered text. -/
theorem removeHighlights_preserves_text_witness :
    (removeHighlights elC10b 0).textContent = elC10b.textContent :=
  removeHighlights_preserves_text elC10b 0 (by decide) (by decide)


/-- **C2 (counterexample).** With three adjacent same-color markers and
the marker set `[5]`, the first normalization run merges marker 5 with
its captured previous sibling (marker 3) but leaves marker 1 adjacent
with the same color; a second run on the first run's output merges again,
dropping the marker count from 2 to 1 — normalization is not idempotent. -/
theorem normalize_not_idempotent_cex :
    normalizeHighlights elC2 [5] = .ok (elC2mid, [5]) ∧
    normalizeHighlights elC2mid [5] = .ok (elC2fin, [5]) ∧
    elC2mid.markerCount = 2 ∧ elC2fin.markerCount = 1 := by
  refine ⟨?_, ?_, by decide, by decide⟩
  · unfold normalizeHighlights flattenNestedHighlights
    have hs : sortByDepth elC2 [5] true = [5] := by
      unfold sortByDepth
      simp [List.mergeSort]
    rw [hs]
    rfl
  · unfold normalizeHighlights flattenNestedHighlights
    have hs : sortByDepth elC2mid [5] true = [5] := by
      unfold sortByDepth
      simp [List.mergeSort]
    rw [hs]
    rfl

/-- **C2 (amended).** A normalization run makes no change — it returns
the unchanged tree and the de-duplicated, depth-sorted entry list — when
every listed entry is already canonical: a found element under a
non-marker parent, with no mergeable sibling on either side, and with
already-coalesced children.  A first run need not put unlisted
neighboring markers into this state, which is why idempotence fails in
general. -/
theorem normalize_noop (root : Node) (hls : List Nat) (hnd : root.idList.Nodup)
    (hcan : ∀ h ∈ hls, ∃ e cs P, root.find? h = some (.elem e cs) ∧
      root.parent? h = some P ∧ isHighlight P = false ∧
      shouldMerge (.elem e cs) (root.prevSib? h) = false ∧
      shouldMerge (.elem e cs) (root.nextSib? h) = false ∧
      coalesceTexts cs = cs) :
    normalizeHighlights root hls = .ok (root, jsUnique (sortByDepth root hls true)) := by
  unfold normalizeHighlights
  rw [flattenNested_noop root hls ?_]
  · have hmerge : mergeSiblingHighlights root (sortByDepth root hls true) = root := by
      refine mergeFold_noop root hnd _ ?_
      intro h hm
      obtain ⟨e, cs, P, hf, hp, _, hpr, hnx, hc⟩ := hcan h (List.mem_mergeSort.mp hm)
      exact ⟨e, cs, hf, hpr, hnx, hc⟩
    simp only [hmerge]
    have hfilter : (sortByDepth root hls true).filter
        (fun i => (root.parent? i).isSome || decide (i = root.idOf))
        = sortByDepth root hls true := by
      refine List.filter_eq_self.mpr ?_
      intro i hi
      obtain ⟨e, cs, P, hf, hp, _⟩ := hcan i (List.mem_mergeSort.mp hi)
      simp [hp]
    rw [hfilter]
  · intro hid hm
    obtain ⟨e, cs, P, hf, hp, hph, _⟩ := hcan hid hm
    exact Or.inr ⟨P, hp, hph⟩

/-- Witness for the C2 amended theorem: a single canonical marker. -/
theorem normalize_noop_witness :
    normalizeHighlights elC2w [2] = .ok (elC2w, jsUnique (sortByDepth elC2w [2] true)) :=
  normalize_noop elC2w [2] (by decide) (by
    intro h hm
    rcases List.mem_singleton.mp hm with rfl
    exact ⟨⟨2, 'S' :: 'P' :: 'A' :: 'N' :: [], cRed, true, 'h' :: 'l' :: []⟩,
      [.text 3 ('a' :: 'b' :: [])], elC2w, rfl, rfl, rfl, rfl, rfl, rfl⟩)

/-- **C5 (counterexample).** After normalizing the marker set `[5]` in a
tree with three adjacent same-color markers, the result still contains
two adjacent markers of the same style, violating the claimed
canonical-marker invariant. -/
theorem normalize_leaves_same_style_sibs :
    normalizeHighlights elC2 [5] = .ok (elC2mid, [5]) ∧
    adjSameColor elC2mid.childNodes = true := by
  refine ⟨?_, rfl⟩
  unfold normalizeHighlights flattenNestedHighlights
  have hs : sortByDepth elC2 [5] true = [5] := by
    unfold sortByDepth
    simp [List.mergeSort]
  rw [hs]
  rfl

/-- **C5 (amended).** The invariant normalization actually certifies is
per-entry: a flatten pass that reports no change returns its input
unchanged, and every listed entry is then out of range, the anchor,
detached, under a non-marker parent, or under a differently-styled marker
with siblings on both sides.  No guarantee is made about unlisted markers
or about same-styled adjacent siblings of merged markers. -/
theorem flattenOnce_fix (root : Node) (hls : List Nat) (hnd : root.idList.Nodup)
    (r' : Node) (h' : List Nat)
    (hfix : flattenOnce root hls = .ok (r', h', false)) :
    r' = root ∧ h' = hls ∧ ∀ k, flatStepNoop root hls k := by
  unfold flattenOnce at hfix
  obtain ⟨e1, e2, hconds⟩ := flattenFold_fix (List.range hls.length) root hls hnd r' h' hfix
  refine ⟨e1, e2, ?_⟩
  intro k
  by_cases hk : k < hls.length
  · exact hconds k (List.mem_range.mpr hk)
  · simp [flatStepNoop, List.getElem?_eq_none (show hls.length ≤ k by omega)]

/-- Witness for the C5 amended theorem at the counterexample's first-run
output. -/
theorem flattenOnce_fix_witness :
    (5 : Nat) = elC2mid.idOf ∨
    ∃ P, elC2mid.parent? 5 = some P ∧
      match P.childNodes.find? (fun c => c.idOf = 5) with
      | none => True
      | some hl =>
        isHighlight P = false ∨
        (haveSameColor P hl = false ∧ (elC2mid.nextSib? 5).isSome = true ∧
         (elC2mid.prevSib? 5).isSome = true) := by
  have h := flattenOnce_fix elC2mid [5] (by decide) elC2mid [5] rfl
  have h2 := h.2.2 0
  simpa [flatStepNoop] using h2

theorem escChars_nil : escChars [] = [] := rfl

theorem escChars_cons (c : Char) (s : List Char) :
    escChars (c :: s) = (if c = '"' ∨ c = '\\' then ['\\', c] else [c]) ++ escChars s := by
  simp only [escChars, List.map_cons, List.flatten_cons]

theorem parseStrBody_quote (r : List Char) : parseStrBody ('"' :: r) = some ([], r) := rfl

theorem parseStrBody_esc (c : Char) (h : c = '"' ∨ c = '\\') (r : List Char) :
    parseStrBody ('\\' :: c :: r) = (parseStrBody r).map (fun p => (c :: p.1, p.2)) := by
  show (if c = '"' ∨ c = '\\' ∨ c = '/' then
      (parseStrBody r).map (fun p => (c :: p.1, p.2))
    else if c = 'n' then (parseStrBody r).map (fun p => ('\n' :: p.1, p.2))
    else if c = 't' then (parseStrBody r).map (fun p => ('\t' :: p.1, p.2))
    else if c = 'r' then (parseStrBody r).map (fun p => ('\r' :: p.1, p.2))
    else none) = (parseStrBody r).map (fun p => (c :: p.1, p.2))
  rw [if_pos (by tauto)]

theorem parseStrBody_not_esc (c : Char) (h1 : c ≠ '\\') (h2 : c ≠ '"') (r : List Char) :
    parseStrBody (c :: r) = (parseStrBody r).map (fun p => (c :: p.1, p.2)) := by
  unfold parseStrBody
  split
  next heq => cases heq
  next c2 r2 heq =>
    rw [List.cons.injEq] at heq
    exact absurd heq.1 h1
  next heq =>
    rw [List.cons.injEq] at heq
    obtain ⟨h3, h4⟩ := heq
    subst h3
    subst h4
    rw [if_neg h2]
    rw [← parseStrBody.eq_def]

theorem parseStrBody_escChars : ∀ (s rest : List Char),
    parseStrBody (escChars s ++ '"' :: rest) = some (s, rest) := by
  intro s
  induction s with
  | nil => intro rest; rw [escChars_nil]; exact parseStrBody_quote rest
  | cons c cs ih =>
    intro rest
    rw [escChars_cons]
    by_cases hc : c = '"' ∨ c = '\\'
    · rw [if_pos hc]
      simp only [List.cons_append, List.nil_append]
      rw [parseStrBody_esc c hc, ih rest]
      rfl
    · rw [if_neg hc]
      push_neg at hc
      simp only [List.cons_append, List.nil_append]
      rw [parseStrBody_not_esc c hc.2 hc.1, ih rest]
      rfl

theorem digitsVal_shift : ∀ (ds : List Char) (a : Nat),
    ds.foldl (fun a c => a * 10 + (c.toNat - 48)) a
      = a * 10 ^ ds.length + digitsVal ds := by
  intro ds
  induction ds with
  | nil => intro a; simp [digitsVal]
  | cons d ds ih =>
    intro a
    simp only [List.foldl_cons, List.length_cons, digitsVal]
    rw [ih (a * 10 + (d.toNat - 48)), ih (0 * 10 + (d.toNat - 48))]
    simp only [Nat.zero_mul, Nat.zero_add]
    ring

theorem digitsVal_cons (c : Char) (ds : List Char) :
    digitsVal (c :: ds) = (c.toNat - 48) * 10 ^ ds.length + digitsVal ds := by
  simp only [digitsVal, List.foldl_cons]
  rw [digitsVal_shift]
  simp only [Nat.zero_mul, Nat.zero_add]
  rfl

theorem parseDigits_none (rest : List Char)
    (hrest : ∀ c, rest.head? = some c → isDigitCh c = false) :
    parseDigits rest = none := by
  cases rest with
  | nil => rfl
  | cons c r =>
    have := hrest c rfl
    unfold parseDigits
    rw [this]
    rfl

theorem parseDigits_run : ∀ (ds rest : List Char), ds ≠ [] →
    (∀ c ∈ ds, isDigitCh c = true) →
    (∀ c, rest.head? = some c → isDigitCh c = false) →
    parseDigits (ds ++ rest) = some (digitsVal ds, rest) := by
  intro ds
  induction ds with
  | nil => intro rest h _ _; exact absurd rfl h
  | cons c ds ih =>
    intro rest _ hdig hrest
    have hc : isDigitCh c = true := hdig c (by simp)
    simp only [List.cons_append]
    unfold parseDigits
    rw [hc]
    simp only [if_true]
    cases hds : ds with
    | nil =>
      rw [List.nil_append, parseDigits_none rest hrest]
      simp [digitsVal]
    | cons d ds2 =>
      rw [← hds, ih rest (by simp [hds]) (fun x hx => hdig x (by simp [hx])) hrest]
      have hlen : (c :: (ds ++ rest)).length - rest.length = ds.length + 1 := by
        simp
        omega
      simp only [hlen]
      rw [digitsVal_cons]
      simp

theorem natDigits_spec : ∀ n : Nat, natDigits n ≠ [] ∧
    (∀ c ∈ natDigits n, isDigitCh c = true) ∧ digitsVal (natDigits n) = n := by
  intro n
  induction n using Nat.strong_induction_on with
  | _ n ih =>
    rw [natDigits]
    split
    next h =>
      interval_cases n <;> exact ⟨by simp, by decide, by decide⟩
    next h =>
      obtain ⟨ih1, ih2, ih3⟩ := ih (n / 10) (Nat.div_lt_self (by omega) (by norm_num))
      refine ⟨by simp, ?_, ?_⟩
      · intro c hcm
        rcases List.mem_append.mp hcm with hcm | hcm
        · exact ih2 c hcm
        · rcases List.mem_singleton.mp hcm with rfl
          have hm : n % 10 < 10 := Nat.mod_lt n (by norm_num)
          set m := n % 10 with hmm
          interval_cases m <;> decide
      · simp only [digitsVal, List.foldl_append, List.foldl_cons, List.foldl_nil]
        have h1 : (natDigits (n / 10)).foldl (fun a c => a * 10 + (c.toNat - 48)) 0
            = n / 10 := ih3
        rw [h1]
        have hm : n % 10 < 10 := Nat.mod_lt n (by norm_num)
        have h2 : (Char.ofNat (48 + n % 10)).toNat - 48 = n % 10 := by
          set m := n % 10 with hmm
          interval_cases m <;> decide
        rw [h2]
        omega

theorem parseDigits_natDigits (n : Nat) (rest : List Char)
    (hrest : ∀ c, rest.head? = some c → isDigitCh c = false) :
    parseDigits (natDigits n ++ rest) = some (n, rest) := by
  obtain ⟨h1, h2, h3⟩ := natDigits_spec n
  rw [parseDigits_run (natDigits n) rest h1 h2 hrest, h3]

theorem intChars_natCast (k : Nat) : intChars (k : Int) = natDigits k := by
  unfold intChars
  rw [if_neg (by omega), Int.natAbs_ofNat]

end TH

namespace TH

theorem parseVal_str (f : Nat) (r : List Char) :
    parseVal (f + 1) ('"' :: r) = (parseStrBody r).map (fun p => (.str p.1, p.2)) := rfl

theorem parseVal_arr (f : Nat) (r : List Char) :
    parseVal (f + 1) ('[' :: r) =
      (match skipWs r with
       | ']' :: r2 => some (.arr [], r2)
       | _ => (parseItems f r).map (fun p => (.arr p.1, p.2))) := rfl

theorem parseItems_succ (f : Nat) (s : List Char) :
    parseItems (f + 1) s =
      (match parseVal f s with
       | none => none
       | some (v, rest) =>
         match skipWs rest with
         | ',' :: r2 => (parseItems f r2).map (fun p => (v :: p.1, p.2))
         | ']' :: r2 => some ([v], r2)
         | _ => none) := rfl

theorem digit_ne (c : Char) (h : isDigitCh c = true) :
    c ≠ ' ' ∧ c ≠ '\t' ∧ c ≠ '\n' ∧ c ≠ '\r' ∧ c ≠ 'n' ∧ c ≠ 't' ∧ c ≠ 'f' ∧
    c ≠ '"' ∧ c ≠ '[' ∧ c ≠ lcurly ∧ c ≠ '-' := by
  refine ⟨?_, ?_, ?_, ?_, ?_, ?_, ?_, ?_, ?_, ?_, ?_⟩ <;>
    (rintro rfl; exact absurd h (by decide))

theorem parseVal_natDigits (f : Nat) (a : Nat) (rest : List Char)
    (hrest : ∀ c, rest.head? = some c → isDigitCh c = false) :
    parseVal (f + 1) (natDigits a ++ rest) = some (.num (a : Int), rest) := by
  obtain ⟨h1, h2, _⟩ := natDigits_spec a
  cases hnd : natDigits a with
  | nil => exact absurd hnd h1
  | cons c ds =>
    have hc : isDigitCh c = true := h2 c (by rw [hnd]; simp)
    obtain ⟨n1, n2, n3, n4, n5, n6, n7, n8, n9, n10, n11⟩ := digit_ne c hc
    simp only [List.cons_append]
    unfold parseVal
    unfold skipWs
    rw [if_neg (by tauto)]
    dsimp only
    rw [if_neg n5, if_neg n6, if_neg n7, if_neg n8, if_neg n9, if_neg n10, if_neg n11, if_pos hc]
    rw [show c :: (ds ++ rest) = (c :: ds) ++ rest from rfl, ← hnd,
      parseDigits_natDigits a rest hrest]
    rfl

end TH

namespace TH

theorem parseVal_str2 (f : Nat) (hf : 1 ≤ f) (r : List Char) :
    parseVal f ('"' :: r) = (parseStrBody r).map (fun p => (.str p.1, p.2)) := by
  obtain ⟨g, rfl⟩ : ∃ g, f = g + 1 := ⟨f - 1, by omega⟩
  exact parseVal_str g r

theorem parseVal_arr2 (f g : Nat) (hf : f = g + 1) (r : List Char) :
    parseVal f ('[' :: r) =
      (match skipWs r with
       | ']' :: r2 => some (.arr [], r2)
       | _ => (parseItems g r).map (fun p => (.arr p.1, p.2))) := by
  subst hf
  exact parseVal_arr g r

theorem parseItems_step (f g : Nat) (hf : f = g + 1) (s : List Char) :
    parseItems f s =
      (match parseVal g s with
       | none => none
       | some (v, rest) =>
         match skipWs rest with
         | ',' :: r2 => (parseItems g r2).map (fun p => (v :: p.1, p.2))
         | ']' :: r2 => some ([v], r2)
         | _ => none) := by
  subst hf
  exact parseItems_succ g s

theorem parseVal_natDigits2 (f : Nat) (hf : 1 ≤ f) (a : Nat) (rest : List Char)
    (hrest : ∀ c, rest.head? = some c → isDigitCh c = false) :
    parseVal f (natDigits a ++ rest) = some (.num (a : Int), rest) := by
  obtain ⟨g, rfl⟩ : ∃ g, f = g + 1 := ⟨f - 1, by omega⟩
  exact parseVal_natDigits g a rest hrest

theorem parseItems_more (f g : Nat) (hf : f = g + 1) (s : List Char)
    (v : Json) (t : List Char) (h : parseVal g s = some (v, ',' :: t)) :
    parseItems f s = (parseItems g t).map (fun p => (v :: p.1, p.2)) := by
  rw [parseItems_step f g hf, h]
  rfl

theorem parseItems_last (f g : Nat) (hf : f = g + 1) (s : List Char)
    (v : Json) (t : List Char) (h : parseVal g s = some (v, ']' :: t)) :
    parseItems f s = some ([v], t) := by
  rw [parseItems_step f g hf, h]
  rfl

theorem parseVal_arr_quote (f g : Nat) (hf : f = g + 1) (r : List Char) :
    parseVal f ('[' :: '"' :: r) =
      (parseItems g ('"' :: r)).map (fun p => (.arr p.1, p.2)) := by
  rw [parseVal_arr2 f g hf]
  rfl

theorem parseVal_arr_lb (f g : Nat) (hf : f = g + 1) (r : List Char) :
    parseVal f ('[' :: '[' :: r) =
      (parseItems g ('[' :: r)).map (fun p => (.arr p.1, p.2)) := by
  rw [parseVal_arr2 f g hf]
  rfl

theorem jsonParse_descStr (w m p : List Char) (a b : Nat) :
    jsonParse (descStr w m p a b)
      = some (.arr [.arr [.str w, .str m, .str p,
          .num (a : Int), .num (b : Int)]]) := by
  have hb : ∀ c : Char, (']' :: ']' :: ([] : List Char)).head? = some c →
      isDigitCh c = false := by
    intro c hc
    simp only [List.head?_cons, Option.some.injEq] at hc
    subst hc
    decide
  have hcomma : ∀ (t : List Char) (c : Char),
      (',' :: t).head? = some c → isDigitCh c = false := by
    intro t c hc
    simp only [List.head?_cons, Option.some.injEq] at hc
    subst hc
    decide
  set L := (descStr w m p a b).length with hL
  have h7 : parseVal (L + 12) (natDigits b ++ ']' :: ']' :: []) =
      some (.num (b : Int), ']' :: ']' :: []) :=
    parseVal_natDigits2 _ (by omega) b _ hb
  have h6 : parseItems (L + 13) (natDigits b ++ ']' :: ']' :: []) =
      some ([.num (b : Int)], ']' :: []) :=
    parseItems_last (L + 13) (L + 12) rfl _ _ _ h7
  have hva : parseVal (L + 13) (natDigits a ++ ',' :: (natDigits b ++ ']' :: ']' :: [])) =
      some (.num (a : Int), ',' :: (natDigits b ++ ']' :: ']' :: [])) :=
    parseVal_natDigits2 _ (by omega) a _ (hcomma _)
  have h5 : parseItems (L + 14) (natDigits a ++ ',' :: (natDigits b ++ ']' :: ']' :: [])) =
      some ([.num (a : Int), .num (b : Int)], ']' :: []) := by
    rw [parseItems_more (L + 14) (L + 13) rfl _ _ _ hva, h6]
    rfl
  have hv4 : parseVal (L + 14)
      ('"' :: (escChars p ++ '"' :: ',' ::
        (natDigits a ++ ',' :: (natDigits b ++ ']' :: ']' :: [])))) =
      some (.str p,
        ',' :: (natDigits a ++ ',' :: (natDigits b ++ ']' :: ']' :: []))) := by
    rw [parseVal_str2 (L + 14) (by omega), parseStrBody_escChars]
    rfl
  have h4 : parseItems (L + 15)
      ('"' :: (escChars p ++ '"' :: ',' ::
        (natDigits a ++ ',' :: (natDigits b ++ ']' :: ']' :: [])))) =
      some ([.str p, .num (a : Int), .num (b : Int)], ']' :: []) := by
    rw [parseItems_more (L + 15) (L + 14) rfl _ _ _ hv4, h5]
    rfl
  have hv3 : parseVal (L + 15)
      ('"' :: (escChars m ++ '"' :: ',' :: '"' ::
        (escChars p ++ '"' :: ',' ::
          (natDigits a ++ ',' :: (natDigits b ++ ']' :: ']' :: []))))) =
      some (.str m, ',' :: '"' ::
        (escChars p ++ '"' :: ',' ::
          (natDigits a ++ ',' :: (natDigits b ++ ']' :: ']' :: [])))) := by
    rw [parseVal_str2 (L + 15) (by omega), parseStrBody_escChars]
    rfl
  have h3 : parseItems (L + 16)
      ('"' :: (escChars m ++ '"' :: ',' :: '"' ::
        (escChars p ++ '"' :: ',' ::
          (natDigits a ++ ',' :: (natDigits b ++ ']' :: ']' :: []))))) =
      some ([.str m, .str p, .num (a : Int), .num (b : Int)], ']' :: []) := by
    rw [parseItems_more (L + 16) (L + 15) rfl _ _ _ hv3, h4]
    rfl
  have hv2 : parseVal (L + 16)
      ('"' :: (escChars w ++ '"' :: ',' :: '"' ::
        (escChars m ++ '"' :: ',' :: '"' ::
          (escChars p ++ '"' :: ',' ::
            (natDigits a ++ ',' :: (natDigits b ++ ']' :: ']' :: [])))))) =
      some (.str w, ',' :: '"' ::
        (escChars m ++ '"' :: ',' :: '"' ::
          (escChars p ++ '"' :: ',' ::
            (natDigits a ++ ',' :: (natDigits b ++ ']' :: ']' :: []))))) := by
    rw [parseVal_str2 (L + 16) (by omega), parseStrBody_escChars]
    rfl
  have h2 : parseItems (L + 17)
      ('"' :: (escChars w ++ '"' :: ',' :: '"' ::
        (escChars m ++ '"' :: ',' :: '"' ::
          (escChars p ++ '"' :: ',' ::
            (natDigits a ++ ',' :: (natDigits b ++ ']' :: ']' :: [])))))) =
      some ([.str w, .str m, .str p, .num (a : Int), .num (b : Int)],
        ']' :: []) := by
    rw [parseItems_more (L + 17) (L + 16) rfl _ _ _ hv2, h3]
    rfl
  have h1 : parseVal (L + 18)
      ('[' :: '"' :: (escChars w ++ '"' :: ',' :: '"' ::
        (escChars m ++ '"' :: ',' :: '"' ::
          (escChars p ++ '"' :: ',' ::
            (natDigits a ++ ',' :: (natDigits b ++ ']' :: ']' :: [])))))) =
      some (.arr [.str w, .str m, .str p, .num (a : Int), .num (b : Int)],
        ']' :: []) := by
    rw [parseVal_arr_quote (L + 18) (L + 17) rfl, h2]
    rfl
  have hitems : parseItems (L + 19)
      ('[' :: '"' :: (escChars w ++ '"' :: ',' :: '"' ::
        (escChars m ++ '"' :: ',' :: '"' ::
          (escChars p ++ '"' :: ',' ::
            (natDigits a ++ ',' :: (natDigits b ++ ']' :: ']' :: [])))))) =
      some ([.arr [.str w, .str m, .str p, .num (a : Int), .num (b : Int)]],
        []) :=
    parseItems_last (L + 19) (L + 18) rfl _ _ _ h1
  have h0 : parseVal (L + 20) (descStr w m p a b) =
      some (.arr [.arr [.str w, .str m, .str p,
        .num (a : Int), .num (b : Int)]], []) := by
    rw [show descStr w m p a b = '[' :: '[' :: ('"' :: (escChars w ++ '"' :: ',' :: '"' ::
        (escChars m ++ '"' :: ',' :: '"' ::
          (escChars p ++ '"' :: ',' ::
            (natDigits a ++ ',' :: (natDigits b ++ ']' :: ']' :: [])))))) from rfl,
      parseVal_arr_lb (L + 20) (L + 19) rfl, hitems]
    rfl
  unfold jsonParse
  rw [← hL, h0]
  rfl


theorem stringify_desc (w m p : List Char) (a b : Nat) :
    (Json.arr [Json.arr [.str w, .str m, .str p, .num (a : Int),
      .num (b : Int)]]).stringify = descStr w m p a b := by
  simp only [Json.stringify, Json.stringifyItems, descStr, intChars_natCast,
    List.cons_append, List.nil_append, List.append_assoc]

theorem serializeHighlights_eval (root : Node) (l : List Nat) (ds : List Json)
    (hl : sortByDepth root (getHighlights root root.idOf) false = l)
    (hds : l.filterMap (fun i =>
      match root.find? i, root.pathTo i with
      | some hl2, some p =>
        some (Json.arr [.str (outerHTML hl2.wrapperOf), .str hl2.textContent,
          .str (joinPath p),
          .num (match root.prevSib? i with
                | some (.text _ v) => (v.length : Int)
                | _ => 0),
          .num (hl2.textContent.length : Int)])
      | _, _ => none) = ds) :
    serializeHighlights root = (Json.arr ds).stringify := by
  subst hds
  subst hl
  rfl

theorem deserializeHighlights_arr (d : Doc) (s : List Char) (hs : s ≠ [])
    (ds : List Json) (hp : jsonParse s = some (.arr ds)) :
    deserializeHighlights d s = .ok (ds.foldl (fun st hd =>
      match deserializationFn st.1 hd with
      | some (d2, i) => (d2, st.2.1 ++ [i], st.2.2)
      | none => (st.1, st.2.1, st.2.2 + 1)) (d, [], 0)) := by
  unfold deserializeHighlights
  rw [if_neg hs, hp]

theorem natDigits_zero : natDigits 0 = '0' :: [] := by
  rw [natDigits]
  decide

theorem natDigits_one : natDigits 1 = '1' :: [] := by
  rw [natDigits]
  decide

theorem serializeHighlights_docHlC1 (pre mid post : List Char) :
    serializeHighlights (docHlC1 pre mid post).root
      = descStr (outerHTML wC1) mid ('1' :: []) pre.length mid.length := by
  have hd1 : (docHlC1 pre mid post).root.descMarkers = [2] := by
    simp [docHlC1, mkDiv, mkSpan, cRed, Node.descMarkers, Node.descMarkersL]
  have hf0 : (docHlC1 pre mid post).root.find? ((docHlC1 pre mid post).root.idOf)
      = some ((docHlC1 pre mid post).root) := rfl
  have hg : getHighlights (docHlC1 pre mid post).root
      ((docHlC1 pre mid post).root.idOf) = [2] := by
    simp only [getHighlights, hf0, hd1]
    rfl
  have hs : sortByDepth (docHlC1 pre mid post).root [2] false = [2] := by
    unfold sortByDepth
    simp [List.mergeSort]
  rw [serializeHighlights_eval (docHlC1 pre mid post).root [2]
    [Json.arr [.str (outerHTML wC1), .str (mid ++ []),
      .str (natDigits 1), .num (pre.length : Int),
      .num ((mid ++ []).length : Int)]] (by rw [hg, hs]) (by exact rfl)]
  rw [natDigits_one, List.append_nil, stringify_desc]


theorem splitText_docFreshC1 (pre mid post : List Char) :
    (docFreshC1 pre mid post).splitText 1 pre.length
      = some (⟨mkDiv 0 [.text 1 pre, .text 2 (mid ++ post)], 3⟩, 2) := by
  unfold Doc.splitText
  have hf : (docFreshC1 pre mid post).root.find? 1
      = some (.text 1 (pre ++ mid ++ post)) := rfl
  simp only [hf]
  rw [if_pos (by simp)]
  rw [show (pre ++ mid ++ post).take pre.length = pre from by
        rw [List.append_assoc]
        exact List.take_left pre (mid ++ post),
      show (pre ++ mid ++ post).drop pre.length = mid ++ post from by
        rw [List.append_assoc]
        exact List.drop_left pre (mid ++ post)]
  rfl

theorem splitText_docFreshC1_snd (pre mid post : List Char) :
    Doc.splitText ⟨mkDiv 0 [.text 1 pre, .text 2 (mid ++ post)], 3⟩ 2 mid.length
      = some (⟨mkDiv 0 [.text 1 pre, .text 2 mid, .text 3 post], 4⟩, 3) := by
  unfold Doc.splitText
  have hf : Node.find? (mkDiv 0 [.text 1 pre, .text 2 (mid ++ post)]) 2
      = some (.text 2 (mid ++ post)) := rfl
  simp only [hf]
  rw [if_pos (by simp)]
  rw [List.take_left, List.drop_left]
  rfl

theorem deserializationFn_docFreshC1 (pre mid post : List Char)
    (hpre : pre ≠ []) (hpost : post ≠ []) :
    deserializationFn (docFreshC1 pre mid post)
      (.arr [.str (outerHTML wC1), .str mid, .str ('1' :: []),
             .num (pre.length : Int), .num (mid.length : Int)])
    = some (⟨mkDiv 0 [.text 1 pre, mkSpan 4 cRed [.text 2 mid], .text 3 post], 5⟩, 4) := by
  show ((if (pre.length : Int) < 0 ∨ (mid.length : Int) < 0 then none
    else
      match (docFreshC1 pre mid post).splitText 1 pre.length with
      | none => none
      | some (d1, hlId) =>
        match d1.splitText hlId mid.length with
        | none => none
        | some (d2, _) =>
          let r : Node := d2.root
          let r1 : Node := match r.nextSib? hlId with
            | some (.text nj nv) => if nv = [] then r.removeId nj else r
            | _ => r
          let r2 : Node := match r1.prevSib? hlId with
            | some (.text pj pv) => if pv = [] then r1.removeId pj else r1
            | _ => r1
          let e : EInfo := ⟨d2.nextId, wC1.tag, wC1.color, wC1.marked, wC1.cls⟩
          some (({ root := r2.wrapId hlId e, nextId := d2.nextId + 1 } : Doc),
            d2.nextId)) : Option (Doc × Nat))
    = some (⟨mkDiv 0 [.text 1 pre, mkSpan 4 cRed [.text 2 mid], .text 3 post], 5⟩, 4)
  rw [if_neg (by omega)]
  simp only [splitText_docFreshC1, splitText_docFreshC1_snd]
  have hns : Node.nextSib? (mkDiv 0 [.text 1 pre, .text 2 mid, .text 3 post]) 2
      = some (.text 3 post) := rfl
  have hps : Node.prevSib? (mkDiv 0 [.text 1 pre, .text 2 mid, .text 3 post]) 2
      = some (.text 1 pre) := rfl
  simp only [hns]
  rw [if_neg hpost]
  simp only [hps]
  rw [if_neg hpre]
  rfl

/-- **C1 counterexample.** Decoding a document's own serialization against the
SAME (already highlighted) tree state does not reconstruct the marker: the
`elIndex - 1` relocation step lands on the marker element instead of a text
node, the descriptor is skipped with one warning, and no highlight is
restored, although the document holds one marker. -/
theorem roundtrip_same_tree_cex :
    deserializeHighlights docOneMarker (serializeHighlights docOneMarker.root)
      = .ok (docOneMarker, [], 1)
    ∧ docOneMarker.root.markerCount = 1 := by
  constructor
  · have hd1 : docOneMarker.root.descMarkers = [1] := by
      simp [docOneMarker, mkDiv, mkSpan, cRed, Node.descMarkers, Node.descMarkersL]
    have hf0 : docOneMarker.root.find? (docOneMarker.root.idOf)
        = some docOneMarker.root := rfl
    have hg : getHighlights docOneMarker.root (docOneMarker.root.idOf) = [1] := by
      simp only [getHighlights, hf0, hd1]
      rfl
    have hs : sortByDepth docOneMarker.root [1] false = [1] := by
      unfold sortByDepth
      simp [List.mergeSort]
    have hser : serializeHighlights docOneMarker.root
        = descStr (outerHTML wC1) ('h' :: 'e' :: 'l' :: 'l' :: 'o' :: [])
            ('0' :: []) 0 5 := by
      rw [serializeHighlights_eval docOneMarker.root [1]
        [Json.arr [.str (outerHTML wC1),
          .str ('h' :: 'e' :: 'l' :: 'l' :: 'o' :: []),
          .str (natDigits 0), .num ((0 : Nat) : Int), .num ((5 : Nat) : Int)]]
        (by rw [hg, hs]) (by exact rfl)]
      rw [natDigits_zero, stringify_desc]
    rw [hser]
    rw [deserializeHighlights_arr _ _ (by simp [descStr]) _
      (jsonParse_descStr _ _ _ _ _)]
    rfl
  · rfl


/-- **C1 (amended).** The serialize/deserialize round trip is correct against
the PRISTINE tree state (the document as it was before highlighting, which
is what the deserializer's text-sibling relocation heuristic expects), not
against the same highlighted tree.  Serializing the highlighted fixture and
decoding into its pristine original reconstructs one marker with no
warnings; the reconstructed marker's text content equals the original
marker's, and the surrounding text is restored in the same relative
order. -/
theorem serialize_roundtrip_pristine (pre mid post : List Char)
    (hpre : pre ≠ []) (hpost : post ≠ []) :
    deserializeHighlights (docFreshC1 pre mid post)
        (serializeHighlights (docHlC1 pre mid post).root)
      = .ok (⟨mkDiv 0 [.text 1 pre, mkSpan 4 cRed [.text 2 mid], .text 3 post], 5⟩,
             [4], 0)
    ∧ (mkSpan 4 cRed [.text 2 mid]).textContent
        = (mkSpan 2 cRed [.text 3 mid]).textContent
    ∧ (mkDiv 0 [.text 1 pre, mkSpan 4 cRed [.text 2 mid], .text 3 post]).textContent
        = (docHlC1 pre mid post).root.textContent := by
  refine ⟨?_, rfl, rfl⟩
  rw [serializeHighlights_docHlC1]
  rw [deserializeHighlights_arr _ _ (by simp [descStr]) _
    (jsonParse_descStr _ _ _ _ _)]
  simp only [List.foldl_cons, List.foldl_nil,
    deserializationFn_docFreshC1 pre mid post hpre hpost]
  rfl

theorem serialize_roundtrip_pristine_witness :
    ('x' :: [] : List Char) ≠ [] ∧ ('y' :: [] : List Char) ≠ [] ∧
    deserializeHighlights (docFreshC1 ('x' :: []) ('m' :: []) ('y' :: []))
        (serializeHighlights (docHlC1 ('x' :: []) ('m' :: []) ('y' :: [])).root)
      = .ok (⟨mkDiv 0 [.text 1 ('x' :: []), mkSpan 4 cRed [.text 2 ('m' :: [])],
               .text 3 ('y' :: [])], 5⟩, [4], 0) :=
  ⟨by simp, by simp,
   (serialize_roundtrip_pristine ('x' :: []) ('m' :: []) ('y' :: [])
     (by simp) (by simp)).1⟩


theorem c4_sort : sortByDepth elC4 [1, 2] true = [2, 1] := by
  unfold sortByDepth
  simp [List.mergeSort, elC4, mkDiv, mkSpan, Node.depthOf, Node.depthOfL]

/-- **C4 counterexample.** Normalization does NOT complete on every
well-formed marker set: on a well-formed document whose two markers are
nested with different colors, the flatten pass moves the inner marker out,
removes the emptied outer marker from the tree, and then dereferences the
removed marker's null parent — a thrown TypeError, not convergence. -/
theorem normalize_crash_cex :
    normalizeHighlights elC4 (getHighlights elC4 elC4.idOf)
      = .error ("TypeError: cannot read previousSibling of null".toList)
    ∧ elC4.idList.Nodup
    ∧ getHighlights elC4 elC4.idOf = [1, 2] := by
  have hd : elC4.descMarkers = [1, 2] := by
    simp [elC4, mkDiv, mkSpan, cRed, cBlue, Node.descMarkers, Node.descMarkersL]
  have hf0 : elC4.find? elC4.idOf = some elC4 := rfl
  have hg : getHighlights elC4 elC4.idOf = [1, 2] := by
    simp only [getHighlights, hf0, hd]
    rfl
  refine ⟨?_, by decide, hg⟩
  rw [hg]
  unfold normalizeHighlights flattenNestedHighlights
  simp only [c4_sort]
  rfl


theorem weightL_append (a b : List Node) :
    Node.weightL (a ++ b) = Node.weightL a + Node.weightL b := by
  induction a with
  | nil => simp [Node.weightL]
  | cons n ns ih => simp [Node.weightL, ih]; omega

theorem dsumL_append (a b : List Node) :
    Node.dsumL (a ++ b) = Node.dsumL a + Node.dsumL b := by
  induction a with
  | nil => simp [Node.dsumL]
  | cons n ns ih => simp [Node.dsumL, ih]; omega

theorem weight_pos (n : Node) : 1 ≤ n.weight := by
  cases n with
  | text j v => simp [Node.weight]
  | elem e cs => simp [Node.weight]

theorem depthOf_self (n : Node) : n.depthOf n.idOf = some 0 := by
  cases n with
  | text j v => simp [Node.depthOf, Node.idOf]
  | elem e cs => simp [Node.depthOf, Node.idOf]

theorem depthOf_not_mem :
    (∀ n : Node, ∀ i, i ∉ n.idList → n.depthOf i = none) ∧
    (∀ l : List Node, ∀ i, i ∉ Node.idListL l → Node.depthOfL l i = none) := by
  refine nodes_ind ?_ ?_ ?_ ?_
  · intro j v i h
    simp only [Node.idList, List.mem_singleton] at h
    simp [Node.depthOf, Ne.symm h]
  · intro e cs ih i h
    simp only [Node.idList, List.mem_cons] at h
    push_neg at h
    simp [Node.depthOf, Ne.symm h.1, ih i h.2]
  · intro i _
    rfl
  · intro n ns ihn ihl i h
    simp only [Node.idListL, List.mem_append] at h
    push_neg at h
    simp [Node.depthOfL, ihn i h.1, ihl i h.2]

theorem depthOfL_append (a b : List Node) (i : Nat) :
    Node.depthOfL (a ++ b) i = (Node.depthOfL a i).or (Node.depthOfL b i) := by
  induction a with
  | nil => simp [Node.depthOfL]
  | cons n ns ih =>
    simp only [List.cons_append, Node.depthOfL]
    cases n.depthOf i with
    | some d => rfl
    | none =>
      show Node.depthOfL (ns ++ b) i = (Node.depthOfL ns i).or (Node.depthOfL b i)
      exact ih


theorem measure_context :
    ∀ n : Node, n.idList.Nodup → ∀ p pe cs, n.find? p = some (.elem pe cs) →
      ∃ K, n.depthOf p = some K ∧
        ∀ ncs,
          (n.withChildrenAt p ncs).weight + Node.weightL cs
            = n.weight + Node.weightL ncs ∧
          (n.withChildrenAt p ncs).dsum + Node.dsumL cs + (K + 1) * Node.weightL cs
            = n.dsum + Node.dsumL ncs + (K + 1) * Node.weightL ncs := by
  refine node_ind
    (Q := fun l => (Node.idListL l).Nodup → ∀ p pe cs, Node.findL? l p = some (.elem pe cs) →
      ∃ K, Node.depthOfL l p = some K ∧
        ∀ ncs,
          Node.weightL (Node.withChildrenAtL l p ncs) + Node.weightL cs
            = Node.weightL l + Node.weightL ncs ∧
          Node.dsumL (Node.withChildrenAtL l p ncs) + Node.dsumL cs
              + (K + 1) * Node.weightL cs
            = Node.dsumL l + Node.dsumL ncs + (K + 1) * Node.weightL ncs) ?_ ?_ ?_ ?_
  · intro j v _ p pe cs h
    simp only [Node.find?] at h
    split at h <;> cases h
  · intro e cs0 ih hnd p pe cs h
    simp only [Node.find?] at h
    split at h
    next hep =>
      cases h
      refine ⟨0, by simp [Node.depthOf, hep], ?_⟩
      intro ncs
      constructor
      · simp [Node.withChildrenAt, hep, Node.weight]
        omega
      · simp [Node.withChildrenAt, hep, Node.dsum]
        ring
    next hep =>
      simp only [Node.idList] at hnd
      obtain ⟨K, hdep, hall⟩ := ih (List.Nodup.of_cons hnd) p pe cs h
      refine ⟨K + 1, by simp [Node.depthOf, hep, hdep], ?_⟩
      intro ncs
      obtain ⟨hw, hd⟩ := hall ncs
      constructor
      · simp only [Node.withChildrenAt, hep, if_false, Node.weight]
        omega
      · simp only [Node.withChildrenAt, hep, if_false, Node.dsum]
        have e1 : (K + 1 + 1) * Node.weightL cs
            = (K + 1) * Node.weightL cs + Node.weightL cs := by ring
        have e2 : (K + 1 + 1) * Node.weightL ncs
            = (K + 1) * Node.weightL ncs + Node.weightL ncs := by ring
        rw [e1, e2]
        linarith
  · intro _ p pe cs h
    cases h
  · intro n ns ihn ihl hnd p pe cs h
    simp only [Node.idListL] at hnd
    have hnd1 : n.idList.Nodup := (List.nodup_append.mp hnd).1
    have hnd2 : (Node.idListL ns).Nodup := (List.nodup_append.mp hnd).2.1
    have hdisj := (List.nodup_append.mp hnd).2.2
    simp only [Node.findL?] at h
    split at h
    next m heq =>
      cases h
      obtain ⟨K, hdep, hall⟩ := ihn hnd1 p pe cs heq
      have hpmem : p ∈ n.idList := (find?_isSome_iff n p).mp (by simp [heq])
      have hpnot : p ∉ Node.idListL ns := fun hc => hdisj hpmem hc
      refine ⟨K, by simp [Node.depthOfL, hdep], ?_⟩
      intro ncs
      obtain ⟨hw, hd⟩ := hall ncs
      rw [show Node.withChildrenAtL (n :: ns) p ncs
          = n.withChildrenAt p ncs :: Node.withChildrenAtL ns p ncs from rfl,
        withChildrenAt_not_mem.2 ns p ncs hpnot]
      constructor
      · simp only [Node.weightL]
        omega
      · simp only [Node.dsumL]
        linarith
    next heq =>
      obtain ⟨K, hdep, hall⟩ := ihl hnd2 p pe cs h
      have hpnot : p ∉ n.idList := by
        intro hc
        have h4 := (find?_isSome_iff n p).mpr hc
        rw [heq] at h4
        simp at h4
      refine ⟨K, ?_, ?_⟩
      · simp [Node.depthOfL, depthOf_not_mem.1 n p hpnot, hdep]
      intro ncs
      obtain ⟨hw, hd⟩ := hall ncs
      rw [show Node.withChildrenAtL (n :: ns) p ncs
          = n.withChildrenAt p ncs :: Node.withChildrenAtL ns p ncs from rfl,
        withChildrenAt_not_mem.1 n p ncs hpnot]
      constructor
      · simp only [Node.weightL]
        omega
      · simp only [Node.dsumL]
        linarith


theorem find?_ids :
    (∀ n : Node, ∀ i m, n.find? i = some m → ∀ x ∈ m.idList, x ∈ n.idList) ∧
    (∀ l : List Node, ∀ i m, Node.findL? l i = some m →
      ∀ x ∈ m.idList, x ∈ Node.idListL l) := by
  refine nodes_ind ?_ ?_ ?_ ?_
  · intro j v i m h x hx
    simp only [Node.find?] at h
    split at h
    · cases h; exact hx
    · cases h
  · intro e cs ih i m h x hx
    simp only [Node.find?] at h
    split at h
    · cases h; exact hx
    · simp only [Node.idList, List.mem_cons]
      exact Or.inr (ih i m h x hx)
  · intro i m h; cases h
  · intro n ns ihn ihl i m h x hx
    simp only [Node.findL?] at h
    split at h
    next m2 heq =>
      cases h
      exact List.mem_append.mpr (Or.inl (ihn i m heq x hx))
    next =>
      exact List.mem_append.mpr (Or.inr (ihl i m h x hx))

theorem depthOfL_self_mem (l : List Node) (hnd : (Node.idListL l).Nodup)
    (c : Node) (hc : c ∈ l) : Node.depthOfL l c.idOf = some 0 := by
  induction l with
  | nil => cases hc
  | cons n ns ih =>
    simp only [Node.idListL, List.nodup_append] at hnd
    rcases List.mem_cons.mp hc with rfl | hc2
    · simp [Node.depthOfL, depthOf_self]
    · have hnot : c.idOf ∉ n.idList := fun hm =>
        hnd.2.2 hm (idListL_mem_of_member hc2 (idOf_mem_idList c))
      simp [Node.depthOfL, depthOf_not_mem.1 n c.idOf hnot, ih hnd.2.1 hc2]

theorem depthOf_withChildrenAt :
    (∀ n : Node, n.idList.Nodup → ∀ p pe cs, n.find? p = some (.elem pe cs) →
      ∀ ncs j, Node.depthOfL ncs j = Node.depthOfL cs j →
        (n.withChildrenAt p ncs).depthOf j = n.depthOf j) ∧
    (∀ l : List Node, (Node.idListL l).Nodup →
      ∀ p pe cs, Node.findL? l p = some (.elem pe cs) →
      ∀ ncs j, Node.depthOfL ncs j = Node.depthOfL cs j →
        Node.depthOfL (Node.withChildrenAtL l p ncs) j = Node.depthOfL l j) := by
  refine nodes_ind ?_ ?_ ?_ ?_
  · intro j v _ p pe cs h
    simp only [Node.find?] at h
    split at h <;> cases h
  · intro e cs0 ih hnd p pe cs h ncs j hj
    simp only [Node.find?] at h
    split at h
    next hep =>
      cases h
      simp only [Node.withChildrenAt, hep, if_true, Node.depthOf, hj]
    next hep =>
      simp only [Node.idList] at hnd
      have hrec := ih (List.Nodup.of_cons hnd) p pe cs h ncs j hj
      simp only [Node.withChildrenAt, hep, if_false, Node.depthOf, hrec]
  · intro _ p pe cs h; cases h
  · intro n ns ihn ihl hnd p pe cs h ncs j hj
    simp only [Node.idListL, List.nodup_append] at hnd
    simp only [Node.findL?] at h
    split at h
    next m heq =>
      cases h
      have hpmem : p ∈ n.idList := (find?_isSome_iff n p).mp (by simp [heq])
      have hpnot : p ∉ Node.idListL ns := fun hc => hnd.2.2 hpmem hc
      rw [show Node.withChildrenAtL (n :: ns) p ncs
          = n.withChildrenAt p ncs :: Node.withChildrenAtL ns p ncs from rfl,
        withChildrenAt_not_mem.2 ns p ncs hpnot]
      simp only [Node.depthOfL, ihn hnd.1 p pe cs heq ncs j hj]
    next heq =>
      have hpnot : p ∉ n.idList := by
        intro hc
        have h4 := (find?_isSome_iff n p).mpr hc
        rw [heq] at h4
        simp at h4
      rw [show Node.withChildrenAtL (n :: ns) p ncs
          = n.withChildrenAt p ncs :: Node.withChildrenAtL ns p ncs from rfl,
        withChildrenAt_not_mem.1 n p ncs hpnot]
      simp only [Node.depthOfL, ihl hnd.2.1 p pe cs h ncs j hj]

theorem depthOf_child :
    (∀ n : Node, n.idList.Nodup → ∀ p pe cs, n.find? p = some (.elem pe cs) →
      ∀ c ∈ cs, ∃ K, n.depthOf p = some K ∧ n.depthOf c.idOf = some (K + 1)) ∧
    (∀ l : List Node, (Node.idListL l).Nodup →
      ∀ p pe cs, Node.findL? l p = some (.elem pe cs) →
      ∀ c ∈ cs, ∃ K, Node.depthOfL l p = some K ∧
        Node.depthOfL l c.idOf = some (K + 1)) := by
  refine nodes_ind ?_ ?_ ?_ ?_
  · intro j v _ p pe cs h
    simp only [Node.find?] at h
    split at h <;> cases h
  · intro e cs0 ih hnd p pe cs h c hc
    simp only [Node.idList] at hnd
    have hnd1 := List.nodup_cons.mp hnd
    simp only [Node.find?] at h
    split at h
    next hep =>
      cases h
      have hcm : c.idOf ∈ Node.idListL cs0 := mem_idListL_of_mem hc
      have hne : e.id ≠ c.idOf := fun hcontra => hnd1.1 (hcontra ▸ hcm)
      refine ⟨0, by simp [Node.depthOf, hep], ?_⟩
      simp [Node.depthOf, hne, depthOfL_self_mem cs0 hnd1.2 c hc]
    next hep =>
      obtain ⟨K, hP, hC⟩ := ih hnd1.2 p pe cs h c hc
      have hcin : c.idOf ∈ (Node.elem pe cs).idList := by
        simp only [Node.idList, List.mem_cons]
        exact Or.inr (mem_idListL_of_mem hc)
      have hcm : c.idOf ∈ Node.idListL cs0 := find?_ids.2 cs0 p (.elem pe cs) h c.idOf hcin
      have hne : e.id ≠ c.idOf := fun hcontra => hnd1.1 (hcontra ▸ hcm)
      exact ⟨K + 1, by simp [Node.depthOf, hep, hP], by simp [Node.depthOf, hne, hC]⟩
  · intro _ p pe cs h; cases h
  · intro n ns ihn ihl hnd p pe cs h c hc
    simp only [Node.idListL, List.nodup_append] at hnd
    simp only [Node.findL?] at h
    split at h
    next m heq =>
      cases h
      obtain ⟨K, hP, hC⟩ := ihn hnd.1 p pe cs heq c hc
      exact ⟨K, by simp [Node.depthOfL, hP], by simp [Node.depthOfL, hC]⟩
    next heq =>
      obtain ⟨K, hP, hC⟩ := ihl hnd.2.1 p pe cs h c hc
      have hpnot : p ∉ n.idList := by
        intro hcon
        have h4 := (find?_isSome_iff n p).mpr hcon
        rw [heq] at h4
        simp at h4
      have hcnot : c.idOf ∉ n.idList := by
        intro hcon
        have hcin : c.idOf ∈ (Node.elem pe cs).idList := by
          simp only [Node.idList, List.mem_cons]
          exact Or.inr (mem_idListL_of_mem hc)
        exact hnd.2.2 hcon (find?_ids.2 ns p (.elem pe cs) h c.idOf hcin)
      refine ⟨K, ?_, ?_⟩
      · simp [Node.depthOfL, depthOf_not_mem.1 n p hpnot, hP]
      · simp [Node.depthOfL, depthOf_not_mem.1 n c.idOf hcnot, hC]


theorem replaceId_idOf (n : Node) (x : Nat) (rep : List Node) :
    (n.replaceId x rep).idOf = n.idOf := by
  cases n <;> rfl

theorem replace_ctx (root : Node) (hnd : root.idList.Nodup) (x : Nat) (m : Node)
    (hf : root.find? x = some m) (hx : x ≠ root.idOf) (rep : List Node) :
    ∃ D L1 L2,
      1 ≤ D ∧
      root.depthOf x = some D ∧
      root.idList = L1 ++ (m.idList ++ L2) ∧
      (root.replaceId x rep).idList = L1 ++ (Node.idListL rep ++ L2) ∧
      (root.replaceId x rep).weight + m.weight = root.weight + Node.weightL rep ∧
      (root.replaceId x rep).dsum + m.dsum + D * m.weight
        = root.dsum + Node.dsumL rep + D * Node.weightL rep ∧
      (∀ j, j ∉ m.idList → j ∉ Node.idListL rep →
        (root.replaceId x rep).depthOf j = root.depthOf j) := by
  obtain ⟨pid, pe, cs, pre, post, hfp, hcs⟩ := parent_decomp.1 root hnd x m hf hx
  subst hcs
  have hm_id : m.idOf = x := find?_idOf root x m hf
  have hmem : m ∈ pre ++ m :: post := by simp
  have hloc : root.replaceId x rep
      = root.withChildrenAt pid (Node.replaceIdL (pre ++ m :: post) x rep) := by
    have h1 := replaceId_localize.1 root hnd pid pe (pre ++ m :: post) hfp m hmem rep
    rw [hm_id] at h1
    exact h1
  obtain ⟨tpre, tpost, ipre, ipost, _, hidl, hall⟩ :=
    withChildrenAt_context root hnd pid pe (pre ++ m :: post) hfp
  have hndcs : (Node.idListL (pre ++ m :: post)).Nodup := by
    rw [hidl] at hnd
    exact ((hnd.of_append_right).of_cons).of_append_left
  have hsplice : Node.replaceIdL (pre ++ m :: post) x rep = pre ++ rep ++ post := by
    rw [← hm_id]
    exact replaceIdL_splice pre m post rep hndcs
  rw [hsplice] at hloc
  obtain ⟨K, hdepP, hallM⟩ := measure_context root hnd pid pe (pre ++ m :: post) hfp
  obtain ⟨hw, hd⟩ := hallM (pre ++ rep ++ post)
  obtain ⟨g1, g2, g3⟩ := hall (pre ++ rep ++ post)
  obtain ⟨K2, hP2, hC2⟩ := depthOf_child.1 root hnd pid pe (pre ++ m :: post) hfp m hmem
  have hK2 : K2 = K := by
    rw [hdepP] at hP2
    exact (Option.some.inj hP2).symm
  rw [hm_id, hK2] at hC2
  refine ⟨K + 1, ipre ++ pe.id :: Node.idListL pre, Node.idListL post ++ ipost,
    by omega, hC2, ?_, ?_, ?_, ?_, ?_⟩
  · rw [hidl, idListL_append]
    simp [Node.idListL, List.append_assoc]
  · rw [hloc, g2, idListL_append, idListL_append]
    simp [List.append_assoc]
  · rw [hloc]
    rw [weightL_append, weightL_append, weightL_append] at hw
    simp only [Node.weightL] at hw
    omega
  · rw [hloc]
    rw [weightL_append, weightL_append, weightL_append,
      dsumL_append, dsumL_append, dsumL_append] at hd
    simp only [Node.weightL, Node.dsumL] at hd
    have e1 : (K + 1) * (Node.weightL pre + (m.weight + Node.weightL post))
        = (K + 1) * Node.weightL pre + (K + 1) * m.weight
          + (K + 1) * Node.weightL post := by ring
    have e2 : (K + 1) * (Node.weightL pre + Node.weightL rep + Node.weightL post)
        = (K + 1) * Node.weightL pre + (K + 1) * Node.weightL rep
          + (K + 1) * Node.weightL post := by ring
    rw [e1, e2] at hd
    linarith
  · intro j hjm hjrep
    rw [hloc]
    refine depthOf_withChildrenAt.1 root hnd pid pe (pre ++ m :: post) hfp
      (pre ++ rep ++ post) j ?_
    rw [depthOfL_append, depthOfL_append, depthOfL_append]
    rw [show Node.depthOfL (m :: post) j
        = (Node.depthOfL [m] j).or (Node.depthOfL post j) from by
      simp only [Node.depthOfL]
      cases m.depthOf j <;> rfl]
    rw [show Node.depthOfL [m] j = none from by
      simp [Node.depthOfL, depthOf_not_mem.1 m j hjm]]
    rw [depthOf_not_mem.2 rep j hjrep]
    cases Node.depthOfL pre j <;> rfl


theorem ids_replaceId_sub :
    (∀ n : Node, ∀ x, ∀ j, j ∈ (n.replaceId x []).idList → j ∈ n.idList) ∧
    (∀ l : List Node, ∀ x, ∀ j, j ∈ Node.idListL (Node.replaceIdL l x []) →
      j ∈ Node.idListL l) := by
  refine nodes_ind ?_ ?_ ?_ ?_
  · intro j v x i h
    exact h
  · intro e cs ih x j h
    simp only [Node.replaceId, Node.idList, List.mem_cons] at h ⊢
    rcases h with h | h
    · exact Or.inl h
    · exact Or.inr (ih x j h)
  · intro x j h
    exact h
  · intro n ns ihn ihl x j h
    simp only [Node.replaceIdL] at h
    split at h
    · simp only [List.nil_append] at h
      simp only [Node.idListL, List.mem_append]
      exact Or.inr h
    · simp only [Node.idListL, List.mem_append] at h ⊢
      rcases h with h | h
      · exact Or.inl (ihn x j h)
      · exact Or.inr (ihl x j h)

theorem replaceId_rootId (n : Node) (hnd : n.idList.Nodup) (rep : List Node) :
    n.replaceId n.idOf rep = n := by
  cases n with
  | text j v => rfl
  | elem e cs =>
    simp only [Node.idOf, Node.idList] at hnd ⊢
    have h1 := (List.nodup_cons.mp hnd).1
    simp [Node.replaceId, replaceId_not_mem.2 cs e.id rep h1]

theorem idListL_pairwise (l : List Node) (hnd : (Node.idListL l).Nodup) :
    l.Pairwise (fun a b => ∀ x ∈ a.idList, x ∉ b.idList) := by
  induction l with
  | nil => exact List.Pairwise.nil
  | cons n ns ih =>
    simp only [Node.idListL, List.nodup_append] at hnd
    refine List.Pairwise.cons ?_ (ih hnd.2.1)
    intro b hb x hx
    intro hxb
    exact hnd.2.2 hx (idListL_mem_of_member hb hxb)

theorem pos_disjoint (l : List Node) (hnd : (Node.idListL l).Nodup)
    (i j : Nat) (hij : i ≠ j) (a b : Node)
    (ha : l[i]? = some a) (hb : l[j]? = some b) :
    ∀ x ∈ a.idList, x ∉ b.idList := by
  have hpw := idListL_pairwise l hnd
  rw [List.pairwise_iff_getElem] at hpw
  have hi : i < l.length := (List.getElem?_eq_some_iff.mp ha).1
  have hj : j < l.length := (List.getElem?_eq_some_iff.mp hb).1
  have hav : l[i] = a := by
    have := (List.getElem?_eq_some_iff.mp ha).2
    exact this
  have hbv : l[j] = b := by
    have := (List.getElem?_eq_some_iff.mp hb).2
    exact this
  rcases Nat.lt_or_ge i j with hlt | hge
  · have := hpw i j hi hj hlt
    rw [hav, hbv] at this
    exact this
  · have hjle : j < i := by omega
    have := hpw j i hj hi hjle
    rw [hav, hbv] at this
    intro x hx hxb
    exact this x hxb hx


theorem find?_replaceId_other :
    (∀ n : Node, n.idList.Nodup → ∀ x m, n.find? x = some m →
      ∀ t tn, n.find? t = some tn → t ∉ m.idList →
        (n.replaceId x []).find? t = some (tn.replaceId x [])) ∧
    (∀ l : List Node, (Node.idListL l).Nodup → ∀ x m, Node.findL? l x = some m →
      ∀ t tn, Node.findL? l t = some tn → t ∉ m.idList →
        Node.findL? (Node.replaceIdL l x []) t = some (tn.replaceId x [])) := by
  refine nodes_ind ?_ ?_ ?_ ?_
  · intro j v _ x m hx t tn ht htm
    simp only [Node.find?] at hx ht
    split at hx
    · cases hx
      split at ht
      · cases ht
        exact absurd (by simp [Node.idList]; omega) htm
      · cases ht
    · cases hx
  · intro e cs ih hnd x m hx t tn ht htm
    simp only [Node.idList] at hnd
    have hnd1 := List.nodup_cons.mp hnd
    simp only [Node.find?] at hx ht
    split at hx
    next hex =>
      cases hx
      exact absurd ((find?_isSome_iff _ t).mp (by simp [Node.find?, ht])) htm
    next hex =>
      split at ht
      next het =>
        cases ht
        simp only [Node.replaceId, Node.find?, het, if_true]
      next het =>
        have hrec := ih hnd1.2 x m hx t tn ht htm
        simp only [Node.replaceId, Node.find?, het, if_false, hrec]
  · intro _ x m hx
    cases hx
  · intro n ns ihn ihl hnd x m hx t tn ht htm
    simp only [Node.idListL, List.nodup_append] at hnd
    simp only [Node.findL?] at hx ht
    simp only [Node.replaceIdL]
    by_cases hnx : n.idOf = x
    · rw [if_pos hnx]
      have hfn : n.find? x = some n := hnx ▸ find?_self n
      have hmn : m = n := by
        simp only [hfn] at hx
        exact (Option.some.inj hx).symm
      subst hmn
      have htn : t ∉ m.idList := htm
      split at ht
      next m2 heq =>
        exact absurd ((find?_isSome_iff m t).mp (by simp [heq])) htn
      next heq =>
        simp only [List.nil_append]
        rw [ht]
        have hxtn : x ∉ tn.idList := by
          intro hc
          have h1 := find?_ids.2 ns t tn ht x hc
          have hxm : x ∈ m.idList := by
            rw [← hnx]
            exact idOf_mem_idList m
          exact (List.disjoint_right.mp hnd.2.2) h1 hxm
        rw [replaceId_not_mem.1 tn x [] hxtn]
    · rw [if_neg hnx]
      split at hx
      next m2 heq =>
        cases hx
        split at ht
        next tn2 heq2 =>
          cases ht
          simp only [Node.findL?, ihn hnd.1 x m heq t tn heq2 htm]
        next heq2 =>
          have hxn : x ∈ n.idList := (find?_isSome_iff n x).mp (by simp [heq])
          have hxtn : x ∉ tn.idList := by
            intro hc
            exact (List.disjoint_left.mp hnd.2.2) hxn
              (find?_ids.2 ns t tn ht x hc)
          have hrn : (n.replaceId x []).find? t = none := by
            rw [← Option.not_isSome_iff_eq_none]
            intro hc
            have h1 := (find?_isSome_iff _ t).mp hc
            have h2 := ids_replaceId_sub.1 n x t h1
            have h3 := (find?_isSome_iff n t).mpr h2
            rw [heq2] at h3
            simp at h3
          simp only [Node.findL?, hrn]
          rw [replaceId_not_mem.2 ns x [] (fun hc =>
            (List.disjoint_left.mp hnd.2.2) hxn hc), ht,
            replaceId_not_mem.1 tn x [] hxtn]
      next heq =>
        have hxnot : x ∉ n.idList := by
          intro hc
          have h4 := (find?_isSome_iff n x).mpr hc
          rw [heq] at h4
          simp at h4
        rw [replaceId_not_mem.1 n x [] hxnot]
        split at ht
        next tn2 heq2 =>
          cases ht
          have hxtn : x ∉ tn.idList := fun hc => hxnot (find?_ids.1 n t tn heq2 x hc)
          simp only [Node.findL?, heq2]
          rw [replaceId_not_mem.1 tn x [] hxtn]
        next heq2 =>
          simp only [Node.findL?, heq2]
          exact ihl hnd.2.1 x m hx t tn ht htm


theorem replace_insert_facts (root : Node) (hnd : root.idList.Nodup) (x : Nat)
    (m : Node) (hf : root.find? x = some m) (hx : x ≠ root.idOf)
    (rep : List Node) (hnd2 : (root.replaceId x rep).idList.Nodup) :
    ∀ c ∈ rep, (root.replaceId x rep).find? c.idOf = some c ∧
      ∀ D, root.depthOf x = some D →
        (root.replaceId x rep).depthOf c.idOf = some D := by
  obtain ⟨pid, pe, cs, pre, post, hfp, hcs⟩ := parent_decomp.1 root hnd x m hf hx
  subst hcs
  have hm_id : m.idOf = x := find?_idOf root x m hf
  have hmem : m ∈ pre ++ m :: post := by simp
  have hloc : root.replaceId x rep
      = root.withChildrenAt pid (Node.replaceIdL (pre ++ m :: post) x rep) := by
    have h1 := replaceId_localize.1 root hnd pid pe (pre ++ m :: post) hfp m hmem rep
    rw [hm_id] at h1
    exact h1
  obtain ⟨tpre, tpost, ipre, ipost, _, hidl, hall⟩ :=
    withChildrenAt_context root hnd pid pe (pre ++ m :: post) hfp
  have hndcs : (Node.idListL (pre ++ m :: post)).Nodup := by
    rw [hidl] at hnd
    exact ((hnd.of_append_right).of_cons).of_append_left
  have hsplice : Node.replaceIdL (pre ++ m :: post) x rep = pre ++ rep ++ post := by
    rw [← hm_id]
    exact replaceIdL_splice pre m post rep hndcs
  rw [hsplice] at hloc
  obtain ⟨g1, g2, g3⟩ := hall (pre ++ rep ++ post)
  rw [← hloc] at g2 g3
  intro c hc
  have hcmem : c ∈ pre ++ rep ++ post := by
    simp only [List.append_assoc, List.mem_append]
    exact Or.inr (Or.inl hc)
  have hres := child_lift (root.replaceId x rep) hnd2 pid pe (pre ++ rep ++ post) g3 c hcmem
  refine ⟨hres.1, ?_⟩
  intro D hD
  obtain ⟨K1, hP1, hC1⟩ :=
    depthOf_child.1 (root.replaceId x rep) hnd2 pid pe (pre ++ rep ++ post) g3 c hcmem
  obtain ⟨K0, hP0, hC0⟩ := depthOf_child.1 root hnd pid pe (pre ++ m :: post) hfp m hmem
  rw [hm_id] at hC0
  rw [hD] at hC0
  have hDK0 : D = K0 + 1 := Option.some.inj hC0
  have hpe : pe.id = pid := find?_idOf root pid _ hfp
  have hpid_not_cs : pid ∉ Node.idListL (pre ++ m :: post) := by
    rw [hidl] at hnd
    intro hc2
    have h1 := hnd.of_append_right
    rw [List.nodup_cons] at h1
    refine h1.1 ?_
    rw [hpe]
    exact List.mem_append.mpr (Or.inl hc2)
  have hpid_not_ncs : pid ∉ Node.idListL (pre ++ rep ++ post) := by
    rw [g2] at hnd2
    intro hc2
    have h1 := hnd2.of_append_right
    rw [List.nodup_cons] at h1
    refine h1.1 ?_
    rw [hpe]
    exact List.mem_append.mpr (Or.inl hc2)
  have hstab : (root.replaceId x rep).depthOf pid = root.depthOf pid := by
    rw [hloc]
    refine depthOf_withChildrenAt.1 root hnd pid pe (pre ++ m :: post) hfp
      (pre ++ rep ++ post) pid ?_
    rw [depthOf_not_mem.2 _ pid hpid_not_ncs, depthOf_not_mem.2 _ pid hpid_not_cs]
  have hK1K0 : K1 = K0 := by
    rw [hstab, hP0] at hP1
    exact (Option.some.inj hP1).symm
  rw [hC1, hK1K0, hDK0]


theorem childIdx?_member (cs : List Node) (z k : Nat) (h : childIdx? cs z = some k) :
    ∃ mz, cs[k]? = some mz ∧ mz.idOf = z := by
  unfold childIdx? at h
  rw [List.findIdx?_eq_some_iff_getElem] at h
  obtain ⟨hk, hpred, _⟩ := h
  refine ⟨cs[k], List.getElem?_eq_getElem hk, ?_⟩
  exact of_decide_eq_true hpred

theorem sib_pos_next (root : Node) (z : Nat) (s : Node)
    (h : root.nextSib? z = some s) :
    ∃ (P : Node) (i : Nat), root.parent? z = some P ∧
      childIdx? P.childNodes z = some i ∧
      (∃ mz : Node, P.childNodes[i]? = some mz ∧ mz.idOf = z) ∧
      P.childNodes[i + 1]? = some s := by
  unfold Node.nextSib? at h
  rcases hP : root.parent? z with _ | P
  · simp only [hP] at h
    simp at h
  simp only [hP] at h
  rcases hidx : childIdx? P.childNodes z with _ | k
  · simp only [hidx] at h
    simp at h
  simp only [hidx] at h
  obtain ⟨mz, hmz, hmzid⟩ := childIdx?_member P.childNodes z k hidx
  exact ⟨P, k, rfl, hidx, ⟨mz, hmz, hmzid⟩, h⟩

theorem sib_pos_prev (root : Node) (z : Nat) (s : Node)
    (h : root.prevSib? z = some s) :
    ∃ (P : Node) (i : Nat), root.parent? z = some P ∧
      childIdx? P.childNodes z = some (i + 1) ∧
      (∃ mz : Node, P.childNodes[i + 1]? = some mz ∧ mz.idOf = z) ∧
      P.childNodes[i]? = some s := by
  unfold Node.prevSib? at h
  rcases hP : root.parent? z with _ | P
  · simp only [hP] at h
    simp at h
  simp only [hP] at h
  rcases hidx : childIdx? P.childNodes z with _ | k
  · simp only [hidx] at h
    simp at h
  simp only [hidx] at h
  rcases k with _ | k2
  · simp at h
  obtain ⟨mz, hmz, hmzid⟩ := childIdx?_member P.childNodes z (k2 + 1) hidx
  exact ⟨P, k2, rfl, hidx, ⟨mz, hmz, hmzid⟩, h⟩

theorem childNodes_nodup (root : Node) (hnd : root.idList.Nodup) (P : Node)
    (hfP : root.find? P.idOf = some P) : (Node.idListL P.childNodes).Nodup := by
  cases P with
  | text j v => exact List.nodup_nil
  | elem pe pcs =>
    obtain ⟨_, _, ipre, ipost, _, hidl, _⟩ :=
      withChildrenAt_context root hnd pe.id pe pcs hfP
    rw [hidl] at hnd
    exact ((hnd.of_append_right).of_cons).of_append_left

theorem sib_node_facts (root : Node) (hnd : root.idList.Nodup) (z : Nat) (P : Node)
    (hP : root.parent? z = some P) (j : Nat) (s : Node)
    (hj : P.childNodes[j]? = some s) :
    root.find? s.idOf = some s ∧ s.idOf ∈ root.idList ∧
      (∀ K, root.depthOf P.idOf = some K → root.depthOf s.idOf = some (K + 1)) := by
  have hfP := parent?_find?.1 root hnd z P hP
  cases P with
  | text jj v =>
    simp [Node.childNodes] at hj
  | elem pe pcs =>
    have hs : s ∈ pcs := by
      have := List.getElem?_mem hj
      simpa [Node.childNodes] using this
    have hcl := child_lift root hnd pe.id pe pcs hfP s hs
    refine ⟨hcl.1, (find?_isSome_iff root s.idOf).mp (by simp [hcl.1]), ?_⟩
    intro K hK
    simp only [Node.idOf] at hK
    obtain ⟨K2, hP2, hC2⟩ := depthOf_child.1 root hnd pe.id pe pcs hfP s hs
    have : K2 = K := by
      rw [hK] at hP2
      exact (Option.some.inj hP2).symm
    rw [hC2, this]


theorem nodup_insert_middle {A B M : List Nat} (h : (A ++ B).Nodup) (hm : M.Nodup)
    (hd : ∀ x ∈ M, x ∉ A ++ B) : (A ++ (M ++ B)).Nodup := by
  rw [List.nodup_append] at h ⊢
  refine ⟨h.1, ?_, ?_⟩
  · rw [List.nodup_append]
    refine ⟨hm, h.2.1, ?_⟩
    intro a ha hb
    exact hd a ha (List.mem_append.mpr (Or.inr hb))
  · intro a ha hab
    rcases List.mem_append.mp hab with hM | hB
    · exact hd a hM (List.mem_append.mpr (Or.inl ha))
    · exact h.2.2 ha hB

theorem move_ctx_root (root : Node) (hnd : root.idList.Nodup)
    (x : Nat) (m : Node) (hf : root.find? x = some m) (hx : x ≠ root.idOf)
    (mv : Node)
    (hmv : mv = root.moveBefore x root.idOf ∨ mv = root.moveAfter x root.idOf) :
    mv = root.replaceId x [] ∧ mv.idList.Nodup ∧ mv.idOf = root.idOf ∧
      mv.dsum < root.dsum ∧ mv.find? x = none ∧
      (∀ j, j ∉ m.idList → mv.depthOf j = root.depthOf j) := by
  obtain ⟨D, L1, L2, hD, hdep, hidl0, hidl1, hw, hds, hstab⟩ :=
    replace_ctx root hnd x m hf hx []
  set r := root.replaceId x [] with hr
  have hrnd : r.idList.Nodup := by
    rw [hidl1]
    rw [hidl0] at hnd
    rw [List.nodup_append] at hnd ⊢
    refine ⟨hnd.1, (hnd.2.1.of_append_right :
      (Node.idListL ([] : List Node) ++ L2).Nodup), ?_⟩
    intro a ha hab
    exact hnd.2.2 ha (List.mem_append.mpr (Or.inr (by
      simpa [Node.idListL] using hab)))
  have hrid : r.idOf = root.idOf := replaceId_idOf root x []
  have hmveq : mv = r := by
    have hfr : r.find? root.idOf = some r := by
      rw [← hrid]
      exact find?_self r
    rcases hmv with rfl | rfl
    · unfold Node.moveBefore
      simp only [hf, ← hr, hfr]
      rw [← hrid]
      exact replaceId_rootId r hrnd _
    · unfold Node.moveAfter
      simp only [hf, ← hr, hfr]
      rw [← hrid]
      exact replaceId_rootId r hrnd _
  have hds2 : r.dsum < root.dsum := by
    have h1 : 1 ≤ D * m.weight := Nat.mul_pos (by omega) (weight_pos m)
    simp only [Node.dsumL, Node.weightL, Nat.mul_zero, Nat.add_zero] at hds
    omega
  have hxnot : x ∉ r.idList := by
    rw [hidl1]
    rw [hidl0] at hnd
    have hxm : x ∈ m.idList := by
      rw [← find?_idOf root x m hf]
      exact idOf_mem_idList m
    intro hc
    rw [List.nodup_append] at hnd
    rcases List.mem_append.mp hc with h1 | h2
    · exact hnd.2.2 h1 (List.mem_append.mpr (Or.inl hxm))
    · have h3 : x ∈ Node.idListL ([] : List Node) ++ L2 := by
        simpa [Node.idListL] using h2
      have h4 := hnd.2.1
      rw [List.nodup_append] at h4
      exact h4.2.2 hxm (by simpa [Node.idListL] using h3)
  rw [hmveq]
  refine ⟨rfl, hrnd, hrid, hds2, ?_, ?_⟩
  · rw [← Option.not_isSome_iff_eq_none]
    intro hc
    exact hxnot ((find?_isSome_iff r x).mp hc)
  · intro j hj
    exact hstab j hj (by simp [Node.idListL])


theorem move_ctx_in (root : Node) (hnd : root.idList.Nodup)
    (x : Nat) (m : Node) (hf : root.find? x = some m) (hx : x ≠ root.idOf)
    (t : Nat) (tn0 : Node) (hft : root.find? t = some tn0) (ht : t ≠ root.idOf)
    (htm : t ∉ m.idList)
    (Dx Dt : Nat) (hdx : root.depthOf x = some Dx) (hdt : root.depthOf t = some Dt)
    (mv : Node) (hmv : mv = root.moveBefore x t ∨ mv = root.moveAfter x t) :
    mv.idList.Nodup ∧ mv.idOf = root.idOf ∧
      mv.dsum + Dx * m.weight = root.dsum + Dt * m.weight ∧
      mv.find? x = some m ∧ mv.depthOf x = some Dt ∧ mv.depthOf t = some Dt ∧
      (∀ j, j ∈ root.idList → j ∈ mv.idList) ∧
      (∀ j, j ∉ m.idList → j ∉ tn0.idList → mv.depthOf j = root.depthOf j) := by
  have hm_id : m.idOf = x := find?_idOf root x m hf
  obtain ⟨D1, L1, L2, hD1, hdep1, hidl0, hidl1, hw1, hds1, hstab1⟩ :=
    replace_ctx root hnd x m hf hx []
  have hDx1 : D1 = Dx := by
    rw [hdx] at hdep1
    exact (Option.some.inj hdep1).symm
  subst hDx1
  set r := root.replaceId x [] with hr
  have hmnd : m.idList.Nodup := by
    rw [hidl0] at hnd
    exact (hnd.of_append_right).of_append_left
  have hmdisj : ∀ j ∈ m.idList, j ∉ L1 ++ L2 := by
    rw [hidl0] at hnd
    rw [List.nodup_append] at hnd
    intro j hj hc
    rcases List.mem_append.mp hc with h1 | h2
    · exact hnd.2.2 h1 (List.mem_append.mpr (Or.inl hj))
    · have h4 := hnd.2.1
      rw [List.nodup_append] at h4
      exact h4.2.2 hj h2
  have hrnd : r.idList.Nodup := by
    rw [hidl1]
    rw [hidl0] at hnd
    rw [List.nodup_append] at hnd ⊢
    refine ⟨hnd.1, (hnd.2.1.of_append_right :
      (Node.idListL ([] : List Node) ++ L2).Nodup), ?_⟩
    intro a ha hab
    exact hnd.2.2 ha (List.mem_append.mpr (Or.inr (by
      simpa [Node.idListL] using hab)))
  have hrid : r.idOf = root.idOf := replaceId_idOf root x []
  have hftr : r.find? t = some (tn0.replaceId x []) :=
    find?_replaceId_other.1 root hnd x m hf t tn0 hft htm
  set tn1 := tn0.replaceId x [] with htn1
  have htn1_id : tn1.idOf = t := find?_idOf r t tn1 hftr
  have hdtr : r.depthOf t = some Dt := by
    rw [hstab1 t htm (by simp [Node.idListL])]
    exact hdt
  have htr : t ≠ r.idOf := by
    rw [hrid]
    exact ht
  obtain ⟨rep, hrep, hmv2⟩ : ∃ rep, (rep = [m, tn1] ∨ rep = [tn1, m]) ∧
      mv = r.replaceId t rep := by
    rcases hmv with rfl | rfl
    · refine ⟨[m, tn1], Or.inl rfl, ?_⟩
      unfold Node.moveBefore
      simp only [hf, ← hr, hftr, ← htn1]
    · refine ⟨[tn1, m], Or.inr rfl, ?_⟩
      unfold Node.moveAfter
      simp only [hf, ← hr, hftr, ← htn1]
  obtain ⟨D2, L1a, L2a, hD2, hdep2, hidl0a, hidl1a, hw2, hds2, hstab2⟩ :=
    replace_ctx r hrnd t tn1 hftr htr rep
  have hD2t : D2 = Dt := by
    rw [hdtr] at hdep2
    exact (Option.some.inj hdep2).symm
  subst hD2t
  rw [← hmv2] at hidl1a hw2 hds2 hstab2
  have hWrep : Node.weightL rep = m.weight + tn1.weight := by
    rcases hrep with rfl | rfl <;> simp only [Node.weightL] <;> omega
  have hDrep : Node.dsumL rep = m.dsum + tn1.dsum := by
    rcases hrep with rfl | rfl <;> simp only [Node.dsumL] <;> omega
  have hIrep : ∀ j, j ∈ Node.idListL rep ↔ (j ∈ m.idList ∨ j ∈ tn1.idList) := by
    intro j
    rcases hrep with rfl | rfl <;>
      simp only [Node.idListL, List.mem_append, List.not_mem_nil, or_false] <;>
      tauto
  have hmvnd : mv.idList.Nodup := by
    rw [hidl1a]
    have hAB : (L1a ++ (tn1.idList ++ L2a)).Nodup := by
      rw [← hidl0a]
      exact hrnd
    have hmdisj2 : ∀ j ∈ m.idList, j ∉ L1a ++ (tn1.idList ++ L2a) := by
      intro j hj hc
      rw [← hidl0a, hidl1] at hc
      refine hmdisj j hj ?_
      rcases List.mem_append.mp hc with h1 | h2
      · exact List.mem_append.mpr (Or.inl h1)
      · exact List.mem_append.mpr (Or.inr (by simpa [Node.idListL] using h2))
    have h0 : (L1a ++ (m.idList ++ (tn1.idList ++ L2a))).Nodup :=
      nodup_insert_middle hAB hmnd hmdisj2
    have hperm : List.Perm (Node.idListL rep ++ L2a)
        (m.idList ++ (tn1.idList ++ L2a)) := by
      rcases hrep with rfl | rfl
      · simp only [Node.idListL, List.append_nil, List.append_assoc]
        exact List.Perm.refl _
      · simp only [Node.idListL, List.append_nil]
        have h1 : List.Perm ((tn1.idList ++ m.idList) ++ L2a)
            ((m.idList ++ tn1.idList) ++ L2a) :=
          List.Perm.append_right L2a List.perm_append_comm
        simpa [List.append_assoc] using h1
    exact ((hperm.append_left L1a).nodup_iff).mpr h0
  have hins := replace_insert_facts r hrnd t tn1 hftr htr rep (hmv2 ▸ hmvnd)
  have hmmem : m ∈ rep := by
    rcases hrep with rfl | rfl <;> simp
  have htnmem : tn1 ∈ rep := by
    rcases hrep with rfl | rfl <;> simp
  have hfindx : mv.find? x = some m := by
    rw [hmv2, ← hm_id]
    exact (hins m hmmem).1
  have hdepx : mv.depthOf x = some D2 := by
    rw [hmv2, ← hm_id]
    exact (hins m hmmem).2 D2 hdtr
  have hdept : mv.depthOf t = some D2 := by
    have h := (hins tn1 htnmem).2 D2 hdtr
    rw [htn1_id] at h
    rw [hmv2]
    exact h
  refine ⟨hmvnd, by rw [hmv2, hr]; rw [replaceId_idOf, replaceId_idOf], ?_, hfindx,
    hdepx, hdept, ?_, ?_⟩
  · rw [hWrep, hDrep] at hds2
    simp only [Node.dsumL, Node.weightL, Nat.mul_zero, Nat.add_zero] at hds1
    have e1 : D2 * (m.weight + tn1.weight) = D2 * m.weight + D2 * tn1.weight := by
      ring
    rw [e1] at hds2
    linarith
  · intro j hj
    rw [hidl1a, List.mem_append, List.mem_append]
    by_cases hjm : j ∈ m.idList
    · exact Or.inr (Or.inl ((hIrep j).mpr (Or.inl hjm)))
    · have hjr : j ∈ r.idList := by
        rw [hidl1]
        rw [hidl0] at hj
        rcases List.mem_append.mp hj with h1 | h2
        · exact List.mem_append.mpr (Or.inl h1)
        · rcases List.mem_append.mp h2 with h3 | h4
          · exact absurd h3 hjm
          · exact List.mem_append.mpr (Or.inr (by simpa [Node.idListL] using h4))
      rw [hidl0a] at hjr
      rcases List.mem_append.mp hjr with h1 | h2
      · exact Or.inl h1
      · rcases List.mem_append.mp h2 with h3 | h4
        · exact Or.inr (Or.inl ((hIrep j).mpr (Or.inr h3)))
        · exact Or.inr (Or.inr h4)
  · intro j hjm hjt
    have hjt1 : j ∉ tn1.idList := fun hc => hjt (ids_replaceId_sub.1 tn0 x j hc)
    have hjrep : j ∉ Node.idListL rep := fun hc => by
      rcases (hIrep j).mp hc with h1 | h2
      · exact hjm h1
      · exact hjt1 h2
    rw [hstab2 j hjt1 hjrep]
    exact hstab1 j hjm (by simp [Node.idListL])


theorem depthOf_mem :
    (∀ n : Node, ∀ i, i ∈ n.idList → (n.depthOf i).isSome) ∧
    (∀ l : List Node, ∀ i, i ∈ Node.idListL l → (Node.depthOfL l i).isSome) := by
  refine nodes_ind ?_ ?_ ?_ ?_
  · intro j v i h
    simp only [Node.idList, List.mem_singleton] at h
    simp [Node.depthOf, h]
  · intro e cs ih i h
    simp only [Node.idList, List.mem_cons] at h
    by_cases he : e.id = i
    · simp [Node.depthOf, he]
    · rcases h with h | h
      · exact absurd h.symm he
      · have := ih i h
        simp only [Node.depthOf, he, if_false]
        rcases Option.isSome_iff_exists.mp this with ⟨d, hd⟩
        simp [hd]
  · intro i h
    simp [Node.idListL] at h
  · intro n ns ihn ihl i h
    simp only [Node.idListL, List.mem_append] at h
    simp only [Node.depthOfL]
    rcases hdn : n.depthOf i with _ | d
    · rcases h with h | h
      · have := ihn i h
        rw [hdn] at this
        simp at this
      · exact ihl i h
    · simp

theorem removeId_measure (r2 : Node) (hnd2 : r2.idList.Nodup) (z : Nat) :
    (r2.removeId z).idList.Nodup ∧ (r2.removeId z).idOf = r2.idOf ∧
      (r2.removeId z).dsum ≤ r2.dsum := by
  unfold Node.removeId
  by_cases hz : z ∈ r2.idList
  · by_cases hzr : z = r2.idOf
    · rw [hzr, replaceId_rootId r2 hnd2]
      exact ⟨hnd2, rfl, Nat.le_refl _⟩
    · obtain ⟨mz, hmz⟩ : ∃ mz, r2.find? z = some mz :=
        Option.isSome_iff_exists.mp ((find?_isSome_iff r2 z).mpr hz)
      obtain ⟨D, L1, L2, hD, _, hidl0, hidl1, hw, hds, _⟩ :=
        replace_ctx r2 hnd2 z mz hmz hzr []
      refine ⟨?_, replaceId_idOf r2 z [], ?_⟩
      · rw [hidl1]
        rw [hidl0] at hnd2
        rw [List.nodup_append] at hnd2 ⊢
        refine ⟨hnd2.1, (hnd2.2.1.of_append_right :
          (Node.idListL ([] : List Node) ++ L2).Nodup), ?_⟩
        intro a ha hab
        exact hnd2.2.2 ha (List.mem_append.mpr (Or.inr (by
          simpa [Node.idListL] using hab)))
      · simp only [Node.dsumL, Node.weightL, Nat.mul_zero, Nat.add_zero] at hds
        linarith [Nat.zero_le (D * mz.weight), Nat.zero_le mz.dsum]
  · rw [replaceId_not_mem.1 r2 z [] hz]
    exact ⟨hnd2, rfl, Nat.le_refl _⟩

theorem sibs_disjoint (root : Node) (hnd : root.idList.Nodup) (z : Nat)
    (pn pp : Node) (hn : root.nextSib? z = some pn) (hp : root.prevSib? z = some pp) :
    ∀ y ∈ pp.idList, y ∉ pn.idList := by
  obtain ⟨P, i, hP, hidx, _, hpn⟩ := sib_pos_next root z pn hn
  obtain ⟨P2, i2, hP2, hidx2, _, hpp⟩ := sib_pos_prev root z pp hp
  rw [hP] at hP2
  cases hP2
  rw [hidx] at hidx2
  have hi : i = i2 + 1 := Option.some.inj hidx2
  subst hi
  have hndc : (Node.idListL P.childNodes).Nodup :=
    childNodes_nodup root hnd P (parent?_find?.1 root hnd z P hP)
  exact pos_disjoint P.childNodes hndc i2 (i2 + 1 + 1) (by omega) pp pn hpp hpn


theorem flatten_target_facts (root : Node) (hnd : root.idList.Nodup)
    (P : Node) (hfP : root.find? P.idOf = some P)
    (Kp : Nat) (hKp : root.depthOf P.idOf = some Kp)
    (s : Node)
    (hs : root.nextSib? P.idOf = some s ∨ root.prevSib? P.idOf = some s) :
    root.find? s.idOf = some s ∧ s.idOf ∈ root.idList ∧
      root.depthOf s.idOf = some Kp ∧ (∀ y ∈ P.idList, y ∉ s.idList) := by
  obtain ⟨P2, im, is2, hP2, hmz, hsj, hne⟩ :
      ∃ (P2 : Node) (im is2 : Nat), root.parent? P.idOf = some P2 ∧
        (∃ mz : Node, P2.childNodes[im]? = some mz ∧ mz.idOf = P.idOf) ∧
        P2.childNodes[is2]? = some s ∧ im ≠ is2 := by
    rcases hs with h | h
    · obtain ⟨P2, i, hP2, _, hmz, hsj⟩ := sib_pos_next root P.idOf s h
      exact ⟨P2, i, i + 1, hP2, hmz, hsj, by omega⟩
    · obtain ⟨P2, i, hP2, _, hmz, hsj⟩ := sib_pos_prev root P.idOf s h
      exact ⟨P2, i + 1, i, hP2, hmz, hsj, by omega⟩
  obtain ⟨mz, hmzi, hmzid⟩ := hmz
  have hfP2 := parent?_find?.1 root hnd P.idOf P2 hP2
  cases P2 with
  | text jj v =>
    simp [Node.childNodes] at hmzi
  | elem pe2 pcs2 =>
    simp only [Node.idOf] at hfP2
    have hmzmem : mz ∈ pcs2 := by
      have := List.getElem?_mem hmzi
      simpa [Node.childNodes] using this
    have hsmem : s ∈ pcs2 := by
      have := List.getElem?_mem hsj
      simpa [Node.childNodes] using this
    have hclmz := child_lift root hnd pe2.id pe2 pcs2 hfP2 mz hmzmem
    have hcls := child_lift root hnd pe2.id pe2 pcs2 hfP2 s hsmem
    have hmzP : mz = P := by
      have h1 := hclmz.1
      rw [hmzid, hfP] at h1
      exact (Option.some.inj h1).symm
    have hP2mem : pe2.id ∈ root.idList :=
      (find?_isSome_iff root pe2.id).mp (by rw [hfP2]; rfl)
    obtain ⟨KGP, hKGP⟩ :=
      Option.isSome_iff_exists.mp (depthOf_mem.1 root pe2.id hP2mem)
    obtain ⟨K1, hK1, hC1⟩ := depthOf_child.1 root hnd pe2.id pe2 pcs2 hfP2 mz hmzmem
    obtain ⟨K2, hK2, hC2⟩ := depthOf_child.1 root hnd pe2.id pe2 pcs2 hfP2 s hsmem
    have hK12 : K1 = K2 := by
      rw [hK1] at hK2
      exact Option.some.inj hK2
    have hKpv : Kp = K1 + 1 := by
      rw [hmzid] at hC1
      rw [hKp] at hC1
      exact Option.some.inj hC1
    have hdisj : ∀ y ∈ P.idList, y ∉ s.idList := by
      have hndc : (Node.idListL (Node.elem pe2 pcs2).childNodes).Nodup :=
        childNodes_nodup root hnd _ hfP2
      have := pos_disjoint (Node.elem pe2 pcs2).childNodes hndc im is2 hne mz s
        hmzi hsj
      rw [hmzP] at this
      exact this
    refine ⟨hcls.1, (find?_isSome_iff root s.idOf).mp (by simp [hcls.1]), ?_, hdisj⟩
    rw [hC2, ← hK12, ← hKpv]


theorem flattenStep_measure (root : Node) (hls : List Nat) (a : Bool) (k : Nat)
    (hnd : root.idList.Nodup) (r' : Node) (h' : List Nat) (a' : Bool)
    (hstep : flattenStep root hls a k = .ok (r', h', a')) :
    r'.idList.Nodup ∧ r'.idOf = root.idOf ∧ r'.dsum ≤ root.dsum ∧
      (a = true → a' = true) ∧
      (a = false → a' = true → r'.dsum < root.dsum) := by
  unfold flattenStep at hstep
  rcases hk : hls[k]? with _ | hid
  · simp only [hk] at hstep
    obtain ⟨rfl, rfl, rfl⟩ : root = r' ∧ hls = h' ∧ a = a' := by
      simpa using hstep
    exact ⟨hnd, rfl, Nat.le_refl _, fun h => h,
      fun h1 h2 => absurd (h1 ▸ h2) (by simp)⟩
  simp only [hk] at hstep
  by_cases hroot : hid = root.idOf
  · rw [if_pos hroot] at hstep
    obtain ⟨rfl, rfl, rfl⟩ : root = r' ∧ hls = h' ∧ a = a' := by
      simpa using hstep
    exact ⟨hnd, rfl, Nat.le_refl _, fun h => h,
      fun h1 h2 => absurd (h1 ▸ h2) (by simp)⟩
  rw [if_neg hroot] at hstep
  rcases hP : root.parent? hid with _ | P
  · simp only [hP] at hstep
    exact absurd hstep (by simp)
  simp only [hP] at hstep
  rcases hFind : P.childNodes.find? (fun c => c.idOf = hid) with _ | hl
  · simp only [hFind] at hstep
    obtain ⟨rfl, rfl, rfl⟩ : root = r' ∧ hls = h' ∧ a = a' := by
      simpa using hstep
    exact ⟨hnd, rfl, Nat.le_refl _, fun h => h,
      fun h1 h2 => absurd (h1 ▸ h2) (by simp)⟩
  simp only [hFind] at hstep
  by_cases hHP : isHighlight P = true
  swap
  · rw [if_neg hHP] at hstep
    obtain ⟨rfl, rfl, rfl⟩ : root = r' ∧ hls = h' ∧ a = a' := by
      simpa using hstep
    exact ⟨hnd, rfl, Nat.le_refl _, fun h => h,
      fun h1 h2 => absurd (h1 ▸ h2) (by simp)⟩
  rw [if_pos hHP] at hstep
  cases P with
  | text jj vv => simp [isHighlight] at hHP
  | elem pe pcs =>
  simp only [Node.idOf] at hstep
  have hfP : root.find? pe.id = some (.elem pe pcs) := by
    have h1 := parent?_find?.1 root hnd hid _ hP
    simpa [Node.idOf] using h1
  have hlmem : hl ∈ pcs := by
    have := List.mem_of_find?_eq_some hFind
    simpa [Node.childNodes] using this
  have hlid : hl.idOf = hid := by
    have := List.find?_some hFind
    exact of_decide_eq_true this
  have hcl := child_lift root hnd pe.id pe pcs hfP hl hlmem
  have hfhl : root.find? hid = some hl := by
    rw [← hlid]
    exact hcl.1
  obtain ⟨Kp, hKp, hCp⟩ := depthOf_child.1 root hnd pe.id pe pcs hfP hl hlmem
  rw [hlid] at hCp
  obtain ⟨_, _, ipreP, ipostP, _, hidlP, _⟩ :=
    withChildrenAt_context root hnd pe.id pe pcs hfP
  have hpe_not : pe.id ∉ Node.idListL pcs := by
    have h1 := hidlP ▸ hnd
    have h2 := h1.of_append_right
    rw [List.nodup_cons] at h2
    intro hc
    exact h2.1 (List.mem_append.mpr (Or.inl hc))
  have hlsub : ∀ y ∈ hl.idList, y ∈ (Node.elem pe pcs).idList := by
    intro y hy
    simp only [Node.idList, List.mem_cons]
    exact Or.inr (idListL_mem_of_member hlmem hy)
  have hpe_not_hl : pe.id ∉ hl.idList := fun hc =>
    hpe_not (idListL_mem_of_member hlmem hc)
  by_cases hSC : haveSameColor (Node.elem pe pcs) hl = true
  · -- same-color branch: promote the first child
    rw [if_pos hSC] at hstep
    rcases hHead : hl.childNodes.head? with _ | c
    · simp only [hHead] at hstep
      exact absurd hstep (by simp)
    simp only [hHead] at hstep
    obtain ⟨rfl, rfl, rfl⟩ : root.replaceId hid [c] = r' ∧ hls.set k pe.id = h' ∧
        true = a' := by simpa using hstep
    obtain ⟨he, hcs0, rfl⟩ : ∃ he hcs0, hl = .elem he hcs0 := by
      cases hl with
      | text j v => simp [Node.childNodes] at hHead
      | elem he hcs0 => exact ⟨he, hcs0, rfl⟩
    obtain ⟨rest, rfl⟩ : ∃ rest, hcs0 = c :: rest := by
      cases hcs0 with
      | nil => simp [Node.childNodes] at hHead
      | cons c0 r0 =>
        simp only [Node.childNodes, List.head?_cons, Option.some.injEq] at hHead
        exact ⟨r0, by rw [hHead]⟩
    obtain ⟨D, L1, L2, hD, hdep, hidl0, hidl1, hw, hds, _⟩ :=
      replace_ctx root hnd hid (.elem he (c :: rest)) hfhl hroot [c]
    have hs1 : Node.idListL [c] = c.idList := by simp [Node.idListL]
    have hs0 : (Node.elem he (c :: rest)).idList
        = he.id :: (c.idList ++ Node.idListL rest) := by
      simp [Node.idList, Node.idListL]
    have hnd' : (root.replaceId hid [c]).idList.Nodup := by
      rw [hidl1, hs1]
      rw [hidl0, hs0] at hnd
      refine List.Nodup.sublist (List.Sublist.append_left ?_ L1) hnd
      rw [List.cons_append, List.append_assoc]
      refine List.Sublist.cons _ ?_
      exact List.Sublist.append_left (List.sublist_append_right _ _) c.idList
    have hwl : (Node.elem he (c :: rest)).weight
        = 1 + (c.weight + Node.weightL rest) := by
      simp [Node.weight, Node.weightL]
    have hdl : (Node.elem he (c :: rest)).dsum
        = (c.dsum + Node.dsumL rest) + (c.weight + Node.weightL rest) := by
      simp [Node.dsum, Node.dsumL, Node.weightL]
    rw [hwl, hdl] at hds
    simp only [Node.dsumL, Node.weightL, Nat.add_zero] at hds
    have e1 : D * (1 + (c.weight + Node.weightL rest))
        = D * c.weight + D * Node.weightL rest + D := by ring
    rw [e1] at hds
    have hstrict : (root.replaceId hid [c]).dsum < root.dsum := by
      linarith [Nat.zero_le (D * Node.weightL rest), Nat.zero_le (Node.dsumL rest)]
    exact ⟨hnd', replaceId_idOf root hid [c], le_of_lt hstrict, fun _ => rfl,
      fun _ _ => hstrict⟩
  · rw [if_neg hSC] at hstep
    have hFinal : ∀ (r2v : Node) (a2 : Bool), r2v.idList.Nodup →
        r2v.idOf = root.idOf → r2v.dsum ≤ root.dsum →
        (a = true → a2 = true) →
        (a = false → a2 = true → r2v.dsum < root.dsum) →
        (Except.ok ((match r2v.find? pe.id with
           | some (.elem _ []) => r2v.removeId pe.id
           | _ => r2v), hls, a2) :
          Except (List Char) (Node × List Nat × Bool)) = Except.ok (r', h', a') →
        r'.idList.Nodup ∧ r'.idOf = root.idOf ∧ r'.dsum ≤ root.dsum ∧
          (a = true → a' = true) ∧ (a = false → a' = true → r'.dsum < root.dsum) := by
      intro r2v a2 hnd2 hid2 hle2 himp2 hstrict2 hEq
      have hrem := removeId_measure r2v hnd2 pe.id
      rcases hf3 : r2v.find? pe.id with _ | n3
      · simp only [hf3] at hEq
        obtain ⟨rfl, rfl, rfl⟩ : r2v = r' ∧ hls = h' ∧ a2 = a' := by simpa using hEq
        exact ⟨hnd2, hid2, hle2, himp2, hstrict2⟩
      · cases n3 with
        | text j3 v3 =>
          simp only [hf3] at hEq
          obtain ⟨rfl, rfl, rfl⟩ : r2v = r' ∧ hls = h' ∧ a2 = a' := by simpa using hEq
          exact ⟨hnd2, hid2, hle2, himp2, hstrict2⟩
        | elem e3 cs3 =>
          cases cs3 with
          | nil =>
            simp only [hf3] at hEq
            obtain ⟨rfl, rfl, rfl⟩ : r2v.removeId pe.id = r' ∧ hls = h' ∧ a2 = a' := by
              simpa using hEq
            exact ⟨hrem.1, hrem.2.1.trans hid2, le_trans hrem.2.2 hle2, himp2,
              fun h1 h2 => lt_of_le_of_lt hrem.2.2 (hstrict2 h1 h2)⟩
          | cons c3 cr3 =>
            simp only [hf3] at hEq
            obtain ⟨rfl, rfl, rfl⟩ : r2v = r' ∧ hls = h' ∧ a2 = a' := by simpa using hEq
            exact ⟨hnd2, hid2, hle2, himp2, hstrict2⟩
    by_cases hf1 : (root.nextSib? hid).isNone = true
    · rw [if_pos hf1, hf1] at hstep
      simp only [Bool.or_true, Bool.true_or] at hstep
      rcases hpn : root.nextSib? pe.id with _ | pn
      · -- fire1 target is the parent itself
        simp only [hpn, Option.map_none', Option.getD_none] at hstep
        by_cases ht1root : pe.id = root.idOf
        · -- detach above the anchor
          rw [show root.moveBefore hid pe.id = root.moveBefore hid root.idOf from
            by rw [ht1root]] at hstep
          obtain ⟨hr1eq, hr1nd, hr1id, hr1ds, hr1find, _⟩ :=
            move_ctx_root root hnd hid hl hfhl hroot _ (Or.inl rfl)
          have hpar1 : (root.moveBefore hid root.idOf).parent? hid = none := by
            rcases hq : (root.moveBefore hid root.idOf).parent? hid with _ | Q
            · rfl
            · have hmm := parent?_mem _ hid Q hq
              have := (find?_isSome_iff _ hid).mpr hmm
              rw [hr1find] at this
              simp at this
          have hps1 : (root.moveBefore hid root.idOf).prevSib? hid = none := by
            unfold Node.prevSib?
            rw [hpar1]
          have hcol : ∀ T, (root.moveBefore hid root.idOf).moveAfter hid T
              = root.moveBefore hid root.idOf := by
            intro T
            unfold Node.moveAfter
            rw [hr1find]
          by_cases hf2 : ((root.moveBefore hid root.idOf).prevSib? hid).isNone = true
          · rw [if_pos hf2, hcol] at hstep
            exact hFinal _ _ hr1nd hr1id (le_of_lt hr1ds) (fun _ => rfl)
              (fun _ _ => hr1ds) hstep
          · rw [if_neg hf2] at hstep
            exact hFinal _ _ hr1nd hr1id (le_of_lt hr1ds) (fun _ => rfl)
              (fun _ _ => hr1ds) hstep
        · -- move up beside the parent
          obtain ⟨hr1nd, hr1id, hr1ds, hr1find, hr1dx, hr1dt, hr1mem, hr1stab⟩ :=
            move_ctx_in root hnd hid hl hfhl hroot pe.id _ hfP ht1root hpe_not_hl
              (Kp + 1) Kp hCp hKp _ (Or.inl rfl)
          have hstrict1 : (root.moveBefore hid pe.id).dsum < root.dsum := by
            have hw1 := weight_pos hl
            have e1 : (Kp + 1) * hl.weight = Kp * hl.weight + hl.weight := by ring
            rw [e1] at hr1ds
            linarith
          have hxr1 : hid ≠ (root.moveBefore hid pe.id).idOf := by
            rw [hr1id]
            exact hroot
          by_cases hf2 : ((root.moveBefore hid pe.id).prevSib? hid).isNone = true
          · rw [if_pos hf2] at hstep
            rcases hpp : root.prevSib? pe.id with _ | pp
            · simp only [hpp, Option.map_none', Option.getD_none] at hstep
              -- fire2 target is the parent again
              by_cases ht2root : pe.id = root.idOf
              · exact absurd ht2root ht1root
              · have ht2r1 : pe.id ≠ (root.moveBefore hid pe.id).idOf := by
                  rw [hr1id]
                  exact ht1root
                obtain ⟨tn2, htn2⟩ : ∃ tn2,
                    (root.moveBefore hid pe.id).find? pe.id = some tn2 :=
                  Option.isSome_iff_exists.mp ((find?_isSome_iff _ pe.id).mpr
                    (hr1mem pe.id ((find?_isSome_iff root pe.id).mp (by
                      rw [hfP]; rfl))))
                obtain ⟨hr2nd, hr2id, hr2ds, _, _, _, _, _⟩ :=
                  move_ctx_in (root.moveBefore hid pe.id) hr1nd hid hl hr1find
                    hxr1 pe.id tn2 htn2 ht2r1 hpe_not_hl Kp Kp hr1dx hr1dt
                    _ (Or.inr rfl)
                have hr2eq : ((root.moveBefore hid pe.id).moveAfter hid pe.id).dsum
                    = (root.moveBefore hid pe.id).dsum :=
                  Nat.add_right_cancel hr2ds
                refine hFinal _ _ hr2nd (hr2id.trans hr1id) ?_ (fun _ => rfl)
                  (fun _ _ => ?_) hstep
                · rw [hr2eq]
                  exact le_of_lt hstrict1
                · rw [hr2eq]
                  exact hstrict1
            · simp only [hpp, Option.map_some', Option.getD_some] at hstep
              -- fire2 target is the parent's previous sibling
              obtain ⟨hfpp, hppmem, hdpp, hdisjpp⟩ :=
                flatten_target_facts root hnd (Node.elem pe pcs) hfP Kp hKp pp
                  (Or.inr hpp)
              have hpp_not_hl : pp.idOf ∉ hl.idList := fun hc =>
                (hdisjpp pp.idOf (hlsub _ hc)) (idOf_mem_idList pp)
              by_cases ht2root : pp.idOf = root.idOf
              · rw [show (root.moveBefore hid pe.id).moveAfter hid pp.idOf
                    = (root.moveBefore hid pe.id).moveAfter hid
                      (root.moveBefore hid pe.id).idOf from
                  by rw [ht2root, hr1id]] at hstep
                obtain ⟨_, hr2nd, hr2id, hr2ds, _, _⟩ :=
                  move_ctx_root (root.moveBefore hid pe.id) hr1nd hid hl hr1find
                    hxr1 _ (Or.inr rfl)
                exact hFinal _ _ hr2nd (hr2id.trans hr1id)
                  (le_of_lt (lt_trans hr2ds hstrict1)) (fun _ => rfl)
                  (fun _ _ => lt_trans hr2ds hstrict1) hstep
              · have ht2r1 : pp.idOf ≠ (root.moveBefore hid pe.id).idOf := by
                  rw [hr1id]
                  exact ht2root
                have hpp_not_P : pp.idOf ∉ (Node.elem pe pcs).idList := fun hc =>
                  (hdisjpp pp.idOf hc) (idOf_mem_idList pp)
                have hdppr1 : (root.moveBefore hid pe.id).depthOf pp.idOf
                    = some Kp := by
                  rw [hr1stab pp.idOf hpp_not_hl hpp_not_P]
                  exact hdpp
                obtain ⟨tn2, htn2⟩ : ∃ tn2,
                    (root.moveBefore hid pe.id).find? pp.idOf = some tn2 :=
                  Option.isSome_iff_exists.mp ((find?_isSome_iff _ pp.idOf).mpr
                    (hr1mem pp.idOf hppmem))
                obtain ⟨hr2nd, hr2id, hr2ds, _, _, _, _, _⟩ :=
                  move_ctx_in (root.moveBefore hid pe.id) hr1nd hid hl hr1find
                    hxr1 pp.idOf tn2 htn2 ht2r1 hpp_not_hl Kp Kp hr1dx hdppr1
                    _ (Or.inr rfl)
                have hr2eq : ((root.moveBefore hid pe.id).moveAfter hid pp.idOf).dsum
                    = (root.moveBefore hid pe.id).dsum :=
                  Nat.add_right_cancel hr2ds
                refine hFinal _ _ hr2nd (hr2id.trans hr1id) ?_ (fun _ => rfl)
                  (fun _ _ => ?_) hstep
                · rw [hr2eq]
                  exact le_of_lt hstrict1
                · rw [hr2eq]
                  exact hstrict1
          · rw [if_neg hf2] at hstep
            exact hFinal _ _ hr1nd hr1id (le_of_lt hstrict1) (fun _ => rfl)
              (fun _ _ => hstrict1) hstep
      · -- fire1 target is the parent's next sibling
        simp only [hpn, Option.map_some', Option.getD_some] at hstep
        obtain ⟨hfpn, hpnmem, hdpn, hdisjpn⟩ :=
          flatten_target_facts root hnd (Node.elem pe pcs) hfP Kp hKp pn
            (Or.inl hpn)
        have hpn_not_hl : pn.idOf ∉ hl.idList := fun hc =>
          (hdisjpn pn.idOf (hlsub _ hc)) (idOf_mem_idList pn)
        by_cases ht1root : pn.idOf = root.idOf
        · rw [ht1root] at hstep
          obtain ⟨hr1eq, hr1nd, hr1id, hr1ds, hr1find, _⟩ :=
            move_ctx_root root hnd hid hl hfhl hroot _ (Or.inl rfl)
          have hcol : ∀ T, (root.moveBefore hid root.idOf).moveAfter hid T
              = root.moveBefore hid root.idOf := by
            intro T
            unfold Node.moveAfter
            rw [hr1find]
          by_cases hf2 : ((root.moveBefore hid root.idOf).prevSib? hid).isNone = true
          · rw [if_pos hf2, hcol] at hstep
            exact hFinal _ _ hr1nd hr1id (le_of_lt hr1ds) (fun _ => rfl)
              (fun _ _ => hr1ds) hstep
          · rw [if_neg hf2] at hstep
            exact hFinal _ _ hr1nd hr1id (le_of_lt hr1ds) (fun _ => rfl)
              (fun _ _ => hr1ds) hstep
        · obtain ⟨hr1nd, hr1id, hr1ds, hr1find, hr1dx, hr1dt, hr1mem, hr1stab⟩ :=
            move_ctx_in root hnd hid hl hfhl hroot pn.idOf pn hfpn ht1root
              hpn_not_hl (Kp + 1) Kp hCp hdpn _ (Or.inl rfl)
          have hstrict1 : (root.moveBefore hid pn.idOf).dsum < root.dsum := by
            have hw1 := weight_pos hl
            have e1 : (Kp + 1) * hl.weight = Kp * hl.weight + hl.weight := by ring
            rw [e1] at hr1ds
            linarith
          have hxr1 : hid ≠ (root.moveBefore hid pn.idOf).idOf := by
            rw [hr1id]
            exact hroot
          have hpe_not_pn : pe.id ∉ pn.idList := hdisjpn pe.id (by
            simp [Node.idList])
          by_cases hf2 : ((root.moveBefore hid pn.idOf).prevSib? hid).isNone = true
          · rw [if_pos hf2] at hstep
            rcases hpp : root.prevSib? pe.id with _ | pp
            · simp only [hpp, Option.map_none', Option.getD_none] at hstep
              by_cases ht2root : pe.id = root.idOf
              · rw [show (root.moveBefore hid pn.idOf).moveAfter hid pe.id
                    = (root.moveBefore hid pn.idOf).moveAfter hid
                      (root.moveBefore hid pn.idOf).idOf from
                  by rw [ht2root, hr1id]] at hstep
                obtain ⟨_, hr2nd, hr2id, hr2ds, _, _⟩ :=
                  move_ctx_root (root.moveBefore hid pn.idOf) hr1nd hid hl hr1find
                    hxr1 _ (Or.inr rfl)
                exact hFinal _ _ hr2nd (hr2id.trans hr1id)
                  (le_of_lt (lt_trans hr2ds hstrict1)) (fun _ => rfl)
                  (fun _ _ => lt_trans hr2ds hstrict1) hstep
              · have ht2r1 : pe.id ≠ (root.moveBefore hid pn.idOf).idOf := by
                  rw [hr1id]
                  exact ht2root
                have hdper1 : (root.moveBefore hid pn.idOf).depthOf pe.id
                    = some Kp := by
                  rw [hr1stab pe.id hpe_not_hl hpe_not_pn]
                  exact hKp
                obtain ⟨tn2, htn2⟩ : ∃ tn2,
                    (root.moveBefore hid pn.idOf).find? pe.id = some tn2 :=
                  Option.isSome_iff_exists.mp ((find?_isSome_iff _ pe.id).mpr
                    (hr1mem pe.id ((find?_isSome_iff root pe.id).mp (by
                      rw [hfP]; rfl))))
                obtain ⟨hr2nd, hr2id, hr2ds, _, _, _, _, _⟩ :=
                  move_ctx_in (root.moveBefore hid pn.idOf) hr1nd hid hl hr1find
                    hxr1 pe.id tn2 htn2 ht2r1 hpe_not_hl Kp Kp hr1dx hdper1
                    _ (Or.inr rfl)
                have hr2eq : ((root.moveBefore hid pn.idOf).moveAfter hid pe.id).dsum
                    = (root.moveBefore hid pn.idOf).dsum :=
                  Nat.add_right_cancel hr2ds
                refine hFinal _ _ hr2nd (hr2id.trans hr1id) ?_ (fun _ => rfl)
                  (fun _ _ => ?_) hstep
                · rw [hr2eq]
                  exact le_of_lt hstrict1
                · rw [hr2eq]
                  exact hstrict1
            · simp only [hpp, Option.map_some', Option.getD_some] at hstep
              obtain ⟨hfpp, hppmem, hdpp, hdisjpp⟩ :=
                flatten_target_facts root hnd (Node.elem pe pcs) hfP Kp hKp pp
                  (Or.inr hpp)
              have hpp_not_hl : pp.idOf ∉ hl.idList := fun hc =>
                (hdisjpp pp.idOf (hlsub _ hc)) (idOf_mem_idList pp)
              have hpp_not_pn : pp.idOf ∉ pn.idList :=
                sibs_disjoint root hnd pe.id pn pp hpn hpp pp.idOf
                  (idOf_mem_idList pp)
              by_cases ht2root : pp.idOf = root.idOf
              · rw [show (root.moveBefore hid pn.idOf).moveAfter hid pp.idOf
                    = (root.moveBefore hid pn.idOf).moveAfter hid
                      (root.moveBefore hid pn.idOf).idOf from
                  by rw [ht2root, hr1id]] at hstep
                obtain ⟨_, hr2nd, hr2id, hr2ds, _, _⟩ :=
                  move_ctx_root (root.moveBefore hid pn.idOf) hr1nd hid hl hr1find
                    hxr1 _ (Or.inr rfl)
                exact hFinal _ _ hr2nd (hr2id.trans hr1id)
                  (le_of_lt (lt_trans hr2ds hstrict1)) (fun _ => rfl)
                  (fun _ _ => lt_trans hr2ds hstrict1) hstep
              · have ht2r1 : pp.idOf ≠ (root.moveBefore hid pn.idOf).idOf := by
                  rw [hr1id]
                  exact ht2root
                have hdppr1 : (root.moveBefore hid pn.idOf).depthOf pp.idOf
                    = some Kp := by
                  rw [hr1stab pp.idOf hpp_not_hl hpp_not_pn]
                  exact hdpp
                obtain ⟨tn2, htn2⟩ : ∃ tn2,
                    (root.moveBefore hid pn.idOf).find? pp.idOf = some tn2 :=
                  Option.isSome_iff_exists.mp ((find?_isSome_iff _ pp.idOf).mpr
                    (hr1mem pp.idOf hppmem))
                obtain ⟨hr2nd, hr2id, hr2ds, _, _, _, _, _⟩ :=
                  move_ctx_in (root.moveBefore hid pn.idOf) hr1nd hid hl hr1find
                    hxr1 pp.idOf tn2 htn2 ht2r1 hpp_not_hl Kp Kp hr1dx hdppr1
                    _ (Or.inr rfl)
                have hr2eq : ((root.moveBefore hid pn.idOf).moveAfter hid pp.idOf).dsum
                    = (root.moveBefore hid pn.idOf).dsum :=
                  Nat.add_right_cancel hr2ds
                refine hFinal _ _ hr2nd (hr2id.trans hr1id) ?_ (fun _ => rfl)
                  (fun _ _ => ?_) hstep
                · rw [hr2eq]
                  exact le_of_lt hstrict1
                · rw [hr2eq]
                  exact hstrict1
          · rw [if_neg hf2] at hstep
            exact hFinal _ _ hr1nd hr1id (le_of_lt hstrict1) (fun _ => rfl)
              (fun _ _ => hstrict1) hstep
    · -- fire1 did not fire
      have hf1v : (root.nextSib? hid).isNone = false := by
        revert hf1
        cases (root.nextSib? hid).isNone <;> simp
      rw [if_neg hf1, hf1v] at hstep
      simp only [Bool.or_false] at hstep
      by_cases hf2 : (root.prevSib? hid).isNone = true
      · rw [if_pos hf2, hf2] at hstep
        simp only [Bool.or_true] at hstep
        rcases hpp : root.prevSib? pe.id with _ | pp
        · simp only [hpp, Option.map_none', Option.getD_none] at hstep
          by_cases ht2root : pe.id = root.idOf
          · rw [show root.moveAfter hid pe.id = root.moveAfter hid root.idOf from
              by rw [ht2root]] at hstep
            obtain ⟨_, hr2nd, hr2id, hr2ds, _, _⟩ :=
              move_ctx_root root hnd hid hl hfhl hroot _ (Or.inr rfl)
            exact hFinal _ _ hr2nd hr2id (le_of_lt hr2ds) (fun _ => rfl)
              (fun _ _ => hr2ds) hstep
          · obtain ⟨hr2nd, hr2id, hr2ds, _, _, _, _, _⟩ :=
              move_ctx_in root hnd hid hl hfhl hroot pe.id _ hfP ht2root
                hpe_not_hl (Kp + 1) Kp hCp hKp _ (Or.inr rfl)
            have hstrict2 : (root.moveAfter hid pe.id).dsum < root.dsum := by
              have hw1 := weight_pos hl
              have e1 : (Kp + 1) * hl.weight = Kp * hl.weight + hl.weight := by
                ring
              rw [e1] at hr2ds
              linarith
            exact hFinal _ _ hr2nd hr2id (le_of_lt hstrict2) (fun _ => rfl)
              (fun _ _ => hstrict2) hstep
        · simp only [hpp, Option.map_some', Option.getD_some] at hstep
          obtain ⟨hfpp, hppmem, hdpp, hdisjpp⟩ :=
            flatten_target_facts root hnd (Node.elem pe pcs) hfP Kp hKp pp
              (Or.inr hpp)
          have hpp_not_hl : pp.idOf ∉ hl.idList := fun hc =>
            (hdisjpp pp.idOf (hlsub _ hc)) (idOf_mem_idList pp)
          by_cases ht2root : pp.idOf = root.idOf
          · rw [ht2root] at hstep
            obtain ⟨_, hr2nd, hr2id, hr2ds, _, _⟩ :=
              move_ctx_root root hnd hid hl hfhl hroot _ (Or.inr rfl)
            exact hFinal _ _ hr2nd hr2id (le_of_lt hr2ds) (fun _ => rfl)
              (fun _ _ => hr2ds) hstep
          · obtain ⟨hr2nd, hr2id, hr2ds, _, _, _, _, _⟩ :=
              move_ctx_in root hnd hid hl hfhl hroot pp.idOf pp hfpp ht2root
                hpp_not_hl (Kp + 1) Kp hCp hdpp _ (Or.inr rfl)
            have hstrict2 : (root.moveAfter hid pp.idOf).dsum < root.dsum := by
              have hw1 := weight_pos hl
              have e1 : (Kp + 1) * hl.weight = Kp * hl.weight + hl.weight := by
                ring
              rw [e1] at hr2ds
              linarith
            exact hFinal _ _ hr2nd hr2id (le_of_lt hstrict2) (fun _ => rfl)
              (fun _ _ => hstrict2) hstep
      · have hf2v : (root.prevSib? hid).isNone = false := by
          revert hf2
          cases (root.prevSib? hid).isNone <;> simp
        rw [if_neg hf2, hf2v] at hstep
        simp only [Bool.or_false] at hstep
        exact hFinal root a hnd rfl (Nat.le_refl _) (fun h => h)
          (fun h1 h2 => absurd (h1 ▸ h2) (by simp)) hstep


theorem flattenFold_measure : ∀ (ks : List Nat) (root : Node) (hls : List Nat)
    (a : Bool), root.idList.Nodup → ∀ (r' : Node) (h' : List Nat) (a' : Bool),
    ks.foldlM (fun st k => flattenStep st.1 st.2.1 st.2.2 k) (root, hls, a)
      = .ok (r', h', a') →
    r'.idList.Nodup ∧ r'.dsum ≤ root.dsum ∧ (a = true → a' = true) ∧
      (a = false → a' = true → r'.dsum < root.dsum) := by
  intro ks
  induction ks with
  | nil =>
    intro root hls a hnd r' h' a' h
    cases h
    exact ⟨hnd, Nat.le_refl _, fun h => h,
      fun h1 h2 => absurd (h1 ▸ h2) (by simp)⟩
  | cons k ks ih =>
    intro root hls a hnd r' h' a' h
    simp only [List.foldlM_cons] at h
    rcases hs : flattenStep root hls a k with e | st
    · rw [hs] at h
      cases h
    · obtain ⟨r1, h1, a1⟩ := st
      rw [hs] at h
      obtain ⟨nd1, _, le1, imp1, str1⟩ :=
        flattenStep_measure root hls a k hnd r1 h1 a1 hs
      obtain ⟨nd2, le2, imp2, str2⟩ := ih r1 h1 a1 nd1 r' h' a' h
      refine ⟨nd2, le2.trans le1, fun ha => imp2 (imp1 ha), ?_⟩
      intro ha ha'
      by_cases ha1 : a1 = true
      · exact lt_of_le_of_lt le2 (str1 ha ha1)
      · have ha1f : a1 = false := by
          revert ha1
          cases a1 <;> simp
        exact lt_of_lt_of_le (str2 ha1f ha') le1

theorem flattenStep_error (root : Node) (hls : List Nat) (a : Bool) (k : Nat)
    (e : List Char) (h : flattenStep root hls a k = .error e) :
    e ≠ ("fuel".toList) := by
  unfold flattenStep at h
  rcases hk : hls[k]? with _ | hid
  · simp only [hk] at h
    exact absurd h (by simp)
  simp only [hk] at h
  by_cases hroot : hid = root.idOf
  · rw [if_pos hroot] at h
    exact absurd h (by simp)
  rw [if_neg hroot] at h
  rcases hP : root.parent? hid with _ | P
  · simp only [hP] at h
    cases h
    decide
  simp only [hP] at h
  rcases hFind : P.childNodes.find? (fun c => c.idOf = hid) with _ | hl
  · simp only [hFind] at h
    exact absurd h (by simp)
  simp only [hFind] at h
  by_cases hHP : isHighlight P = true
  swap
  · rw [if_neg hHP] at h
    exact absurd h (by simp)
  rw [if_pos hHP] at h
  by_cases hSC : haveSameColor P hl = true
  · rw [if_pos hSC] at h
    rcases hHead : hl.childNodes.head? with _ | c
    · simp only [hHead] at h
      cases h
      decide
    · simp only [hHead] at h
      exact absurd h (by simp)
  · rw [if_neg hSC] at h
    exact absurd h (by simp)

theorem flattenFold_error : ∀ (ks : List Nat) (root : Node) (hls : List Nat)
    (a : Bool) (e : List Char),
    ks.foldlM (fun st k => flattenStep st.1 st.2.1 st.2.2 k) (root, hls, a)
      = .error e →
    e ≠ ("fuel".toList) := by
  intro ks
  induction ks with
  | nil =>
    intro root hls a e h
    cases h
  | cons k ks ih =>
    intro root hls a e h
    simp only [List.foldlM_cons] at h
    rcases hs : flattenStep root hls a k with e1 | st
    · rw [hs] at h
      cases h
      exact flattenStep_error root hls a k e hs
    · obtain ⟨r1, h1, a1⟩ := st
      rw [hs] at h
      exact ih r1 h1 a1 e h

theorem flattenLoop_no_fuel : ∀ (fuel : Nat) (root : Node) (hls : List Nat),
    root.idList.Nodup → root.dsum < fuel →
    flattenLoop fuel root hls ≠ .error ("fuel".toList) := by
  intro fuel
  induction fuel with
  | zero =>
    intro root hls hnd hlt
    exact absurd hlt (by omega)
  | succ f ih =>
    intro root hls hnd hlt hcontra
    rcases ho : flattenOnce root hls with e | st
    · simp only [flattenLoop, ho] at hcontra
      cases hcontra
      exact flattenFold_error _ root hls false _ ho rfl
    · obtain ⟨r1, h1, a1⟩ := st
      cases a1 with
      | false =>
        simp only [flattenLoop, ho] at hcontra
        cases hcontra
      | true =>
        simp only [flattenLoop, ho] at hcontra
        obtain ⟨nd1, _, _, str1⟩ := flattenFold_measure _ root hls false hnd r1 h1 true ho
        exact ih r1 h1 nd1 (by have := str1 rfl rfl; omega) hcontra

/-- **C4 (corrected form).** The flatten fixed-point loop of normalization
always completes within `flattenMeasure` passes on a well-formed tree: every
pass that reports a change strictly decreases the tree's total nesting
depth, so running the loop with that much fuel never exhausts it — the
loop either reaches its fixed point or throws a real DOM `TypeError`
(which, per the counterexample, it can). -/
theorem flatten_terminates (root : Node) (hls : List Nat)
    (hnd : root.idList.Nodup) :
    normalizeHighlights root hls ≠ .error ("fuel".toList) ∧
    flattenNestedHighlights root hls ≠ .error ("fuel".toList) ∧
    (∀ (r1 : Node) (h1 : List Nat) (a1 : Bool),
      flattenOnce root hls = .ok (r1, h1, a1) → a1 = true →
        r1.dsum < root.dsum) := by
  have hflat : flattenNestedHighlights root hls ≠ .error ("fuel".toList) := by
    unfold flattenNestedHighlights
    exact flattenLoop_no_fuel (flattenMeasure root (sortByDepth root hls true) + 1)
      root (sortByDepth root hls true) hnd (by unfold flattenMeasure; omega)
  refine ⟨?_, hflat, ?_⟩
  · unfold normalizeHighlights
    rcases hf : flattenNestedHighlights root hls with e | st
    · simpa [hf] using hflat
    · obtain ⟨r1, h1⟩ := st
      simp
  · intro r1 h1 a1 ho ha1
    obtain ⟨_, _, _, str1⟩ := flattenFold_measure _ root hls false hnd r1 h1 a1 ho
    exact str1 rfl ha1

theorem flatten_terminates_witness :
    docOneMarker.root.idList.Nodup ∧
    normalizeHighlights docOneMarker.root [1] ≠ .error ("fuel".toList) :=
  ⟨by decide, (flatten_terminates docOneMarker.root [1] (by decide)).1⟩

end TH
